import Mathlib

/-! # Package `container` of `go2-generic-containers`

A shallow embedding of the balanced ordered map (`avltree.go`, `compare.go`) and
of the deque, vector, doubly linked list and insertion-ordered map
(`arraydeque.go`, `vector.go`, `list.go`, `orderedmap.go`) of package `container`.

* A `*avlNode[K,V]` is an inductive tree: `avlNode.nil` is the nil pointer, and
  `avlNode.node Key Value Left Right size height` is a pointer to a struct with
  the fields of the Go declaration, in the order of the declaration.
* In-place mutation becomes explicit value passing: a method that mutates its
  receiver returns the new node.
* A nil-pointer dereference (a Go run-time panic) is the result `none`; this is
  why the rotations, `fix`, `insert` and `remove` return an `Option`.
* Go `int` is embedded as `Int`: the cached `size` and `height` of a tree that
  fits in memory stay far below `2^63`, so no wrap-around is involved.
* The zero value of a Go type is `default` of an `Inhabited` instance.
* A slice is the list of its elements; an out-of-range index or slice expression
  (a run-time panic) is the result `none`.
* The doubly linked list shares its elements by pointer, so it lives in an explicit
  memory `Heap`: a pointer is an address, and each method maps a memory to a memory.
* The recursive methods and the loops of `avltree.go` are structurally recursive
  functions; they are also given with an explicit bound on the depth of the
  recursion, against which termination is stated.
-/

namespace container

/-! ## compare.go -/

/-- CmpLess of `compare.go`, at an ordered type. -/
def CmpLess {T : Type} [LinearOrder T] (x y : T) : Int :=
  if x = y then 0
  else if x > y then 1
  else -1

/-! ## avltree.go: nodes -/

/-- The node structure `avlNode[K,V]`; `nil` is the nil pointer. -/
inductive avlNode (K V : Type) where
  | nil : avlNode K V
  | node (Key : K) (Value : V) (Left Right : avlNode K V) (size height : Int) : avlNode K V
  deriving DecidableEq, Repr

/-- The helper `max` of `avltree.go`. -/
def max (x y : Int) : Int :=
  if x > y then x else y

namespace avlNode

variable {K V : Type}

/-- Height of a node, the cached field; the nil node returns 0. -/
def Height : avlNode K V → Int
  | nil => 0
  | node _ _ _ _ _ height => height

/-- Size of a node, the cached field; the nil node returns 0. -/
def Size : avlNode K V → Int
  | nil => 0
  | node _ _ _ _ size _ => size

/-- Maintain recomputes the cached size and height from the children's cached
fields; no-op on the nil node. -/
def Maintain : avlNode K V → avlNode K V
  | nil => nil
  | node k v l r _ _ =>
      node k v l r (1 + l.Size + r.Size) (1 + container.max l.Height r.Height)

/-- Bal is the cached height of the left child minus that of the right child. -/
def Bal : avlNode K V → Int
  | nil => 0
  | node _ _ l r _ _ => l.Height - r.Height

end avlNode

open avlNode

variable {K V : Type}

/-! ## avltree.go: rotations and fix-up -/

/-- The method `rotateLeft`: `root := node.Right; node.Right = root.Left;
root.Left = node; node.Maintain(); root.Maintain()`. Dereferencing a nil
`node` or a nil `node.Right` panics. -/
def rotateLeft : avlNode K V → Option (avlNode K V)
  | node k v l (node rk rv rl rr rs rh) s h =>
      some (Maintain (node rk rv (Maintain (node k v l rl s h)) rr rs rh))
  | _ => none

/-- The method `rotateRight`, the mirror of `rotateLeft`. -/
def rotateRight : avlNode K V → Option (avlNode K V)
  | node k v (node lk lv ll lr ls lh) r s h =>
      some (Maintain (node lk lv ll (Maintain (node k v lr r s h)) ls lh))
  | _ => none

/-- The method `fix`: no change when the cached balance factor is in `[-1, 1]`,
otherwise one or two rotations. -/
def fix (n : avlNode K V) : Option (avlNode K V) :=
  if -1 ≤ n.Bal ∧ n.Bal ≤ 1 then some n
  else if n.Bal > 1 then
    match n with
    | nil => none
    | node k v l r s h =>
        if l.Bal < 0 then
          match rotateLeft l with
          | none => none
          | some l1 => rotateRight (node k v l1 r s h)
        else rotateRight (node k v l r s h)
  else
    match n with
    | nil => none
    | node k v l r s h =>
        if r.Bal > 0 then
          match rotateRight r with
          | none => none
          | some r1 => rotateLeft (node k v l r1 s h)
        else rotateLeft (node k v l r s h)

/-! ## avltree.go: insert and remove -/

/-- The recursive method `insert`. -/
def insert (cmp : K → K → Int) : avlNode K V → K → V → Option (avlNode K V)
  | nil, key, value => some (node key value nil nil 1 1)
  | node k v l r s h, key, value =>
      if cmp k key = 0 then some (node k value l r s h)
      else if cmp k key > 0 then
        match insert cmp l key value with
        | none => none
        | some l1 => fix (Maintain (node k v l1 r s h))
      else
        match insert cmp r key value with
        | none => none
        | some r1 => fix (Maintain (node k v l r1 s h))

/-- The loop of `successor`: `for node.Left != nil { node = node.Left }`, which
dereferences `node`. -/
def successorLoop : avlNode K V → Option (avlNode K V)
  | nil => none
  | node k v nil r s h => some (node k v nil r s h)
  | node _ _ (node lk lv ll lr ls lh) _ _ _ => successorLoop (node lk lv ll lr ls lh)

/-- The method `successor`: the leftmost node of `node.Right`. -/
def successor : avlNode K V → Option (avlNode K V)
  | nil => none
  | node _ _ _ r _ _ => successorLoop r

/-- The recursive method `remove`. -/
def remove (cmp : K → K → Int) : avlNode K V → K → Option (avlNode K V)
  | nil, _ => some nil
  | node k v l r s h, key =>
      if cmp k key = 0 then
        match l, r with
        | nil, nil => some nil
        | nil, r0 => some r0
        | l0, nil => some l0
        | l0, r0 =>
            match successor (node k v l0 r0 s h) with
            | some (node nk nv _ _ _ _) =>
                match remove cmp r nk with
                | none => none
                | some r1 => fix (Maintain (node nk nv l0 r1 s h))
            | _ => none
      else if cmp k key > 0 then
        match remove cmp l key with
        | none => none
        | some l1 => fix (Maintain (node k v l1 r s h))
      else
        match remove cmp r key with
        | none => none
        | some r1 => fix (Maintain (node k v l r1 s h))

/-! ## avltree.go: the queries, as loops over the current node -/

section queries

variable [Inhabited K] [Inhabited V]

/-- The loop of `Get`; the named results start at their zero values. -/
def getLoop (cmp : K → K → Int) : avlNode K V → K → V × Bool
  | nil, _ => (default, false)
  | node k v l r _ _, key =>
      if cmp k key = 0 then (v, true)
      else if cmp k key > 0 then getLoop cmp l key
      else getLoop cmp r key

/-- The loop of `GetFloor`, from the current values of the named results. -/
def getFloorLoop (cmp : K → K → Int) : avlNode K V → K → K × V × Bool → K × V × Bool
  | nil, _, acc => acc
  | node k v l r _ _, key, acc =>
      if cmp k key = 0 then (k, v, true)
      else if cmp k key > 0 then getFloorLoop cmp l key acc
      else getFloorLoop cmp r key (k, v, true)

/-- The loop of `GetCeiling`, from the current values of the named results. -/
def getCeilingLoop (cmp : K → K → Int) : avlNode K V → K → K × V × Bool → K × V × Bool
  | nil, _, acc => acc
  | node k v l r _ _, key, acc =>
      if cmp k key = 0 then (k, v, true)
      else if cmp k key > 0 then getCeilingLoop cmp l key (k, v, true)
      else getCeilingLoop cmp r key acc

/-- The loop of `GetLower`, from the current values of the named results. -/
def getLowerLoop (cmp : K → K → Int) : avlNode K V → K → K × V × Bool → K × V × Bool
  | nil, _, acc => acc
  | node k v l r _ _, key, acc =>
      if cmp k key ≥ 0 then getLowerLoop cmp l key acc
      else getLowerLoop cmp r key (k, v, true)

/-- The loop of `GetHigher`, from the current values of the named results. -/
def getHigherLoop (cmp : K → K → Int) : avlNode K V → K → K × V × Bool → K × V × Bool
  | nil, _, acc => acc
  | node k v l r _ _, key, acc =>
      if cmp k key ≤ 0 then getHigherLoop cmp r key acc
      else getHigherLoop cmp l key (k, v, true)

/-- The loop of `GetFirst`, `for node != nil && node.Left != nil { node = node.Left }`:
the node at which it stops. -/
def getFirstLoop : avlNode K V → avlNode K V
  | nil => nil
  | node k v nil r s h => node k v nil r s h
  | node _ _ (node lk lv ll lr ls lh) _ _ _ => getFirstLoop (node lk lv ll lr ls lh)

/-- The loop of `GetLast`, `for node != nil && node.Right != nil { node = node.Right }`:
the node at which it stops. -/
def getLastLoop : avlNode K V → avlNode K V
  | nil => nil
  | node k v l nil s h => node k v l nil s h
  | node _ _ _ (node rk rv rl rr rs rh) _ _ => getLastLoop (node rk rv rl rr rs rh)

end queries

/-! ## avltree.go: the tree -/

/-- The structure `AVLTree[K,V]`: the root and the comparator. -/
structure AVLTree (K V : Type) where
  root : avlNode K V
  cmp : K → K → Int

/-- NewAVLTree creates an empty tree with the given comparator. -/
def NewAVLTree (cmp : K → K → Int) : AVLTree K V :=
  { root := nil, cmp := cmp }

namespace AVLTree

/-- Len returns the cached size of the root. -/
def Len (t : AVLTree K V) : Int := t.root.Size

/-- Insert replaces the root by the result of `insert`. -/
def Insert (t : AVLTree K V) (key : K) (value : V) : Option (AVLTree K V) :=
  match insert t.cmp t.root key value with
  | none => none
  | some r => some { t with root := r }

/-- Remove replaces the root by the result of `remove`. -/
def Remove (t : AVLTree K V) (key : K) : Option (AVLTree K V) :=
  match remove t.cmp t.root key with
  | none => none
  | some r => some { t with root := r }

/-- Clear discards the root. -/
def Clear (t : AVLTree K V) : AVLTree K V := { t with root := nil }

variable [Inhabited K] [Inhabited V]

/-- Get returns the value of the key and whether it was found. -/
def Get (t : AVLTree K V) (key : K) : V × Bool := getLoop t.cmp t.root key

/-- GetFloor returns the entry less than or equal to the given key, if any. -/
def GetFloor (t : AVLTree K V) (key : K) : K × V × Bool :=
  getFloorLoop t.cmp t.root key (default, default, false)

/-- GetCeiling returns the entry greater than or equal to the given key, if any. -/
def GetCeiling (t : AVLTree K V) (key : K) : K × V × Bool :=
  getCeilingLoop t.cmp t.root key (default, default, false)

/-- GetLower returns the entry less than the given key, if any. -/
def GetLower (t : AVLTree K V) (key : K) : K × V × Bool :=
  getLowerLoop t.cmp t.root key (default, default, false)

/-- GetHigher returns the entry greater than the given key, if any. -/
def GetHigher (t : AVLTree K V) (key : K) : K × V × Bool :=
  getHigherLoop t.cmp t.root key (default, default, false)

/-- GetFirst returns the smallest entry, if any: the results are set when the
loop stops at a node. -/
def GetFirst (t : AVLTree K V) : K × V × Bool :=
  match getFirstLoop t.root with
  | nil => (default, default, false)
  | node k v _ _ _ _ => (k, v, true)

/-- GetLast returns the greatest entry, if any: the results are set when the
loop stops at a node. -/
def GetLast (t : AVLTree K V) : K × V × Bool :=
  match getLastLoop t.root with
  | nil => (default, default, false)
  | node k v _ _ _ _ => (k, v, true)

end AVLTree

end container

/-! ## Specification vocabulary -/

namespace container

open avlNode

variable {K V : Type}

namespace avlNode

/-- True recursive height of a subtree: absent subtree 0, leaf 1. -/
def trueHeight : avlNode K V → Nat
  | nil => 0
  | node _ _ l r _ _ => 1 + Max.max l.trueHeight r.trueHeight

/-- True number of nodes of a subtree. -/
def trueSize : avlNode K V → Nat
  | nil => 0
  | node _ _ l r _ _ => 1 + l.trueSize + r.trueSize

/-- In-order traversal of the entries. -/
def toList : avlNode K V → List (K × V)
  | nil => []
  | node k v l r _ _ => l.toList ++ (k, v) :: r.toList

/-- In-order traversal of the keys. -/
def keys (t : avlNode K V) : List K := t.toList.map Prod.fst

/-- Balance invariant: at every node the true heights of the two subtrees
differ by -1, 0 or 1. -/
def Balanced : avlNode K V → Prop
  | nil => True
  | node _ _ l r _ _ =>
      Balanced l ∧ Balanced r ∧
        ((l.trueHeight : Int) - r.trueHeight = -1 ∨ (l.trueHeight : Int) - r.trueHeight = 0 ∨
          (l.trueHeight : Int) - r.trueHeight = 1)

/-- Cache invariant: at every node the cached height is one more than the larger
true height of the children and the cached size is the true node count. -/
def CachesOK : avlNode K V → Prop
  | nil => True
  | node _ _ l r s h =>
      CachesOK l ∧ CachesOK r ∧ h = 1 + Max.max (l.trueHeight : Int) (r.trueHeight : Int) ∧
        s = 1 + (l.trueSize : Int) + (r.trueSize : Int)

/-- Order invariant: at every node the keys of the left subtree compare less
than the node's key and the keys of the right subtree compare greater. -/
def BST (cmp : K → K → Int) : avlNode K V → Prop
  | nil => True
  | node k _ l r _ _ =>
      BST cmp l ∧ BST cmp r ∧ (∀ x ∈ l.keys, cmp x k < 0) ∧ (∀ x ∈ r.keys, cmp x k > 0)

instance decBalanced : (t : avlNode K V) → Decidable (Balanced t)
  | nil => isTrue trivial
  | node _ _ l r _ _ =>
      have := decBalanced l
      have := decBalanced r
      inferInstanceAs (Decidable (_ ∧ _ ∧ _))

instance decCachesOK : (t : avlNode K V) → Decidable (CachesOK t)
  | nil => isTrue trivial
  | node _ _ l r _ _ =>
      have := decCachesOK l
      have := decCachesOK r
      inferInstanceAs (Decidable (_ ∧ _ ∧ _ ∧ _))

instance decBST (cmp : K → K → Int) : (t : avlNode K V) → Decidable (BST cmp t)
  | nil => isTrue trivial
  | node _ _ l r _ _ =>
      have := decBST cmp l
      have := decBST cmp r
      inferInstanceAs (Decidable (_ ∧ _ ∧ _ ∧ _))

end avlNode

/-- A well-formed subtree: ordered, balanced, with correct cached fields. -/
def WellFormed (cmp : K → K → Int) (t : avlNode K V) : Prop :=
  BST cmp t ∧ Balanced t ∧ CachesOK t

/-- The comparator contract: a three-way comparison of a total (pre)order. It is
zero on equal arguments, swapping the arguments flips the sign, and "at most"
is transitive. -/
structure LawfulCmp (cmp : K → K → Int) : Prop where
  refl : ∀ a, cmp a a = 0
  antisymm : ∀ a b, Int.sign (cmp a b) = - Int.sign (cmp b a)
  trans : ∀ a b c, cmp a b ≤ 0 → cmp b c ≤ 0 → cmp a c ≤ 0

/-- Insertion into an association list that is sorted by key: the in-order view
of `Insert`. An entry with an equal key keeps its key and takes the new value. -/
def insList (cmp : K → K → Int) (key : K) (value : V) : List (K × V) → List (K × V)
  | [] => [(key, value)]
  | (a, b) :: xs =>
      if cmp a key = 0 then (a, value) :: xs
      else if cmp a key > 0 then (key, value) :: (a, b) :: xs
      else (a, b) :: insList cmp key value xs

/-- Deletion from an association list: the in-order view of `Remove`. -/
def delList (cmp : K → K → Int) (key : K) (xs : List (K × V)) : List (K × V) :=
  xs.filter (fun e => decide (cmp e.1 key ≠ 0))

/-- Lookup in an association list: the in-order view of `Get`. -/
def lookupList [Inhabited V] (cmp : K → K → Int) (key : K) : List (K × V) → V × Bool
  | [] => (default, false)
  | (a, b) :: xs => if cmp a key = 0 then (b, true) else lookupList cmp key xs

/-- One call of the public mutating interface. -/
inductive Op (K V : Type) where
  | Insert (key : K) (value : V) : Op K V
  | Remove (key : K) : Op K V
  | Clear : Op K V

/-- Perform one call on a tree. -/
def Op.apply (t : AVLTree K V) : Op K V → Option (AVLTree K V)
  | Op.Insert key value => t.Insert key value
  | Op.Remove key => t.Remove key
  | Op.Clear => some t.Clear

/-- Perform a sequence of calls, first to last. -/
def runOps : AVLTree K V → List (Op K V) → Option (AVLTree K V)
  | t, [] => some t
  | t, op :: ops =>
      match op.apply t with
      | none => none
      | some t1 => runOps t1 ops

/-- The keys that a sequence of calls leaves stored, read abstractly: `Insert`
adds its key unless a key comparing equal is already there, `Remove` drops the
keys comparing equal to its key, `Clear` drops every key. -/
def liveKeys (cmp : K → K → Int) : List K → List (Op K V) → List K
  | acc, [] => acc
  | acc, Op.Insert key _ :: ops =>
      liveKeys cmp (if acc.any (fun x => decide (cmp x key = 0)) then acc else key :: acc) ops
  | acc, Op.Remove key :: ops =>
      liveKeys cmp (acc.filter (fun x => decide (cmp x key ≠ 0))) ops
  | _, Op.Clear :: ops => liveKeys cmp [] ops

instance decWellFormed (cmp : K → K → Int) (t : avlNode K V) : Decidable (WellFormed cmp t) :=
  inferInstanceAs (Decidable (_ ∧ _ ∧ _))

/-- The same tree, shape, keys and cached fields, with the value of every node
replaced by `f key value`. -/
def avlNode.mapValues (f : K → V → V) : avlNode K V → avlNode K V
  | nil => nil
  | node k v l r s h => node k (f k v) (avlNode.mapValues f l) (avlNode.mapValues f r) s h

/-- The in-order view of the loop of `GetFloor`: the last entry whose key is at
most the query replaces the named results. -/
def floorList (cmp : K → K → Int) (key : K) (acc : K × V × Bool) (xs : List (K × V)) :
    K × V × Bool :=
  xs.foldl (fun a e => if cmp e.1 key ≤ 0 then (e.1, e.2, true) else a) acc

/-- The in-order view of the loop of `GetLower`: the last entry whose key is
below the query replaces the named results. -/
def lowerList (cmp : K → K → Int) (key : K) (acc : K × V × Bool) (xs : List (K × V)) :
    K × V × Bool :=
  xs.foldl (fun a e => if cmp e.1 key < 0 then (e.1, e.2, true) else a) acc

/-- The in-order view of the loop of `GetCeiling`: the first entry whose key is
at least the query replaces the named results. -/
def ceilingList (cmp : K → K → Int) (key : K) (acc : K × V × Bool) (xs : List (K × V)) :
    K × V × Bool :=
  xs.foldr (fun e a => if cmp e.1 key ≥ 0 then (e.1, e.2, true) else a) acc

/-- The in-order view of the loop of `GetHigher`: the first entry whose key is
above the query replaces the named results. -/
def higherList (cmp : K → K → Int) (key : K) (acc : K × V × Bool) (xs : List (K × V)) :
    K × V × Bool :=
  xs.foldr (fun e a => if cmp e.1 key > 0 then (e.1, e.2, true) else a) acc

/-- The tree of the test `testAVLTree` after inserting 3, 2, 4, 1, 5 with value 0. -/
def tree12345 : avlNode Int Int :=
  node 3 0 (node 2 0 (node 1 0 nil nil 1 1) nil 2 2) (node 4 0 nil (node 5 0 nil nil 1 1) 2 2) 5 3

end container

namespace container

open avlNode

variable {K V : Type}

/-! ## compare.go, continued -/

/-- CmpGreater of `compare.go`: `CmpLess` with the arguments swapped. -/
def CmpGreater {T : Type} [LinearOrder T] (x y : T) : Int :=
  CmpLess y x

/-- CmpSliceLess of `compare.go`. The loop runs `i = j` from 0 while `i < len(x)`
or `j < len(y)`; its state here is the pair of remaining suffixes `x[i:]`, `y[j:]`. -/
def CmpSliceLess {T : Type} [LinearOrder T] : List T → List T → Int
  | [], [] => 0
  | [], _ :: _ => -1
  | _ :: _, [] => 1
  | a :: xs, b :: ys =>
      if a < b then -1
      else if a > b then 1
      else CmpSliceLess xs ys

/-- CmpSliceGreater of `compare.go`: `CmpSliceLess` with the arguments swapped. -/
def CmpSliceGreater {T : Type} [LinearOrder T] (x y : List T) : Int :=
  CmpSliceLess y x

/-- Lexicographic "less than" on slices, in the words of the specification: past
a common prefix either `x` ends and `y` goes on, or the first differing elements
are in order. -/
def LexLt {T : Type} [LinearOrder T] (x y : List T) : Prop :=
  ∃ p : List T, (∃ b t, x = p ∧ y = p ++ b :: t) ∨
    (∃ a s b t, x = p ++ a :: s ∧ y = p ++ b :: t ∧ a < b)

/-! ## avltree.go: Has and MustGet -/

namespace AVLTree

variable [Inhabited V]

/-- Has reports whether `Get` finds the key. -/
def Has (t : AVLTree K V) (key : K) : Bool :=
  (t.Get key).2

/-- MustGet returns the value `Get` finds, and the zero value when the key is
not found. -/
def MustGet (t : AVLTree K V) (key : K) : V :=
  if (t.Get key).2 = true then (t.Get key).1 else default

end AVLTree

/-! ## arraydeque.go -/

/-- The structure `ArrayDeque[T]`; a slice is embedded as the list of its elements. -/
structure ArrayDeque (T : Type) where
  left : List T
  right : List T

/-- NewArrayDeque returns an empty deque. -/
def NewArrayDeque {T : Type} : ArrayDeque T :=
  { left := [], right := [] }

namespace ArrayDeque

variable {T : Type}

/-- Len is `len(d.left) + len(d.right)`. -/
def Len (d : ArrayDeque T) : Int := (d.left.length : Int) + (d.right.length : Int)

/-- PushBack appends to `right`. -/
def PushBack (d : ArrayDeque T) (x : T) : ArrayDeque T :=
  { d with right := d.right ++ [x] }

/-- PushFront appends to `left`. -/
def PushFront (d : ArrayDeque T) (x : T) : ArrayDeque T :=
  { d with left := d.left ++ [x] }

/-- PopBack: the result is `none` when the call panics. -/
def PopBack (d : ArrayDeque T) : Option (T × ArrayDeque T) :=
  if d.Len = 0 then none
  else if d.right.length ≠ 0 then
    match d.right[d.right.length - 1]? with
    | none => none
    | some x => some (x, { d with right := d.right.take (d.right.length - 1) })
  else
    match d.left[0]? with
    | none => none
    | some x => some (x, { d with left := d.left.drop 1 })

/-- PopFront: the result is `none` when the call panics. -/
def PopFront (d : ArrayDeque T) : Option (T × ArrayDeque T) :=
  if d.Len = 0 then none
  else if d.left.length ≠ 0 then
    match d.left[d.left.length - 1]? with
    | none => none
    | some x => some (x, { d with left := d.left.take (d.left.length - 1) })
  else
    match d.right[0]? with
    | none => none
    | some x => some (x, { d with right := d.right.drop 1 })

/-- Back: the result is `none` when the call panics. -/
def Back (d : ArrayDeque T) : Option T :=
  if d.Len = 0 then none
  else if d.right.length ≠ 0 then d.right[d.right.length - 1]?
  else d.left[0]?

/-- Front: the result is `none` when the call panics. -/
def Front (d : ArrayDeque T) : Option T :=
  if d.Len = 0 then none
  else if d.left.length ≠ 0 then d.left[d.left.length - 1]?
  else d.right[0]?

/-- The abstract sequence of a deque, front to back. -/
def seq (d : ArrayDeque T) : List T := d.left.reverse ++ d.right

end ArrayDeque

/-! ## vector.go -/

/-- The type `Vector[T]`, a slice, embedded as the list of its elements. -/
def Vector (T : Type) : Type := List T

namespace Vector

variable {T : Type}

/-- Len is `len(v)`. -/
def Len (v : Vector T) : Int := (List.length v : Int)

/-- Insert: `append(old[:i], append([]T{t}, old[i:]...)...)`; the slice
expressions panic, result `none`, unless `0 <= i <= len(old)`. -/
def Insert (v : Vector T) (i : Int) (t : T) : Option (Vector T) :=
  if 0 ≤ i ∧ i ≤ (List.length v : Int) then
    some (List.take i.toNat v ++ ([t] ++ List.drop i.toNat v))
  else none

/-- Remove: `x := old[i]; append(old[:i], old[i+1:]...)`; the index expression
panics, result `none`, unless `0 <= i < len(old)`. -/
def Remove (v : Vector T) (i : Int) : Option (T × Vector T) :=
  if 0 ≤ i ∧ i < (List.length v : Int) then
    match List.get? v i.toNat with
    | none => none
    | some x => some (x, List.take i.toNat v ++ List.drop (i.toNat + 1) v)
  else none

end Vector

end container

namespace container

/-! ## list.go

The doubly linked list is a pointer structure, so it is embedded over an explicit
memory: a pointer is an address (`none` is nil), a method takes the memory and
returns the new memory, and a nil dereference is the result `none`. -/

/-- The struct `Element[T]`. -/
structure Element (T : Type) where
  Value : T
  prev : Option Nat
  next : Option Nat
  list : Option Nat

/-- The struct `List[T]` (named `LinkedList` here, `List` being the type of lists). -/
structure LinkedList where
  sentinel : Option Nat
  size : Int

/-- The memory: the allocated `Element[T]` and `List[T]` structs by address, and
the next fresh address of each kind. -/
structure Heap (T : Type) where
  elems : Nat → Option (Element T)
  lists : Nat → Option LinkedList
  freeElem : Nat
  freeList : Nat

namespace Heap

variable {T : Type}

/-- The memory with nothing allocated. -/
def empty : Heap T :=
  { elems := fun _ => none, lists := fun _ => none, freeElem := 0, freeList := 0 }

/-- Read through an element pointer. -/
def getE (h : Heap T) : Option Nat → Option (Element T)
  | none => none
  | some a => h.elems a

/-- The memory with the element at address `a` replaced. -/
def putE (h : Heap T) (a : Nat) (E : Element T) : Heap T :=
  { h with elems := fun x => if x = a then some E else h.elems x }

/-- Write through an element pointer. -/
def modE (h : Heap T) (p : Option Nat) (f : Element T → Element T) : Option (Heap T) :=
  match h.getE p, p with
  | some E, some a => some (h.putE a (f E))
  | _, _ => none

/-- Allocate an element. -/
def allocE (h : Heap T) (E : Element T) : Heap T × Nat :=
  ({ h with elems := fun x => if x = h.freeElem then some E else h.elems x,
            freeElem := h.freeElem + 1 }, h.freeElem)

/-- Read through a list pointer. -/
def getL (h : Heap T) (l : Nat) : Option LinkedList := h.lists l

/-- Write through a list pointer. -/
def modL (h : Heap T) (l : Nat) (f : LinkedList → LinkedList) : Option (Heap T) :=
  match h.lists l with
  | some L => some { h with lists := fun x => if x = l then some (f L) else h.lists x }
  | none => none

/-- Allocate a list struct. -/
def allocL (h : Heap T) (L : LinkedList) : Heap T × Nat :=
  ({ h with lists := fun x => if x = h.freeList then some L else h.lists x,
            freeList := h.freeList + 1 }, h.freeList)

end Heap

variable {T : Type}

/-- The method `Element.Prev`. -/
def Element.Prev (h : Heap T) (e : Option Nat) : Option (Option Nat) := do
  let E ← h.getE e
  match E.list with
  | none => some none
  | some l => do
      let L ← h.getL l
      if E.prev ≠ L.sentinel then some E.prev else some none

/-- The method `Element.Next`. -/
def Element.Next (h : Heap T) (e : Option Nat) : Option (Option Nat) := do
  let E ← h.getE e
  match E.list with
  | none => some none
  | some l => do
      let L ← h.getL l
      if E.next ≠ L.sentinel then some E.next else some none

/-- NewList allocates the sentinel, links it to itself, and allocates the list. -/
def NewList [Inhabited T] (h : Heap T) : Option (Heap T × Nat) := do
  let (h1, s) := h.allocE { Value := default, prev := none, next := none, list := none }
  let h2 ← h1.modE (some s) (fun E => { E with prev := some s })
  let h3 ← h2.modE (some s) (fun E => { E with next := some s })
  let (h4, l) := h3.allocL { sentinel := some s, size := 0 }
  let h5 ← h4.modE (some s) (fun E => { E with list := some l })
  some (h5, l)

namespace LinkedList

/-- Back is `l.sentinel.Prev()`. -/
def Back (h : Heap T) (l : Nat) : Option (Option Nat) := do
  let L ← h.getL l
  Element.Prev h L.sentinel

/-- Front is `l.sentinel.Next()`. -/
def Front (h : Heap T) (l : Nat) : Option (Option Nat) := do
  let L ← h.getL l
  Element.Next h L.sentinel

/-- Clear: the five assignments of the method, in order. -/
def Clear (h : Heap T) (l : Nat) : Option (Heap T) := do
  let L ← h.getL l
  let S ← h.getE L.sentinel
  let h1 ← h.modE S.next (fun E => { E with prev := none })
  let S1 ← h1.getE L.sentinel
  let h2 ← h1.modE S1.prev (fun E => { E with next := none })
  let h3 ← h2.modE L.sentinel (fun E => { E with prev := L.sentinel })
  let h4 ← h3.modE L.sentinel (fun E => { E with next := L.sentinel })
  h4.modL l (fun L0 => { L0 with size := 0 })

/-- The method `insertAfter`: six assignments. -/
def insertAfter (h : Heap T) (l : Nat) (e mark : Option Nat) : Option (Heap T) := do
  let M ← h.getE mark
  let h1 ← h.modE e (fun E => { E with next := M.next })
  let h2 ← h1.modE e (fun E => { E with prev := mark })
  let E2 ← h2.getE e
  let h3 ← h2.modE E2.next (fun N => { N with prev := e })
  let E3 ← h3.getE e
  let h4 ← h3.modE E3.prev (fun P => { P with next := e })
  let h5 ← h4.modE e (fun E => { E with list := some l })
  h5.modL l (fun L0 => { L0 with size := L0.size + 1 })

/-- The method `insertBefore`: six assignments. -/
def insertBefore (h : Heap T) (l : Nat) (e mark : Option Nat) : Option (Heap T) := do
  let h1 ← h.modE e (fun E => { E with next := mark })
  let M ← h1.getE mark
  let h2 ← h1.modE e (fun E => { E with prev := M.prev })
  let E2 ← h2.getE e
  let h3 ← h2.modE E2.next (fun N => { N with prev := e })
  let E3 ← h3.getE e
  let h4 ← h3.modE E3.prev (fun P => { P with next := e })
  let h5 ← h4.modE e (fun E => { E with list := some l })
  h5.modL l (fun L0 => { L0 with size := L0.size + 1 })

/-- InsertAfter: nothing happens unless `mark.list == l`; the result holds the
new element pointer, nil when nothing was inserted. -/
def InsertAfter (h : Heap T) (l : Nat) (t : T) (mark : Option Nat) :
    Option (Heap T × Option Nat) := do
  let M ← h.getE mark
  if M.list ≠ some l then some (h, none)
  else do
    let (h1, e) := h.allocE { Value := t, prev := none, next := none, list := none }
    let h2 ← insertAfter h1 l (some e) mark
    some (h2, some e)

/-- InsertBefore: nothing happens unless `mark.list == l`. -/
def InsertBefore (h : Heap T) (l : Nat) (t : T) (mark : Option Nat) :
    Option (Heap T × Option Nat) := do
  let M ← h.getE mark
  if M.list ≠ some l then some (h, none)
  else do
    let (h1, e) := h.allocE { Value := t, prev := none, next := none, list := none }
    let h2 ← insertBefore h1 l (some e) mark
    some (h2, some e)

/-- Len is `l.size`. -/
def Len (h : Heap T) (l : Nat) : Option Int := do
  let L ← h.getL l
  some L.size

/-- Remove: unlinks `e` when `e.list == l`, and returns `e.Value`. -/
def Remove (h : Heap T) (l : Nat) (e : Option Nat) : Option (Heap T × T) := do
  let E ← h.getE e
  if E.list = some l then do
    let h1 ← h.modE E.prev (fun P => { P with next := E.next })
    let E1 ← h1.getE e
    let h2 ← h1.modE E1.next (fun N => { N with prev := E1.prev })
    let h3 ← h2.modE e (fun X => { X with next := none })
    let h4 ← h3.modE e (fun X => { X with prev := none })
    let h5 ← h4.modE e (fun X => { X with list := none })
    let h6 ← h5.modL l (fun L0 => { L0 with size := L0.size - 1 })
    let E6 ← h6.getE e
    some (h6, E6.Value)
  else some (h, E.Value)

/-- MoveAfter: nothing happens unless both are elements of `l` and differ. -/
def MoveAfter (h : Heap T) (l : Nat) (e mark : Option Nat) : Option (Heap T) := do
  let E ← h.getE e
  if E.list ≠ some l then some h
  else do
    let M ← h.getE mark
    if M.list ≠ some l ∨ e = mark then some h
    else do
      let (h1, _) ← Remove h l e
      insertAfter h1 l e mark

/-- MoveBefore: nothing happens unless both are elements of `l` and differ. -/
def MoveBefore (h : Heap T) (l : Nat) (e mark : Option Nat) : Option (Heap T) := do
  let E ← h.getE e
  if E.list ≠ some l then some h
  else do
    let M ← h.getE mark
    if M.list ≠ some l ∨ e = mark then some h
    else do
      let (h1, _) ← Remove h l e
      insertBefore h1 l e mark

/-- PushBack is `l.InsertBefore(t, l.sentinel)`. -/
def PushBack (h : Heap T) (l : Nat) (t : T) : Option (Heap T × Option Nat) := do
  let L ← h.getL l
  InsertBefore h l t L.sentinel

/-- PushFront is `l.InsertAfter(t, l.sentinel)`. -/
def PushFront (h : Heap T) (l : Nat) (t : T) : Option (Heap T × Option Nat) := do
  let L ← h.getL l
  InsertAfter h l t L.sentinel

/-- The element pointers reached from `e` by following `Next()`, at most `fuel`
of them. -/
def walk (h : Heap T) : Nat → Option Nat → Option (List Nat)
  | 0, _ => some []
  | _ + 1, none => some []
  | fuel + 1, some a => do
      let nx ← Element.Next h (some a)
      let rest ← walk h fuel nx
      some (a :: rest)

/-- The sequence of elements reached from `Front()` by following `Next()`. -/
def elements (h : Heap T) (l : Nat) (fuel : Nat) : Option (List Nat) := do
  let f ← Front h l
  walk h fuel f

end LinkedList

end container

namespace container

/-! ## orderedmap.go -/

/-- The struct `Pair[K,V]` of pair.go. -/
structure Pair (K V : Type) where
  Key : K
  Value : V

instance {K V : Type} [Inhabited K] [Inhabited V] : Inhabited (Pair K V) :=
  ⟨{ Key := default, Value := default }⟩

/-- The struct `OrderedMap[K,V]`. The built-in map `mp` from keys to element
pointers is embedded as an association list, whose keys are compared with the
`==` of the key type; `list` is the pointer to the list. -/
structure OrderedMap (K : Type) where
  mp : List (K × Option Nat)
  list : Nat

/-- The constraint `comparable` on the key type: the operator `==` of Go, which
the built-in map uses to compare keys. It need not be reflexive: `NaN != NaN` at
the floating-point types. -/
class Comparable (K : Type) where
  eq : K → K → Bool

/-- The operator `==` on `int`. -/
instance : Comparable Int := ⟨fun a b => decide (a = b)⟩

/-- A model of `float64` keys: NaN and the floats with an integer value. -/
inductive FloatKey where
  | NaN : FloatKey
  | num (x : Int) : FloatKey
  deriving DecidableEq, Repr

/-- The operator `==` on `float64`: NaN is equal to nothing, itself included. -/
instance : Comparable FloatKey :=
  ⟨fun a b =>
    match a, b with
    | FloatKey.num x, FloatKey.num y => decide (x = y)
    | _, _ => false⟩

/-- The zero value of `float64`. -/
instance : Inhabited FloatKey := ⟨FloatKey.num 0⟩

section gomap

variable {K : Type} [Comparable K]

/-- The built-in map read `e, ok := mp[k]`: the entry whose key is `==` to `k`. -/
def mapLookup : List (K × Option Nat) → K → Option (Option Nat)
  | [], _ => none
  | (a, p) :: rest, k => if Comparable.eq a k = true then some p else mapLookup rest k

/-- The built-in map write `mp[k] = e`: the entry whose key is `==` to `k` is
overwritten, and a new entry is added when there is none. -/
def mapSet (mp : List (K × Option Nat)) (k : K) (e : Option Nat) : List (K × Option Nat) :=
  if (mapLookup mp k).isSome then
    mp.map (fun x => if Comparable.eq x.1 k = true then (k, e) else x)
  else mp ++ [(k, e)]

/-- The built-in `delete(mp, k)`: the entries whose key is `==` to `k` go. -/
def mapDelete (mp : List (K × Option Nat)) (k : K) : List (K × Option Nat) :=
  mp.filter (fun x => !(Comparable.eq x.1 k))

end gomap

/-- NewOrderedMap allocates the list and starts with the empty map. -/
def NewOrderedMap {K V : Type} [Inhabited K] [Inhabited V] (h : Heap (Pair K V)) :
    Option (Heap (Pair K V) × OrderedMap K) := do
  let (h1, l) ← NewList h
  some (h1, { mp := [], list := l })

namespace OrderedMap

variable {K V : Type} [Comparable K]

/-- Has reports whether the key is in the map. -/
def Has (m : OrderedMap K) (k : K) : Bool := (mapLookup m.mp k).isSome

/-- Len is `len(m.mp)`. -/
def Len (m : OrderedMap K) : Int := (m.mp.length : Int)

/-- Get reads the value of the element the map points to. -/
def Get [Inhabited V] (h : Heap (Pair K V)) (m : OrderedMap K) (k : K) : Option (V × Bool) :=
  match mapLookup m.mp k with
  | some e => do
      let E ← h.getE e
      some (E.Value.Value, true)
  | none => some (default, false)

/-- Insert overwrites the pair of the element of an existing key, and otherwise
pushes a new element to the back and records it in the map. -/
def Insert (h : Heap (Pair K V)) (m : OrderedMap K) (k : K) (v : V) :
    Option (Heap (Pair K V) × OrderedMap K) :=
  if m.Has k then do
    let h1 ← h.modE ((mapLookup m.mp k).getD none)
      (fun E => { E with Value := { Key := k, Value := v } })
    some (h1, m)
  else do
    let (h1, e) ← LinkedList.PushBack h m.list { Key := k, Value := v }
    some (h1, { m with mp := mapSet m.mp k e })

/-- Remove unlinks the element of the key and deletes the key. -/
def Remove [Inhabited V] (h : Heap (Pair K V)) (m : OrderedMap K) (k : K) :
    Option (Heap (Pair K V) × OrderedMap K × V × Bool) :=
  if ¬ m.Has k then some (h, m, default, false)
  else do
    let e := (mapLookup m.mp k).getD none
    let (h1, _) ← LinkedList.Remove h m.list e
    let E ← h1.getE e
    some (h1, { m with mp := mapDelete m.mp k }, E.Value.Value, true)

/-- PopBack removes the last element, if any. -/
def PopBack [Inhabited K] [Inhabited V] (h : Heap (Pair K V)) (m : OrderedMap K) :
    Option (Heap (Pair K V) × OrderedMap K × K × V × Bool) := do
  let e ← LinkedList.Back h m.list
  match e with
  | none => some (h, m, default, default, false)
  | some a => do
      let E ← h.getE (some a)
      let (h1, _) ← LinkedList.Remove h m.list (some a)
      some (h1, { m with mp := mapDelete m.mp E.Value.Key }, E.Value.Key, E.Value.Value, true)

/-- PopFront removes the first element, if any. -/
def PopFront [Inhabited K] [Inhabited V] (h : Heap (Pair K V)) (m : OrderedMap K) :
    Option (Heap (Pair K V) × OrderedMap K × K × V × Bool) := do
  let e ← LinkedList.Front h m.list
  match e with
  | none => some (h, m, default, default, false)
  | some a => do
      let E ← h.getE (some a)
      let (h1, _) ← LinkedList.Remove h m.list (some a)
      some (h1, { m with mp := mapDelete m.mp E.Value.Key }, E.Value.Key, E.Value.Value, true)

end OrderedMap

/-- The run `m := NewOrderedMap[float64,int](); m.Insert(NaN, 1); m.PopFront()`:
the memory and the map after it, and the results of `PopFront`. -/
def nanRun : Option (Heap (Pair FloatKey Int) × OrderedMap FloatKey × FloatKey × Int × Bool) := do
  let (h0, m0) ← NewOrderedMap (Heap.empty : Heap (Pair FloatKey Int))
  let (h1, m1) ← OrderedMap.Insert h0 m0 FloatKey.NaN 1
  OrderedMap.PopFront h1 m1

/-! ## Specification vocabulary for the pointer structures -/

namespace Heap

variable {T : Type}

/-- The `next` field at an address. -/
def nextOf (h : Heap T) (x : Nat) : Option Nat :=
  match h.elems x with
  | some E => E.next
  | none => none

/-- The `prev` field at an address. -/
def prevOf (h : Heap T) (x : Nat) : Option Nat :=
  match h.elems x with
  | some E => E.prev
  | none => none

/-- The `list` field at an address. -/
def listOf (h : Heap T) (x : Nat) : Option Nat :=
  match h.elems x with
  | some E => E.list
  | none => none

/-- The `Value` field at an address. -/
def valOf (h : Heap T) (x : Nat) : Option T :=
  match h.elems x with
  | some E => some E.Value
  | none => none

/-- Two addresses are linked: `x.next == y` and `y.prev == x`. -/
def link (h : Heap T) (x y : Nat) : Prop :=
  h.nextOf x = some y ∧ h.prevOf y = some x

end Heap

/-- The last address of the walk `p, xs`. -/
def lastFrom (p : Nat) : List Nat → Nat
  | [] => p
  | a :: rest => lastFrom a rest

/-- The memory holds the list `l` with sentinel `s` and the elements at the
addresses `addrs`, front to back: the ring `s, addrs, s` is doubly linked, the
addresses are distinct and allocated, they belong to `l`, and `size` is their
number. -/
structure ListRep {T : Type} (h : Heap T) (l s : Nat) (addrs : List Nat) : Prop where
  hl : h.lists l = some { sentinel := some s, size := (addrs.length : Int) }
  nodup : (s :: addrs).Nodup
  chain : List.Chain h.link s (addrs ++ [s])
  owner : ∀ a ∈ s :: addrs, h.listOf a = some l
  fresh : ∀ a ∈ s :: addrs, a < h.freeElem

/-- The memory and the map struct hold the ordered map with the entries `L`,
front to back: the list holds elements whose values are the pairs of `L`, the keys
are distinct, and the built-in map sends each key to its element. -/
def OMRep {K V : Type} (h : Heap (Pair K V)) (m : OrderedMap K) (L : List (K × V)) : Prop :=
  ∃ (s : Nat) (ents : List (Nat × K × V)),
    ListRep h m.list s (ents.map (fun e => e.1)) ∧
    ents.map (fun e => e.2) = L ∧
    (∀ e ∈ ents, ∃ E, h.elems e.1 = some E ∧ E.Value.Key = e.2.1 ∧ E.Value.Value = e.2.2) ∧
    (L.map Prod.fst).Nodup ∧
    List.Perm m.mp (ents.map (fun e => (e.2.1, some e.1)))

/-- The operator `==` of the key type is the identity of values, as at the integer,
string, boolean and pointer types; it is not at the floating-point types. -/
def EqIsIdentity (K : Type) [Comparable K] : Prop :=
  ∀ a b : K, Comparable.eq a b = true ↔ a = b

end container

namespace container

open avlNode

variable {K V : Type}

/-! ## avltree.go: the recursions and loops with a bound on their depth

The same methods and loops, with the number of nested calls (of loop steps)
bounded by `fuel`: the outer `none` is "bound reached", so that the result
`some r` says that the call returned `r` within the bound. -/

/-- The method `insert`, bounded. -/
def insertFuel (cmp : K → K → Int) : Nat → avlNode K V → K → V → Option (Option (avlNode K V))
  | 0, _, _, _ => none
  | _ + 1, nil, key, value => some (some (node key value nil nil 1 1))
  | n + 1, node k v l r s h, key, value =>
      if cmp k key = 0 then some (some (node k value l r s h))
      else if cmp k key > 0 then
        match insertFuel cmp n l key value with
        | none => none
        | some none => some none
        | some (some l1) => some (fix (Maintain (node k v l1 r s h)))
      else
        match insertFuel cmp n r key value with
        | none => none
        | some none => some none
        | some (some r1) => some (fix (Maintain (node k v l r1 s h)))

/-- The loop of `successor`, bounded. -/
def successorLoopFuel : Nat → avlNode K V → Option (Option (avlNode K V))
  | 0, _ => none
  | _ + 1, nil => some none
  | _ + 1, node k v nil r s h => some (some (node k v nil r s h))
  | n + 1, node _ _ (node lk lv ll lr ls lh) _ _ _ =>
      successorLoopFuel n (node lk lv ll lr ls lh)

/-- The method `successor`, bounded. -/
def successorFuel (fuel : Nat) : avlNode K V → Option (Option (avlNode K V))
  | nil => some none
  | node _ _ _ r _ _ => successorLoopFuel fuel r

/-- The method `remove`, bounded; the two-children case recurses into the right
subtree with the key of the successor. -/
def removeFuel (cmp : K → K → Int) : Nat → avlNode K V → K → Option (Option (avlNode K V))
  | 0, _, _ => none
  | _ + 1, nil, _ => some (some nil)
  | n + 1, node k v l r s h, key =>
      if cmp k key = 0 then
        match l, r with
        | nil, nil => some (some nil)
        | nil, r0 => some (some r0)
        | l0, nil => some (some l0)
        | l0, r0 =>
            match successorFuel n (node k v l0 r0 s h) with
            | none => none
            | some (some (node nk nv _ _ _ _)) =>
                match removeFuel cmp n r nk with
                | none => none
                | some none => some none
                | some (some r1) => some (fix (Maintain (node nk nv l0 r1 s h)))
            | some _ => some none
      else if cmp k key > 0 then
        match removeFuel cmp n l key with
        | none => none
        | some none => some none
        | some (some l1) => some (fix (Maintain (node k v l1 r s h)))
      else
        match removeFuel cmp n r key with
        | none => none
        | some none => some none
        | some (some r1) => some (fix (Maintain (node k v l r1 s h)))

section queriesFuel

variable [Inhabited K] [Inhabited V]

/-- The loop of `Get`, bounded. -/
def getLoopFuel (cmp : K → K → Int) : Nat → avlNode K V → K → Option (V × Bool)
  | 0, _, _ => none
  | _ + 1, nil, _ => some (default, false)
  | n + 1, node k v l r _ _, key =>
      if cmp k key = 0 then some (v, true)
      else if cmp k key > 0 then getLoopFuel cmp n l key
      else getLoopFuel cmp n r key

/-- The loop of `GetFloor`, bounded. -/
def getFloorLoopFuel (cmp : K → K → Int) :
    Nat → avlNode K V → K → K × V × Bool → Option (K × V × Bool)
  | 0, _, _, _ => none
  | _ + 1, nil, _, acc => some acc
  | n + 1, node k v l r _ _, key, acc =>
      if cmp k key = 0 then some (k, v, true)
      else if cmp k key > 0 then getFloorLoopFuel cmp n l key acc
      else getFloorLoopFuel cmp n r key (k, v, true)

/-- The loop of `GetCeiling`, bounded. -/
def getCeilingLoopFuel (cmp : K → K → Int) :
    Nat → avlNode K V → K → K × V × Bool → Option (K × V × Bool)
  | 0, _, _, _ => none
  | _ + 1, nil, _, acc => some acc
  | n + 1, node k v l r _ _, key, acc =>
      if cmp k key = 0 then some (k, v, true)
      else if cmp k key > 0 then getCeilingLoopFuel cmp n l key (k, v, true)
      else getCeilingLoopFuel cmp n r key acc

/-- The loop of `GetLower`, bounded. -/
def getLowerLoopFuel (cmp : K → K → Int) :
    Nat → avlNode K V → K → K × V × Bool → Option (K × V × Bool)
  | 0, _, _, _ => none
  | _ + 1, nil, _, acc => some acc
  | n + 1, node k v l r _ _, key, acc =>
      if cmp k key ≥ 0 then getLowerLoopFuel cmp n l key acc
      else getLowerLoopFuel cmp n r key (k, v, true)

/-- The loop of `GetHigher`, bounded. -/
def getHigherLoopFuel (cmp : K → K → Int) :
    Nat → avlNode K V → K → K × V × Bool → Option (K × V × Bool)
  | 0, _, _, _ => none
  | _ + 1, nil, _, acc => some acc
  | n + 1, node k v l r _ _, key, acc =>
      if cmp k key ≤ 0 then getHigherLoopFuel cmp n r key acc
      else getHigherLoopFuel cmp n l key (k, v, true)

/-- The loop of `GetFirst`, bounded. -/
def getFirstLoopFuel : Nat → avlNode K V → Option (avlNode K V)
  | 0, _ => none
  | _ + 1, nil => some nil
  | _ + 1, node k v nil r s h => some (node k v nil r s h)
  | n + 1, node _ _ (node lk lv ll lr ls lh) _ _ _ =>
      getFirstLoopFuel n (node lk lv ll lr ls lh)

/-- The loop of `GetLast`, bounded. -/
def getLastLoopFuel : Nat → avlNode K V → Option (avlNode K V)
  | 0, _ => none
  | _ + 1, nil => some nil
  | _ + 1, node k v l nil s h => some (node k v l nil s h)
  | n + 1, node _ _ _ (node rk rv rl rr rs rh) _ _ =>
      getLastLoopFuel n (node rk rv rl rr rs rh)

end queriesFuel

/-! ## avltree.go: which case of `remove` the search ends in -/

/-- The cases of `remove` at the node whose key compares equal, and the case
that no key compares equal. -/
inductive RemoveCase where
  | absent : RemoveCase
  | noChild : RemoveCase
  | rightOnly : RemoveCase
  | leftOnly : RemoveCase
  | twoChildren : RemoveCase
  deriving DecidableEq, Repr

/-- The search of `remove`, with the same tests in the same order, returning the
case in which it ends. -/
def removeCase (cmp : K → K → Int) : avlNode K V → K → RemoveCase
  | nil, _ => RemoveCase.absent
  | node k _ l r _ _, key =>
      if cmp k key = 0 then
        match l, r with
        | nil, nil => RemoveCase.noChild
        | nil, _ => RemoveCase.rightOnly
        | _, nil => RemoveCase.leftOnly
        | _, _ => RemoveCase.twoChildren
      else if cmp k key > 0 then removeCase cmp l key
      else removeCase cmp r key

/-- The method `remove`, returning with its result the case in which its search
for `key` ended. -/
def removeTraced (cmp : K → K → Int) : avlNode K V → K → Option (avlNode K V) × RemoveCase
  | nil, _ => (some nil, RemoveCase.absent)
  | node k v l r s h, key =>
      if cmp k key = 0 then
        match l, r with
        | nil, nil => (some nil, RemoveCase.noChild)
        | nil, r0 => (some r0, RemoveCase.rightOnly)
        | l0, nil => (some l0, RemoveCase.leftOnly)
        | l0, r0 =>
            (match successor (node k v l0 r0 s h) with
              | some (node nk nv _ _ _ _) =>
                  match (removeTraced cmp r nk).1 with
                  | none => none
                  | some r1 => fix (Maintain (node nk nv l0 r1 s h))
              | _ => none,
             RemoveCase.twoChildren)
      else if cmp k key > 0 then
        (match (removeTraced cmp l key).1 with
          | none => none
          | some l1 => fix (Maintain (node k v l1 r s h)),
         (removeTraced cmp l key).2)
      else
        (match (removeTraced cmp r key).1 with
          | none => none
          | some r1 => fix (Maintain (node k v l r1 s h)),
         (removeTraced cmp r key).2)

/-- The recursive call of the two-children case in the words of the
specification: descend left to the node that has no left child, put its right
subtree, empty or not, in its place (the no-child or one-child case), and
maintain and fix every node on the way back. -/
def removeLeftmost : avlNode K V → Option (avlNode K V)
  | nil => some nil
  | node _ _ nil r _ _ => some r
  | node k v (node lk lv ll lr ls lh) r s h =>
      match removeLeftmost (node lk lv ll lr ls lh) with
      | none => none
      | some l1 => fix (Maintain (node k v l1 r s h))

/-! ## avltree.go: the test oracle `checkBalBST` -/

/-- The helper `min` of `avltree.go`. -/
def min (x y : Int) : Int :=
  if x < y then x else y

/-- The helper `abs` of `avltree.go`. -/
def abs (x : Int) : Int :=
  if x ≥ 0 then x else -x

/-- The constant `math.MaxInt64`. -/
def MaxInt64 : Int := 9223372036854775807

/-- The constant `math.MinInt64`. -/
def MinInt64 : Int := -9223372036854775808

/-- The closure `check` of `checkBalBST`, returning `(min, max, height, ok)`; the
result `none` is the panic. -/
def check : avlNode Int Int → Option (Int × Int × Int × Bool)
  | nil => some (MaxInt64, MinInt64, 0, true)
  | node key _ l r _ _ =>
      match check l with
      | none => none
      | some (lmin, lmax, lh, lok) =>
          match check r with
          | none => none
          | some (rmin, rmax, rh, rok) =>
              let ok : Bool := lok && rok && decide (lmax ≤ key) && decide (key ≤ rmin) &&
                decide (container.abs (lh - rh) ≤ 1)
              if ok = false then none
              else some (container.min lmin rmin, container.max lmax rmax,
                1 + container.max lh rh, ok)

/-- The test oracle `checkBalBST`: `check(t.root)`, the results dropped. -/
def checkBalBST (t : AVLTree Int Int) : Option Unit :=
  match check t.root with
  | none => none
  | some _ => some ()

/-! ## Specification vocabulary, continued -/

namespace avlNode

/-- Height-cache invariant: at every node the cached height is one more than the
larger true height of the children. -/
def HeightsOK : avlNode K V → Prop
  | nil => True
  | node _ _ l r _ h =>
      HeightsOK l ∧ HeightsOK r ∧ h = 1 + Max.max (l.trueHeight : Int) (r.trueHeight : Int)

instance decHeightsOK : (t : avlNode K V) → Decidable (HeightsOK t)
  | nil => isTrue trivial
  | node _ _ l r _ _ =>
      have := decHeightsOK l
      have := decHeightsOK r
      inferInstanceAs (Decidable (_ ∧ _ ∧ _))

/-- The node `n` occurs in the tree `t`: it is `t` or occurs in a child of `t`. -/
def Subtree (n : avlNode K V) : avlNode K V → Prop
  | nil => n = nil
  | node k v l r s h => n = node k v l r s h ∨ Subtree n l ∨ Subtree n r

/-- Order in the words of the test oracle: at every node the keys of the left
subtree are at most the node's key and the keys of the right subtree at least. -/
def WeakOrdered : avlNode Int Int → Prop
  | nil => True
  | node k _ l r _ _ =>
      WeakOrdered l ∧ WeakOrdered r ∧ (∀ x ∈ l.keys, x ≤ k) ∧ (∀ x ∈ r.keys, k ≤ x)

instance decWeakOrdered : (t : avlNode Int Int) → Decidable (WeakOrdered t)
  | nil => isTrue trivial
  | node _ _ l r _ _ =>
      have := decWeakOrdered l
      have := decWeakOrdered r
      inferInstanceAs (Decidable (_ ∧ _ ∧ _ ∧ _))

end avlNode

/-- The tree of the oracle example: a root with key 1 whose left child has key 2. -/
def treeLeft2 : avlNode Int Int :=
  node 1 0 (node 2 0 nil nil 1 1) nil 2 2

end container

/-! # Theorems -/

namespace container

open avlNode

variable {K V : Type}

/-! ## Consequences of the comparator contract -/

theorem LawfulCmp.lt_iff_gt {cmp : K → K → Int} (hc : LawfulCmp cmp) (a b : K) :
    cmp a b < 0 ↔ 0 < cmp b a := by
  have h := hc.antisymm a b
  rcases lt_trichotomy (cmp a b) 0 with h1 | h1 | h1 <;>
    rcases lt_trichotomy (cmp b a) 0 with h2 | h2 | h2 <;>
    first
      | omega
      | (simp only [Int.sign_eq_one_of_pos, Int.sign_eq_neg_one_of_neg, Int.sign_zero, *] at h
         omega)

theorem LawfulCmp.eq_iff_eq {cmp : K → K → Int} (hc : LawfulCmp cmp) (a b : K) :
    cmp a b = 0 ↔ cmp b a = 0 := by
  have h1 := hc.lt_iff_gt a b
  have h2 := hc.lt_iff_gt b a
  omega

theorem LawfulCmp.lt_of_lt_of_le {cmp : K → K → Int} (hc : LawfulCmp cmp) {a b c : K}
    (h1 : cmp a b < 0) (h2 : cmp b c ≤ 0) : cmp a c < 0 := by
  have h3 := hc.trans a b c (le_of_lt h1) h2
  rcases lt_or_eq_of_le h3 with h | h
  · exact h
  · exfalso
    have h4 : cmp c a = 0 := (hc.eq_iff_eq a c).1 h
    have h5 := hc.trans b c a h2 (le_of_eq h4)
    have h6 := hc.lt_iff_gt a b
    omega

theorem LawfulCmp.lt_of_le_of_lt {cmp : K → K → Int} (hc : LawfulCmp cmp) {a b c : K}
    (h1 : cmp a b ≤ 0) (h2 : cmp b c < 0) : cmp a c < 0 := by
  have h3 := hc.trans a b c h1 (le_of_lt h2)
  rcases lt_or_eq_of_le h3 with h | h
  · exact h
  · exfalso
    have h4 : cmp c a = 0 := (hc.eq_iff_eq a c).1 h
    have h5 := hc.trans c a b (le_of_eq h4) h1
    have h6 := hc.lt_iff_gt b c
    omega

theorem LawfulCmp.lt_trans {cmp : K → K → Int} (hc : LawfulCmp cmp) {a b c : K}
    (h1 : cmp a b < 0) (h2 : cmp b c < 0) : cmp a c < 0 :=
  hc.lt_of_lt_of_le h1 (le_of_lt h2)

theorem CmpLess_lawful : LawfulCmp (CmpLess : Int → Int → Int) := by
  refine ⟨?_, ?_, ?_⟩
  · intro a; simp [CmpLess]
  · intro a b
    unfold CmpLess
    rcases lt_trichotomy a b with h | h | h
    · have h1 : ¬ a = b := by omega
      have h2 : ¬ b = a := by omega
      have h3 : ¬ a > b := by omega
      simp [h1, h2, h3, h]
    · simp [h]
    · have h1 : ¬ a = b := by omega
      have h2 : ¬ b = a := by omega
      have h3 : ¬ b > a := by omega
      simp [h1, h2, h3, h]
  · intro a b c
    unfold CmpLess
    intro h1 h2
    split_ifs at h1 h2 ⊢ <;> omega

/-! ## Unfolding lemmas -/

theorem Height_nil : (nil : avlNode K V).Height = 0 := rfl

theorem Height_node (k : K) (v : V) (l r : avlNode K V) (s h : Int) :
    (node k v l r s h).Height = h := rfl

theorem Size_nil : (nil : avlNode K V).Size = 0 := rfl

theorem Size_node (k : K) (v : V) (l r : avlNode K V) (s h : Int) :
    (node k v l r s h).Size = s := rfl

theorem Bal_node (k : K) (v : V) (l r : avlNode K V) (s h : Int) :
    (node k v l r s h).Bal = l.Height - r.Height := rfl

theorem Maintain_node (k : K) (v : V) (l r : avlNode K V) (s h : Int) :
    Maintain (node k v l r s h) =
      node k v l r (1 + l.Size + r.Size) (1 + container.max l.Height r.Height) := rfl

theorem fix_node (k : K) (v : V) (l r : avlNode K V) (s h : Int) :
    fix (node k v l r s h) =
      if -1 ≤ l.Height - r.Height ∧ l.Height - r.Height ≤ 1 then some (node k v l r s h)
      else if l.Height - r.Height > 1 then
        (if l.Bal < 0 then
          match rotateLeft l with
          | none => none
          | some l1 => rotateRight (node k v l1 r s h)
        else rotateRight (node k v l r s h))
      else
        (if r.Bal > 0 then
          match rotateRight r with
          | none => none
          | some r1 => rotateLeft (node k v l r1 s h)
        else rotateLeft (node k v l r s h)) := rfl

theorem rotateLeft_node (k : K) (v : V) (l : avlNode K V) (s h : Int)
    (rk : K) (rv : V) (rl rr : avlNode K V) (rs rh : Int) :
    rotateLeft (node k v l (node rk rv rl rr rs rh) s h) =
      some (Maintain (node rk rv (Maintain (node k v l rl s h)) rr rs rh)) := rfl

theorem rotateRight_node (k : K) (v : V) (r : avlNode K V) (s h : Int)
    (lk : K) (lv : V) (ll lr : avlNode K V) (ls lh : Int) :
    rotateRight (node k v (node lk lv ll lr ls lh) r s h) =
      some (Maintain (node lk lv ll (Maintain (node k v lr r s h)) ls lh)) := rfl

/-! ## Cached fields agree with the true height and size -/

theorem Height_eq_of_CachesOK {t : avlNode K V} (h : CachesOK t) :
    t.Height = (t.trueHeight : Int) := by
  cases t with
  | nil => simp [Height, trueHeight]
  | node k v l r s ht =>
      obtain ⟨_, _, h1, _⟩ := h
      simp only [Height_node, trueHeight, h1]
      omega

theorem Size_eq_of_CachesOK {t : avlNode K V} (h : CachesOK t) :
    t.Size = (t.trueSize : Int) := by
  cases t with
  | nil => simp [Size, trueSize]
  | node k v l r s ht =>
      obtain ⟨_, _, _, h2⟩ := h
      simp only [Size_node, trueSize, h2]
      omega

theorem max_eq (x y : Int) : container.max x y = Max.max x y := by
  unfold container.max
  split_ifs <;> omega

/-- After `Maintain`, a node over children with correct caches has correct caches. -/
theorem CachesOK_Maintain {k : K} {v : V} {l r : avlNode K V} {s h : Int}
    (hl : CachesOK l) (hr : CachesOK r) : CachesOK (Maintain (node k v l r s h)) := by
  rw [Maintain_node]
  refine ⟨hl, hr, ?_, ?_⟩
  · rw [Height_eq_of_CachesOK hl, Height_eq_of_CachesOK hr, max_eq]
  · rw [Size_eq_of_CachesOK hl, Size_eq_of_CachesOK hr]

/-- What one fix-up does to a freshly maintained node whose children are
balanced with correct caches and differ in height by at most two. -/
theorem fix_spec (k : K) (v : V) {l r : avlNode K V} (s h : Int)
    (hl : CachesOK l) (hbl : Balanced l) (hr : CachesOK r) (hbr : Balanced r)
    (hd : (l.trueHeight : Int) - r.trueHeight ≤ 2 ∧ (r.trueHeight : Int) - l.trueHeight ≤ 2) :
    ∃ t, fix (Maintain (node k v l r s h)) = some t ∧ CachesOK t ∧ Balanced t ∧
      (t.trueHeight = 1 + Max.max l.trueHeight r.trueHeight ∨
        (t.trueHeight = Max.max l.trueHeight r.trueHeight ∧
          ((l.trueHeight : Int) - r.trueHeight = 2 ∨ (r.trueHeight : Int) - l.trueHeight = 2))) ∧
      (((l.trueHeight : Int) - r.trueHeight ≤ 1 ∧ (r.trueHeight : Int) - l.trueHeight ≤ 1) →
        t = Maintain (node k v l r s h)) := by
  have hHl := Height_eq_of_CachesOK hl
  have hHr := Height_eq_of_CachesOK hr
  by_cases hb : -1 ≤ l.Height - r.Height ∧ l.Height - r.Height ≤ 1
  · refine ⟨Maintain (node k v l r s h), ?_, CachesOK_Maintain hl hr, ⟨hbl, hbr, by omega⟩, ?_, ?_⟩
    · rw [Maintain_node, fix_node, if_pos hb]
    · left; simp [Maintain, trueHeight]
    · intro _; rfl
  · by_cases hpos : l.Height - r.Height > 1
    · by_cases hlb : l.Bal < 0
      · cases l with
        | nil => simp [trueHeight, Height_nil] at hpos hHr; omega
        | node lk lv ll lr ls lh =>
          cases lr with
          | nil =>
            exfalso
            have := Height_eq_of_CachesOK hl.1
            simp only [Bal_node, Height_nil] at hlb
            omega
          | node mk mv ml mr ms mh =>
            obtain ⟨hcll, ⟨hcml, hcmr, hmh, hms⟩, hlh, hls⟩ := hl
            obtain ⟨hbll, ⟨hbml, hbmr, hbmd⟩, hbd⟩ := hbl
            have hHll := Height_eq_of_CachesOK hcll
            simp only [trueHeight, Height_node, Bal_node] at hpos hd hb hHl hlb hbd hlh ⊢
            refine ⟨Maintain (node mk mv (Maintain (node lk lv ll ml ls lh))
              (Maintain (node k v mr r (1 + ls + r.Size) (1 + container.max lh r.Height))) ms mh),
              ?_, ?_, ?_, ?_, ?_⟩
            · rw [Maintain_node, fix_node]; simp only [Height_node, Bal_node]; rw [if_neg hb, if_pos hpos, if_pos hlb,
                rotateLeft_node]
              rfl
            · exact CachesOK_Maintain (CachesOK_Maintain hcll hcml) (CachesOK_Maintain hcmr hr)
            · refine ⟨⟨hbll, hbml, ?_⟩, ⟨hbmr, hbr, ?_⟩, ?_⟩ <;>
                first | omega | (simp only [Maintain, trueHeight]; omega)
            · simp only [Maintain, trueHeight]; omega
            · intro hh; omega
      · cases l with
        | nil => simp [trueHeight, Height_nil] at hpos hHr; omega
        | node lk lv ll lr ls lh =>
          obtain ⟨hcll, hclr, hlh, hls⟩ := hl
          obtain ⟨hbll, hblr, hbd⟩ := hbl
          have hHll := Height_eq_of_CachesOK hcll
          have hHlr := Height_eq_of_CachesOK hclr
          simp only [trueHeight, Height_node, Bal_node] at hpos hd hb hHl hlb hbd hlh ⊢
          refine ⟨Maintain (node lk lv ll (Maintain (node k v lr r
              (1 + ls + r.Size) (1 + container.max lh r.Height))) ls lh), ?_, ?_, ?_, ?_, ?_⟩
          · rw [Maintain_node, fix_node]; simp only [Height_node, Bal_node]; rw [if_neg hb, if_pos hpos, if_neg hlb]
            rfl
          · exact CachesOK_Maintain hcll (CachesOK_Maintain hclr hr)
          · refine ⟨hbll, ⟨hblr, hbr, ?_⟩, ?_⟩ <;>
              first | omega | (simp only [Maintain, trueHeight]; omega)
          · simp only [Maintain, trueHeight]; omega
          · intro hh; omega
    · by_cases hrb : r.Bal > 0
      · cases r with
        | nil => simp [trueHeight, Height_nil] at hpos hb hHl; omega
        | node rk rv rl rr rs rh =>
          cases rl with
          | nil =>
            exfalso
            have := Height_eq_of_CachesOK hr.2.1
            simp only [Bal_node, Height_nil] at hrb
            omega
          | node mk mv ml mr ms mh =>
            obtain ⟨⟨hcml, hcmr, hmh, hms⟩, hcrr, hrh, hrs⟩ := hr
            obtain ⟨⟨hbml, hbmr, hbmd⟩, hbrr, hbd⟩ := hbr
            have hHrr := Height_eq_of_CachesOK hcrr
            simp only [trueHeight, Height_node, Bal_node] at hpos hd hb hHr hrb hbd hrh ⊢
            refine ⟨Maintain (node mk mv
              (Maintain (node k v l ml (1 + l.Size + rs) (1 + container.max l.Height rh)))
              (Maintain (node rk rv mr rr rs rh)) ms mh),
              ?_, ?_, ?_, ?_, ?_⟩
            · rw [Maintain_node, fix_node]; simp only [Height_node, Bal_node]; rw [if_neg hb, if_neg hpos, if_pos hrb,
                rotateRight_node]
              rfl
            · exact CachesOK_Maintain (CachesOK_Maintain hl hcml) (CachesOK_Maintain hcmr hcrr)
            · refine ⟨⟨hbl, hbml, ?_⟩, ⟨hbmr, hbrr, ?_⟩, ?_⟩ <;>
                first | omega | (simp only [Maintain, trueHeight]; omega)
            · simp only [Maintain, trueHeight]; omega
            · intro hh; omega
      · cases r with
        | nil => simp [trueHeight, Height_nil] at hpos hb hHl; omega
        | node rk rv rl rr rs rh =>
          obtain ⟨hcrl, hcrr, hrh, hrs⟩ := hr
          obtain ⟨hbrl, hbrr, hbd⟩ := hbr
          have hHrl := Height_eq_of_CachesOK hcrl
          have hHrr := Height_eq_of_CachesOK hcrr
          simp only [trueHeight, Height_node, Bal_node] at hpos hd hb hHr hrb hbd hrh ⊢
          refine ⟨Maintain (node rk rv (Maintain (node k v l rl
              (1 + l.Size + rs) (1 + container.max l.Height rh))) rr rs rh), ?_, ?_, ?_, ?_, ?_⟩
          · rw [Maintain_node, fix_node]; simp only [Height_node, Bal_node]; rw [if_neg hb, if_neg hpos, if_neg hrb]
            rfl
          · exact CachesOK_Maintain (CachesOK_Maintain hl hcrl) hcrr
          · refine ⟨⟨hbl, hbrl, ?_⟩, hbrr, ?_⟩ <;>
              first | omega | (simp only [Maintain, trueHeight]; omega)
          · simp only [Maintain, trueHeight]; omega
          · intro hh; omega

/-- `insert` keeps the balance and cache invariants, and the height grows by at
most one. -/
theorem insert_inv (cmp : K → K → Int) (key : K) (value : V) :
    ∀ t : avlNode K V, t.CachesOK → t.Balanced →
      ∃ t1, insert cmp t key value = some t1 ∧ t1.CachesOK ∧ t1.Balanced ∧
        (t1.trueHeight = t.trueHeight ∨ t1.trueHeight = t.trueHeight + 1) := by
  intro t
  induction t with
  | nil =>
    intro _ _
    refine ⟨node key value nil nil 1 1, rfl, ?_, ?_, ?_⟩
    · simp [CachesOK, trueHeight, trueSize]
    · simp [avlNode.Balanced, trueHeight]
    · right; simp [trueHeight]
  | node k v l r s h ihl ihr =>
    intro hc hb
    obtain ⟨hcl, hcr, hh, hs⟩ := hc
    obtain ⟨hbl, hbr, hbd⟩ := hb
    rw [insert]
    by_cases h0 : cmp k key = 0
    · rw [if_pos h0]
      exact ⟨_, rfl, ⟨hcl, hcr, hh, hs⟩, ⟨hbl, hbr, hbd⟩, Or.inl rfl⟩
    · rw [if_neg h0]
      by_cases h1 : cmp k key > 0
      · rw [if_pos h1]
        obtain ⟨l1, e1, hcl1, hbl1, hh1⟩ := ihl hcl hbl
        rw [e1]
        have hd : (l1.trueHeight : Int) - r.trueHeight ≤ 2 ∧
            (r.trueHeight : Int) - l1.trueHeight ≤ 2 := by
          omega
        obtain ⟨t1, e2, hct, hbt, hht, _⟩ := fix_spec k v s h hcl1 hbl1 hcr hbr hd
        refine ⟨t1, e2, hct, hbt, ?_⟩
        simp only [trueHeight]
        omega
      · rw [if_neg h1]
        obtain ⟨r1, e1, hcr1, hbr1, hh1⟩ := ihr hcr hbr
        rw [e1]
        obtain ⟨t1, e2, hct, hbt, hht, _⟩ := fix_spec k v s h hcl hbl hcr1 hbr1 (by omega)
        refine ⟨t1, e2, hct, hbt, ?_⟩
        simp only [trueHeight]
        omega

theorem remove_node (cmp : K → K → Int) (k : K) (v : V) (l r : avlNode K V) (s h : Int)
    (key : K) :
    remove cmp (node k v l r s h) key =
      if cmp k key = 0 then
        match l, r with
        | nil, nil => some nil
        | nil, r0 => some r0
        | l0, nil => some l0
        | l0, r0 =>
            match successor (node k v l0 r0 s h) with
            | some (node nk nv _ _ _ _) =>
                match remove cmp r nk with
                | none => none
                | some r1 => fix (Maintain (node nk nv l0 r1 s h))
            | _ => none
      else if cmp k key > 0 then
        match remove cmp l key with
        | none => none
        | some l1 => fix (Maintain (node k v l1 r s h))
      else
        match remove cmp r key with
        | none => none
        | some r1 => fix (Maintain (node k v l r1 s h)) := rfl

theorem successorLoop_some (rk : K) (rv : V) (rl rr : avlNode K V) (rs rh : Int) :
    ∃ nk nv nr ns nh, successorLoop (node rk rv rl rr rs rh) = some (node nk nv nil nr ns nh) := by
  induction rl generalizing rk rv rr rs rh with
  | nil => exact ⟨rk, rv, rr, rs, rh, rfl⟩
  | node lk lv ll lr ls lh ihl _ =>
    rw [successorLoop]
    exact ihl lk lv lr ls lh

/-- `remove` keeps the balance and cache invariants, and the height shrinks by
at most one. -/
theorem remove_inv (cmp : K → K → Int) :
    ∀ (t : avlNode K V) (key : K), t.CachesOK → t.Balanced →
      ∃ t1, remove cmp t key = some t1 ∧ t1.CachesOK ∧ t1.Balanced ∧
        (t1.trueHeight = t.trueHeight ∨ t1.trueHeight + 1 = t.trueHeight) := by
  intro t
  induction t with
  | nil =>
    intro key _ _
    exact ⟨nil, rfl, trivial, trivial, Or.inl rfl⟩
  | node k v l r s h ihl ihr =>
    intro key hc hb
    obtain ⟨hcl, hcr, hh, hs⟩ := hc
    obtain ⟨hbl, hbr, hbd⟩ := hb
    rw [remove_node]
    by_cases h0 : cmp k key = 0
    · rw [if_pos h0]
      cases l with
      | nil =>
        cases r with
        | nil => exact ⟨nil, rfl, trivial, trivial, Or.inr (by simp [trueHeight])⟩
        | node rk rv rl rr rs rh =>
          refine ⟨_, rfl, hcr, hbr, Or.inr ?_⟩
          simp only [trueHeight] at hbd ⊢
          omega
      | node lk lv ll lr ls lh =>
        cases r with
        | nil =>
          refine ⟨_, rfl, hcl, hbl, Or.inr ?_⟩
          simp only [trueHeight] at hbd ⊢
          omega
        | node rk rv rl rr rs rh =>
          obtain ⟨nk, nv, nr, ns, nh, e0⟩ := successorLoop_some rk rv rl rr rs rh
          obtain ⟨r1, e1, hcr1, hbr1, hh1⟩ := ihr nk hcr hbr
          obtain ⟨t1, e2, hct, hbt, hht, _⟩ :=
            fix_spec nk nv s h hcl hbl hcr1 hbr1 (by omega)
          refine ⟨t1, ?_, hct, hbt, ?_⟩
          · simp only [successor, e0, e1]
            exact e2
          · rw [trueHeight]
            omega
    · rw [if_neg h0]
      by_cases h1 : cmp k key > 0
      · rw [if_pos h1]
        obtain ⟨l1, e1, hcl1, hbl1, hh1⟩ := ihl key hcl hbl
        rw [e1]
        obtain ⟨t1, e2, hct, hbt, hht, _⟩ := fix_spec k v s h hcl1 hbl1 hcr hbr (by omega)
        refine ⟨t1, e2, hct, hbt, ?_⟩
        simp only [trueHeight]
        omega
      · rw [if_neg h1]
        obtain ⟨r1, e1, hcr1, hbr1, hh1⟩ := ihr key hcr hbr
        rw [e1]
        obtain ⟨t1, e2, hct, hbt, hht, _⟩ := fix_spec k v s h hcl hbl hcr1 hbr1 (by omega)
        refine ⟨t1, e2, hct, hbt, ?_⟩
        simp only [trueHeight]
        omega

/-! ## In-order traversal is untouched by rotations -/

theorem toList_node (k : K) (v : V) (l r : avlNode K V) (s h : Int) :
    (node k v l r s h).toList = l.toList ++ (k, v) :: r.toList := rfl

theorem keys_nil : (nil : avlNode K V).keys = [] := rfl

theorem keys_node (k : K) (v : V) (l r : avlNode K V) (s h : Int) :
    (node k v l r s h).keys = l.keys ++ k :: r.keys := by
  simp [keys, toList]

theorem toList_Maintain (t : avlNode K V) : (Maintain t).toList = t.toList := by
  cases t <;> rfl

theorem rotateLeft_toList {n t : avlNode K V} (h : rotateLeft n = some t) :
    t.toList = n.toList := by
  cases n with
  | nil => simp [rotateLeft] at h
  | node k v l r s ht =>
    cases r with
    | nil => simp [rotateLeft] at h
    | node rk rv rl rr rs rh =>
      rw [rotateLeft_node] at h
      cases h
      simp [Maintain_node, toList_node]

theorem rotateRight_toList {n t : avlNode K V} (h : rotateRight n = some t) :
    t.toList = n.toList := by
  cases n with
  | nil => simp [rotateRight] at h
  | node k v l r s ht =>
    cases l with
    | nil => simp [rotateRight] at h
    | node lk lv ll lr ls lh =>
      rw [rotateRight_node] at h
      cases h
      simp [Maintain_node, toList_node]

theorem fix_toList {n t : avlNode K V} (h : fix n = some t) : t.toList = n.toList := by
  cases n with
  | nil => simp [fix, Bal] at h; rw [← h]
  | node k v l r s ht =>
    rw [fix_node] at h
    split_ifs at h with h1 h2 h3 h4
    · cases h; rfl
    · cases e : rotateLeft l with
      | none => simp [e] at h
      | some l1 =>
        simp only [e] at h
        rw [rotateRight_toList h, toList_node, rotateLeft_toList e, toList_node]
    · exact rotateRight_toList h
    · cases e : rotateRight r with
      | none => simp [e] at h
      | some r1 =>
        simp only [e] at h
        rw [rotateLeft_toList h, toList_node, rotateRight_toList e, toList_node]
    · exact rotateLeft_toList h

theorem length_toList (t : avlNode K V) : t.toList.length = t.trueSize := by
  induction t with
  | nil => rfl
  | node k v l r s h ihl ihr =>
    simp only [toList_node, trueSize, List.length_append, List.length_cons, ihl, ihr]
    omega

theorem length_keys (t : avlNode K V) : t.keys.length = t.trueSize := by
  simp [keys, length_toList]

/-! ## The order invariant is strict sortedness of the in-order keys -/

theorem BST_iff_sorted {cmp : K → K → Int} (hc : LawfulCmp cmp) (t : avlNode K V) :
    t.BST cmp ↔ t.keys.Pairwise (fun a b => cmp a b < 0) := by
  induction t with
  | nil => simp [BST, keys_nil]
  | node k v l r s h ihl ihr =>
    simp only [BST, keys_node, List.pairwise_append, List.pairwise_cons, ihl, ihr,
      List.mem_cons]
    constructor
    · rintro ⟨h1, h2, h3, h4⟩
      refine ⟨h1, ⟨fun a ha => (hc.lt_iff_gt k a).2 (h4 a ha), h2⟩, ?_⟩
      rintro a ha b (rfl | hb)
      · exact h3 a ha
      · exact hc.lt_trans (h3 a ha) ((hc.lt_iff_gt k b).2 (h4 b hb))
    · rintro ⟨h1, ⟨h2, h3⟩, h4⟩
      exact ⟨h1, h3, fun x hx => h4 x hx k (Or.inl rfl), fun x hx => (hc.lt_iff_gt k x).1 (h2 x hx)⟩

/-! ## `insert` on the in-order list -/

theorem mem_keys_of_mem_toList {t : avlNode K V} {e : K × V} (h : e ∈ t.toList) :
    e.1 ∈ t.keys :=
  List.mem_map_of_mem Prod.fst h

theorem insList_cons (cmp : K → K → Int) (key : K) (value : V) (a : K) (b : V)
    (xs : List (K × V)) :
    insList cmp key value ((a, b) :: xs) =
      if cmp a key = 0 then (a, value) :: xs
      else if cmp a key > 0 then (key, value) :: (a, b) :: xs
      else (a, b) :: insList cmp key value xs := rfl

theorem insList_append_lt (cmp : K → K → Int) (key : K) (value : V) :
    ∀ (L R : List (K × V)), (∀ e ∈ L, cmp e.1 key < 0) →
      insList cmp key value (L ++ R) = L ++ insList cmp key value R := by
  intro L
  induction L with
  | nil => intro R _; rfl
  | cons e L ih =>
    intro R h
    obtain ⟨a, b⟩ := e
    have ha : cmp a key < 0 := h (a, b) (List.mem_cons_self _ _)
    have h0 : ¬ cmp a key = 0 := by omega
    have h1 : ¬ cmp a key > 0 := by omega
    rw [List.cons_append, insList_cons, if_neg h0, if_neg h1,
      ih R (fun e he => h e (List.mem_cons_of_mem _ he))]
    rfl

theorem insList_append_gt (cmp : K → K → Int) (key : K) (value : V) (a : K) (b : V)
    (R : List (K × V)) (hgt : cmp a key > 0) :
    ∀ L : List (K × V),
      insList cmp key value (L ++ (a, b) :: R) = insList cmp key value L ++ (a, b) :: R := by
  intro L
  induction L with
  | nil =>
    have h0 : ¬ cmp a key = 0 := by omega
    simp [insList, h0, hgt]
  | cons e L ih =>
    obtain ⟨x, y⟩ := e
    rw [List.cons_append, insList_cons, insList_cons]
    split_ifs
    · rfl
    · rfl
    · rw [ih]
      rfl

theorem insert_toList {cmp : K → K → Int} (hc : LawfulCmp cmp) (key : K) (value : V) :
    ∀ (t t1 : avlNode K V), t.BST cmp → insert cmp t key value = some t1 →
      t1.toList = insList cmp key value t.toList := by
  intro t
  induction t with
  | nil =>
    intro t1 _ h
    cases h
    rfl
  | node k v l r s ht ihl ihr =>
    intro t1 hb h
    obtain ⟨hbl, hbr, hlk, hrk⟩ := hb
    rw [insert] at h
    rw [toList_node]
    by_cases h0 : cmp k key = 0
    · rw [if_pos h0] at h
      cases h
      rw [toList_node, insList_append_lt]
      · simp [insList, h0]
      · intro e he
        exact hc.lt_of_lt_of_le (hlk e.1 (mem_keys_of_mem_toList he)) (le_of_eq h0)
    · rw [if_neg h0] at h
      by_cases h1 : cmp k key > 0
      · rw [if_pos h1] at h
        cases e : insert cmp l key value with
        | none => simp [e] at h
        | some l1 =>
          simp only [e] at h
          rw [fix_toList h, toList_Maintain, toList_node, ihl l1 hbl e,
            insList_append_gt cmp key value k v r.toList h1]
      · rw [if_neg h1] at h
        have h2 : cmp k key < 0 := by omega
        cases e : insert cmp r key value with
        | none => simp [e] at h
        | some r1 =>
          simp only [e] at h
          rw [fix_toList h, toList_Maintain, toList_node, ihr r1 hbr e, insList_append_lt]
          · simp [insList, h0, h1]
          · intro e he
            exact hc.lt_trans (hlk e.1 (mem_keys_of_mem_toList he)) h2

/-! ## `remove` on the in-order list -/

theorem successorLoop_toList :
    ∀ (r n : avlNode K V), successorLoop r = some n →
      ∃ nk nv nr ns nh rest, n = node nk nv nil nr ns nh ∧ r.toList = (nk, nv) :: rest := by
  intro r
  induction r with
  | nil => intro n h; simp [successorLoop] at h
  | node k v l r s ht ihl _ =>
    intro n h
    cases l with
    | nil =>
      simp only [successorLoop] at h
      cases h
      exact ⟨k, v, r, s, ht, r.toList, rfl, rfl⟩
    | node lk lv ll lr ls lh =>
      rw [successorLoop] at h
      obtain ⟨nk, nv, nr, ns, nh, rest, e1, e2⟩ := ihl n h
      exact ⟨nk, nv, nr, ns, nh, rest ++ (k, v) :: r.toList, e1, by rw [toList_node, e2]; rfl⟩

theorem delList_append (cmp : K → K → Int) (key : K) (L R : List (K × V)) :
    delList cmp key (L ++ R) = delList cmp key L ++ delList cmp key R := by
  simp [delList]

theorem delList_eq_self (cmp : K → K → Int) (key : K) (L : List (K × V))
    (h : ∀ e ∈ L, cmp e.1 key ≠ 0) : delList cmp key L = L := by
  unfold delList
  rw [List.filter_eq_self]
  intro e he
  simpa using h e he

theorem delList_cons_eq (cmp : K → K → Int) (key : K) (a : K) (b : V) (L : List (K × V))
    (h : cmp a key = 0) : delList cmp key ((a, b) :: L) = delList cmp key L := by
  simp [delList, h]

theorem delList_cons_ne (cmp : K → K → Int) (key : K) (a : K) (b : V) (L : List (K × V))
    (h : cmp a key ≠ 0) : delList cmp key ((a, b) :: L) = (a, b) :: delList cmp key L := by
  simp [delList, h]

theorem remove_toList {cmp : K → K → Int} (hc : LawfulCmp cmp) :
    ∀ (t t1 : avlNode K V) (key : K), t.BST cmp → remove cmp t key = some t1 →
      t1.toList = delList cmp key t.toList := by
  intro t
  induction t with
  | nil =>
    intro t1 key _ h
    cases h
    rfl
  | node k v l r s ht ihl ihr =>
    intro t1 key hb h
    have hsorted := (BST_iff_sorted hc _).1 hb
    obtain ⟨hbl, hbr, hlk, hrk⟩ := hb
    rw [remove_node] at h
    rw [toList_node, delList_append]
    by_cases h0 : cmp k key = 0
    · rw [if_pos h0] at h
      have hL : delList cmp key l.toList = l.toList := by
        apply delList_eq_self
        intro e he
        have := hc.lt_of_lt_of_le (hlk e.1 (mem_keys_of_mem_toList he)) (le_of_eq h0)
        omega
      have hR : delList cmp key r.toList = r.toList := by
        apply delList_eq_self
        intro e he
        have h1 := (hc.lt_iff_gt k e.1).2 (hrk e.1 (mem_keys_of_mem_toList he))
        have h2 : cmp key k = 0 := (hc.eq_iff_eq k key).1 h0
        have h3 := hc.lt_of_le_of_lt (le_of_eq h2) h1
        have h4 := hc.lt_iff_gt key e.1
        omega
      rw [delList_cons_eq cmp key k v _ h0, hL, hR]
      cases l with
      | nil =>
        cases r with
        | nil => cases h; rfl
        | node rk rv rl rr rs rh => cases h; rfl
      | node lk lv ll lr ls lh =>
        cases r with
        | nil => cases h; simp [toList]
        | node rk rv rl rr rs rh =>
          simp only [successor] at h
          cases e0 : successorLoop (node rk rv rl rr rs rh) with
          | none => simp [e0] at h
          | some n =>
            obtain ⟨nk, nv, nr, ns, nh, rest, en, el⟩ := successorLoop_toList _ n e0
            subst en
            simp only [e0] at h
            cases e1 : remove cmp (node rk rv rl rr rs rh) nk with
            | none => simp [e1] at h
            | some r1 =>
              simp only [e1] at h
              have hr1 := ihr r1 nk hbr e1
              rw [el, delList_cons_eq cmp nk nk nv _ (hc.refl nk)] at hr1
              have hrest : delList cmp nk rest = rest := by
                apply delList_eq_self
                intro e he
                have hs := (BST_iff_sorted hc _).1 hbr
                simp only [keys, el, List.map_cons, List.pairwise_cons] at hs
                have h1 := hs.1 e.1 (List.mem_map_of_mem Prod.fst he)
                have h4 := hc.lt_iff_gt nk e.1
                omega
              rw [fix_toList h, toList_Maintain, toList_node, hr1, hrest, el]
    · have hk : cmp k key ≠ 0 := h0
      rw [if_neg h0] at h
      rw [delList_cons_ne cmp key k v _ hk]
      by_cases h1 : cmp k key > 0
      · rw [if_pos h1] at h
        have hR : delList cmp key r.toList = r.toList := by
          apply delList_eq_self
          intro e he
          have h2 := (hc.lt_iff_gt k e.1).2 (hrk e.1 (mem_keys_of_mem_toList he))
          have h3 := (hc.lt_iff_gt key k).2 h1
          have h4 := hc.lt_trans h3 h2
          have h5 := hc.lt_iff_gt key e.1
          omega
        cases e : remove cmp l key with
        | none => simp [e] at h
        | some l1 =>
          simp only [e] at h
          rw [fix_toList h, toList_Maintain, toList_node, ihl l1 key hbl e, hR]
      · rw [if_neg h1] at h
        have h2 : cmp k key < 0 := by omega
        have hL : delList cmp key l.toList = l.toList := by
          apply delList_eq_self
          intro e he
          have := hc.lt_trans (hlk e.1 (mem_keys_of_mem_toList he)) h2
          omega
        cases e : remove cmp r key with
        | none => simp [e] at h
        | some r1 =>
          simp only [e] at h
          rw [fix_toList h, toList_Maintain, toList_node, ihr r1 key hbr e, hL]

/-! ## Sortedness is kept by the list operations -/

theorem mem_keys_insList (cmp : K → K → Int) (key : K) (value : V) (x : K) :
    ∀ L : List (K × V), x ∈ (insList cmp key value L).map Prod.fst →
      x = key ∨ x ∈ L.map Prod.fst := by
  intro L
  induction L with
  | nil => intro h; simpa [insList] using h
  | cons e L ih =>
    obtain ⟨a, b⟩ := e
    rw [insList_cons]
    split_ifs
    · intro h; right; simpa using h
    · intro h
      simp only [List.map_cons, List.mem_cons] at h ⊢
      tauto
    · intro h
      simp only [List.map_cons, List.mem_cons] at h ⊢
      rcases h with h | h
      · tauto
      · have := ih h
        tauto

theorem insList_sorted {cmp : K → K → Int} (hc : LawfulCmp cmp) (key : K) (value : V) :
    ∀ L : List (K × V), (L.map Prod.fst).Pairwise (fun a b => cmp a b < 0) →
      ((insList cmp key value L).map Prod.fst).Pairwise (fun a b => cmp a b < 0) := by
  intro L
  induction L with
  | nil => intro _; simp [insList]
  | cons e L ih =>
    obtain ⟨a, b⟩ := e
    intro h
    simp only [List.map_cons, List.pairwise_cons] at h
    rw [insList_cons]
    split_ifs with h0 h1
    · simpa using h
    · simp only [List.map_cons, List.pairwise_cons, List.mem_cons]
      refine ⟨?_, h⟩
      have hka : cmp key a < 0 := (hc.lt_iff_gt key a).2 h1
      rintro y (rfl | hy)
      · exact hka
      · exact hc.lt_trans hka (h.1 y hy)
    · simp only [List.map_cons, List.pairwise_cons]
      refine ⟨?_, ih h.2⟩
      intro y hy
      rcases mem_keys_insList cmp key value y L hy with rfl | hy
      · omega
      · exact h.1 y hy

theorem delList_sorted (cmp : K → K → Int) (key : K) (L : List (K × V))
    (h : (L.map Prod.fst).Pairwise (fun a b => cmp a b < 0)) :
    ((delList cmp key L).map Prod.fst).Pairwise (fun a b => cmp a b < 0) := by
  unfold delList
  exact List.Pairwise.sublist ((List.filter_sublist L).map Prod.fst) h

/-! ## `insert` and `remove` keep a subtree well formed -/

theorem insert_WellFormed {cmp : K → K → Int} (hc : LawfulCmp cmp) (key : K) (value : V)
    {t : avlNode K V} (h : WellFormed cmp t) :
    ∃ t1, insert cmp t key value = some t1 ∧ WellFormed cmp t1 ∧
      t1.toList = insList cmp key value t.toList := by
  obtain ⟨hb, hbal, hca⟩ := h
  obtain ⟨t1, e, hc1, hb1, _⟩ := insert_inv cmp key value t hca hbal
  have hl := insert_toList hc key value t t1 hb e
  refine ⟨t1, e, ⟨?_, hb1, hc1⟩, hl⟩
  rw [BST_iff_sorted hc, keys, hl]
  exact insList_sorted hc key value _ ((BST_iff_sorted hc t).1 hb)

theorem remove_WellFormed {cmp : K → K → Int} (hc : LawfulCmp cmp) (key : K)
    {t : avlNode K V} (h : WellFormed cmp t) :
    ∃ t1, remove cmp t key = some t1 ∧ WellFormed cmp t1 ∧
      t1.toList = delList cmp key t.toList := by
  obtain ⟨hb, hbal, hca⟩ := h
  obtain ⟨t1, e, hc1, hb1, _⟩ := remove_inv cmp t key hca hbal
  have hl := remove_toList hc t t1 key hb e
  refine ⟨t1, e, ⟨?_, hb1, hc1⟩, hl⟩
  rw [BST_iff_sorted hc, keys, hl]
  exact delList_sorted cmp key _ ((BST_iff_sorted hc t).1 hb)

theorem WellFormed_nil (cmp : K → K → Int) : WellFormed cmp (nil : avlNode K V) :=
  ⟨trivial, trivial, trivial⟩

/-- Every call keeps the cache and balance invariants, for any comparator. -/
theorem Op.apply_inv (t : AVLTree K V) (op : Op K V)
    (hca : t.root.CachesOK) (hbal : t.root.Balanced) :
    ∃ t1, op.apply t = some t1 ∧ t1.cmp = t.cmp ∧ t1.root.CachesOK ∧ t1.root.Balanced := by
  cases op with
  | Insert key value =>
    obtain ⟨r, e, h1, h2, _⟩ := insert_inv t.cmp key value t.root hca hbal
    exact ⟨{ t with root := r }, by simp [Op.apply, AVLTree.Insert, e], rfl, h1, h2⟩
  | Remove key =>
    obtain ⟨r, e, h1, h2, _⟩ := remove_inv t.cmp t.root key hca hbal
    exact ⟨{ t with root := r }, by simp [Op.apply, AVLTree.Remove, e], rfl, h1, h2⟩
  | Clear => exact ⟨t.Clear, rfl, rfl, trivial, trivial⟩

theorem runOps_inv (ops : List (Op K V)) :
    ∀ t : AVLTree K V, t.root.CachesOK → t.root.Balanced →
      ∃ t1, runOps t ops = some t1 ∧ t1.cmp = t.cmp ∧ t1.root.CachesOK ∧ t1.root.Balanced := by
  induction ops with
  | nil => intro t h1 h2; exact ⟨t, rfl, rfl, h1, h2⟩
  | cons op ops ih =>
    intro t h1 h2
    obtain ⟨t1, e1, ec, h3, h4⟩ := Op.apply_inv t op h1 h2
    obtain ⟨t2, e2, ec2, h5, h6⟩ := ih t1 h3 h4
    exact ⟨t2, by simp [runOps, e1, e2], by rw [ec2, ec], h5, h6⟩

/-- Every call keeps a tree with a lawful comparator well formed. -/
theorem Op.apply_WellFormed (t : AVLTree K V) (op : Op K V) (hc : LawfulCmp t.cmp)
    (h : WellFormed t.cmp t.root) :
    ∃ t1, op.apply t = some t1 ∧ t1.cmp = t.cmp ∧ WellFormed t1.cmp t1.root := by
  cases op with
  | Insert key value =>
    obtain ⟨r, e, h1, _⟩ := insert_WellFormed hc key value h
    exact ⟨{ t with root := r }, by simp [Op.apply, AVLTree.Insert, e], rfl, h1⟩
  | Remove key =>
    obtain ⟨r, e, h1, _⟩ := remove_WellFormed hc key h
    exact ⟨{ t with root := r }, by simp [Op.apply, AVLTree.Remove, e], rfl, h1⟩
  | Clear => exact ⟨t.Clear, rfl, rfl, WellFormed_nil _⟩

theorem runOps_WellFormed (ops : List (Op K V)) :
    ∀ t : AVLTree K V, LawfulCmp t.cmp → WellFormed t.cmp t.root →
      ∃ t1, runOps t ops = some t1 ∧ t1.cmp = t.cmp ∧ WellFormed t1.cmp t1.root := by
  induction ops with
  | nil => intro t _ h; exact ⟨t, rfl, rfl, h⟩
  | cons op ops ih =>
    intro t hc h
    obtain ⟨t1, e1, ec, h3⟩ := Op.apply_WellFormed t op hc h
    obtain ⟨t2, e2, ec2, h5⟩ := ih t1 (ec ▸ hc) h3
    exact ⟨t2, by simp [runOps, e1, e2], by rw [ec2, ec], h5⟩

/-! ## `Get` on the in-order list -/

theorem lookupList_cons [Inhabited V] (cmp : K → K → Int) (key : K) (a : K) (b : V)
    (xs : List (K × V)) :
    lookupList cmp key ((a, b) :: xs) =
      if cmp a key = 0 then (b, true) else lookupList cmp key xs := rfl

theorem lookupList_append_ne [Inhabited V] (cmp : K → K → Int) (key : K) :
    ∀ (L R : List (K × V)), (∀ e ∈ L, cmp e.1 key ≠ 0) →
      lookupList cmp key (L ++ R) = lookupList cmp key R := by
  intro L
  induction L with
  | nil => intro R _; rfl
  | cons e L ih =>
    intro R h
    obtain ⟨a, b⟩ := e
    have ha : ¬ cmp a key = 0 := h (a, b) (List.mem_cons_self _ _)
    rw [List.cons_append, lookupList_cons, if_neg ha]
    exact ih R (fun e he => h e (List.mem_cons_of_mem _ he))

theorem lookupList_append_of_ne [Inhabited V] (cmp : K → K → Int) (key : K) :
    ∀ (L R : List (K × V)), (∀ e ∈ R, cmp e.1 key ≠ 0) →
      lookupList cmp key (L ++ R) = lookupList cmp key L := by
  intro L
  induction L with
  | nil =>
    intro R h
    induction R with
    | nil => rfl
    | cons e R ihR =>
      obtain ⟨a, b⟩ := e
      have ha : ¬ cmp a key = 0 := h (a, b) (List.mem_cons_self _ _)
      rw [List.nil_append, lookupList_cons, if_neg ha]
      exact ihR (fun e he => h e (List.mem_cons_of_mem _ he))
  | cons e L ih =>
    intro R h
    obtain ⟨a, b⟩ := e
    rw [List.cons_append, lookupList_cons, lookupList_cons]
    split_ifs
    · rfl
    · exact ih R h

/-- On an ordered tree the descent of `Get` finds what a scan of the in-order
list finds. -/
theorem getLoop_eq_lookupList [Inhabited V] {cmp : K → K → Int} (hc : LawfulCmp cmp) (key : K) :
    ∀ t : avlNode K V, t.BST cmp → getLoop cmp t key = lookupList cmp key t.toList := by
  intro t
  induction t with
  | nil => intro _; rfl
  | node k v l r s h ihl ihr =>
    intro hb
    obtain ⟨hbl, hbr, hlk, hrk⟩ := hb
    rw [getLoop, toList_node]
    by_cases h0 : cmp k key = 0
    · rw [if_pos h0, lookupList_append_ne, lookupList_cons, if_pos h0]
      intro e he
      have := hc.lt_of_lt_of_le (hlk e.1 (mem_keys_of_mem_toList he)) (le_of_eq h0)
      omega
    · rw [if_neg h0]
      by_cases h1 : cmp k key > 0
      · rw [if_pos h1, ihl hbl, lookupList_append_of_ne]
        intro e he
        rcases List.mem_cons.1 he with rfl | he
        · exact h0
        · have h2 := (hc.lt_iff_gt k e.1).2 (hrk e.1 (mem_keys_of_mem_toList he))
          have h3 := (hc.lt_iff_gt key k).2 h1
          have h4 := hc.lt_trans h3 h2
          have h5 := hc.lt_iff_gt key e.1
          omega
      · rw [if_neg h1, ihr hbr, lookupList_append_ne, lookupList_cons, if_neg h0]
        intro e he
        have h2 : cmp k key < 0 := by omega
        have := hc.lt_trans (hlk e.1 (mem_keys_of_mem_toList he)) h2
        omega

theorem lookupList_insList_self [Inhabited V] {cmp : K → K → Int} (hc : LawfulCmp cmp)
    (key : K) (value : V) :
    ∀ L : List (K × V), lookupList cmp key (insList cmp key value L) = (value, true) := by
  intro L
  induction L with
  | nil => simp [insList, lookupList, hc.refl]
  | cons e L ih =>
    obtain ⟨a, b⟩ := e
    rw [insList_cons]
    split_ifs with h0 h1
    · rw [lookupList_cons, if_pos h0]
    · rw [lookupList_cons, if_pos (hc.refl key)]
    · rw [lookupList_cons, if_neg h0, ih]

/-- Keys that compare equal to a common key compare equal to each other. -/
theorem LawfulCmp.eq_trans {cmp : K → K → Int} (hc : LawfulCmp cmp) {a b c : K}
    (h1 : cmp a b = 0) (h2 : cmp b c = 0) : cmp a c = 0 := by
  have h3 := hc.trans a b c (le_of_eq h1) (le_of_eq h2)
  have h4 := hc.trans c b a (le_of_eq ((hc.eq_iff_eq b c).1 h2)) (le_of_eq ((hc.eq_iff_eq a b).1 h1))
  have h5 := hc.lt_iff_gt a c
  omega

theorem lookupList_insList_other [Inhabited V] {cmp : K → K → Int} (hc : LawfulCmp cmp)
    (key : K) (value : V) (q : K) (hq : cmp key q ≠ 0) :
    ∀ L : List (K × V), lookupList cmp q (insList cmp key value L) = lookupList cmp q L := by
  intro L
  induction L with
  | nil => simp [insList, lookupList, hq]
  | cons e L ih =>
    obtain ⟨a, b⟩ := e
    rw [insList_cons]
    split_ifs with h0 h1
    · have haq : ¬ cmp a q = 0 := fun h =>
        hq (hc.eq_trans ((hc.eq_iff_eq a key).1 h0) h)
      rw [lookupList_cons, lookupList_cons, if_neg haq, if_neg haq]
    · rw [lookupList_cons, if_neg hq]
    · rw [lookupList_cons, lookupList_cons, ih]

theorem lookupList_delList_self [Inhabited V] (cmp : K → K → Int) (key : K) :
    ∀ L : List (K × V), lookupList cmp key (delList cmp key L) = (default, false) := by
  intro L
  induction L with
  | nil => rfl
  | cons e L ih =>
    obtain ⟨a, b⟩ := e
    by_cases h0 : cmp a key = 0
    · rw [delList_cons_eq cmp key a b L h0, ih]
    · rw [delList_cons_ne cmp key a b L h0, lookupList_cons, if_neg h0, ih]

theorem lookupList_delList_other [Inhabited V] {cmp : K → K → Int} (hc : LawfulCmp cmp)
    (key : K) (q : K) (hq : cmp key q ≠ 0) :
    ∀ L : List (K × V), lookupList cmp q (delList cmp key L) = lookupList cmp q L := by
  intro L
  induction L with
  | nil => rfl
  | cons e L ih =>
    obtain ⟨a, b⟩ := e
    by_cases h0 : cmp a key = 0
    · have haq : ¬ cmp a q = 0 := fun h =>
        hq (hc.eq_trans ((hc.eq_iff_eq a key).1 h0) h)
      rw [delList_cons_eq cmp key a b L h0, ih, lookupList_cons, if_neg haq]
    · rw [delList_cons_ne cmp key a b L h0, lookupList_cons, lookupList_cons, ih]

/-! ## Invariants of the tree -/

/-- C1. Balance invariant is preserved. For every comparator (a lawful one in
particular) and every finite sequence of `Insert`, `Remove` and `Clear` calls on
the tree made by `NewAVLTree`, every call returns and in the resulting tree every
node has `height(left) - height(right)` in `{-1, 0, 1}` for the true recursive
height. Also, `Insert` and `Remove` each take a tree that is balanced with
correct caches (a well-formed tree in particular) to a balanced tree. -/
theorem C1_balance_preserved (cmp : K → K → Int) :
    (∀ ops : List (Op K V),
      ∃ t, runOps (NewAVLTree cmp) ops = some t ∧ t.root.Balanced) ∧
    (∀ (t : AVLTree K V) (key : K) (value : V), t.root.CachesOK → t.root.Balanced →
      ∃ t1, t.Insert key value = some t1 ∧ t1.root.Balanced) ∧
    (∀ (t : AVLTree K V) (key : K), t.root.CachesOK → t.root.Balanced →
      ∃ t1, t.Remove key = some t1 ∧ t1.root.Balanced) := by
  refine ⟨?_, ?_, ?_⟩
  · intro ops
    obtain ⟨t, e, _, _, hb⟩ := runOps_inv ops (NewAVLTree cmp) trivial trivial
    exact ⟨t, e, hb⟩
  · intro t key value hca hbal
    obtain ⟨t1, e, _, _, hb⟩ := Op.apply_inv t (Op.Insert key value) hca hbal
    exact ⟨t1, e, hb⟩
  · intro t key hca hbal
    obtain ⟨t1, e, _, _, hb⟩ := Op.apply_inv t (Op.Remove key) hca hbal
    exact ⟨t1, e, hb⟩

/-- C2. BST order invariant is preserved. For every lawful comparator and every
finite sequence of `Insert`, `Remove` and `Clear` calls on an empty tree, every
call returns and in the resulting tree every key of a node's left subtree
compares less than the node's key and every key of its right subtree compares
greater; and the in-order traversal of the keys is strictly increasing. -/
theorem C2_order_preserved (cmp : K → K → Int) (hc : LawfulCmp cmp) (ops : List (Op K V)) :
    ∃ t, runOps (NewAVLTree cmp) ops = some t ∧ t.root.BST cmp ∧
      t.root.keys.Pairwise (fun a b => cmp a b < 0) := by
  obtain ⟨t, e, ec, hw⟩ := runOps_WellFormed ops (NewAVLTree cmp) hc (WellFormed_nil cmp)
  have ec1 : t.cmp = cmp := ec
  rw [ec1] at hw
  exact ⟨t, e, hw.1, (BST_iff_sorted hc _).1 hw.1⟩

/-- C3. Cached fields are never stale. For every comparator and every finite
sequence of `Insert`, `Remove` and `Clear` calls on an empty tree, every call
returns and in the resulting tree every node's cached height is
`1 + max(true height of left, true height of right)` and its cached size is
`1 + size(left) + size(right)`, the true node count of its subtree. -/
theorem C3_caches_correct (cmp : K → K → Int) (ops : List (Op K V)) :
    ∃ t, runOps (NewAVLTree cmp) ops = some t ∧ t.root.CachesOK ∧
      t.Len = (t.root.trueSize : Int) ∧ t.root.Height = (t.root.trueHeight : Int) := by
  obtain ⟨t, e, _, hca, _⟩ := runOps_inv ops (NewAVLTree cmp) trivial trivial
  exact ⟨t, e, hca, Size_eq_of_CachesOK hca, Height_eq_of_CachesOK hca⟩

/-! ## Insert and Remove against Get -/

/-- C4. Insert adds or updates exactly one entry. On a well-formed tree with a
lawful comparator, `Insert(k, v)` returns, afterwards `Get(k)` is `(v, true)`,
and `Get(q)` is what it was before for every key `q` with `cmp(k, q) != 0`. -/
theorem C4_insert_get [Inhabited V] (t : AVLTree K V) (hc : LawfulCmp t.cmp)
    (hwf : WellFormed t.cmp t.root) (k : K) (v : V) :
    ∃ t1, t.Insert k v = some t1 ∧ t1.Get k = (v, true) ∧
      ∀ q, t.cmp k q ≠ 0 → t1.Get q = t.Get q := by
  obtain ⟨r, e, hw1, hl⟩ := insert_WellFormed hc k v hwf
  refine ⟨{ t with root := r }, by simp [AVLTree.Insert, e], ?_, ?_⟩
  · show getLoop t.cmp r k = (v, true)
    rw [getLoop_eq_lookupList hc k r hw1.1, hl, lookupList_insList_self hc]
  · intro q hq
    show getLoop t.cmp r q = getLoop t.cmp t.root q
    rw [getLoop_eq_lookupList hc q r hw1.1, hl, lookupList_insList_other hc k v q hq,
      getLoop_eq_lookupList hc q t.root hwf.1]

/-- C5. Remove deletes exactly the requested entry. On a well-formed tree with a
lawful comparator, `Remove(k)` returns, afterwards `Get(k)` is
`(zero value, false)`, and `Get(q)` is what it was before (same value, same found
flag) for every key `q` with `cmp(k, q) != 0`, in every case of the removal. -/
theorem C5_remove_get [Inhabited V] (t : AVLTree K V) (hc : LawfulCmp t.cmp)
    (hwf : WellFormed t.cmp t.root) (k : K) :
    ∃ t1, t.Remove k = some t1 ∧ t1.Get k = (default, false) ∧
      ∀ q, t.cmp k q ≠ 0 → t1.Get q = t.Get q := by
  obtain ⟨r, e, hw1, hl⟩ := remove_WellFormed hc k hwf
  refine ⟨{ t with root := r }, by simp [AVLTree.Remove, e], ?_, ?_⟩
  · show getLoop t.cmp r k = (default, false)
    rw [getLoop_eq_lookupList hc k r hw1.1, hl, lookupList_delList_self]
  · intro q hq
    show getLoop t.cmp r q = getLoop t.cmp t.root q
    rw [getLoop_eq_lookupList hc q r hw1.1, hl, lookupList_delList_other hc k q hq,
      getLoop_eq_lookupList hc q t.root hwf.1]

/-! ## Sizes -/

theorem keys_insList_of_absent (cmp : K → K → Int) (key : K) (value : V) :
    ∀ L : List (K × V), (∀ x ∈ L.map Prod.fst, cmp x key ≠ 0) →
      List.Perm ((insList cmp key value L).map Prod.fst) (key :: L.map Prod.fst) := by
  intro L
  induction L with
  | nil => intro _; exact List.Perm.refl _
  | cons e L ih =>
    obtain ⟨a, b⟩ := e
    intro h
    have h0 : ¬ cmp a key = 0 := h a (by simp)
    rw [insList_cons, if_neg h0]
    split_ifs
    · exact List.Perm.refl _
    · have := ih (fun x hx => h x (by simp only [List.map_cons, List.mem_cons]; exact Or.inr hx))
      exact (List.Perm.cons a this).trans (List.Perm.swap key a _)

theorem keys_insList_of_present {cmp : K → K → Int} (hc : LawfulCmp cmp) (key : K)
    (value : V) :
    ∀ L : List (K × V), (L.map Prod.fst).Pairwise (fun a b => cmp a b < 0) →
      (∃ x ∈ L.map Prod.fst, cmp x key = 0) →
      (insList cmp key value L).map Prod.fst = L.map Prod.fst := by
  intro L
  induction L with
  | nil => intro _ h; simp at h
  | cons e L ih =>
    obtain ⟨a, b⟩ := e
    intro hs hp
    simp only [List.map_cons, List.pairwise_cons] at hs
    rw [insList_cons]
    have hin : cmp a key ≠ 0 → ∃ x ∈ L.map Prod.fst, cmp x key = 0 := by
      intro h0
      obtain ⟨x, hx, hx0⟩ := hp
      simp only [List.map_cons, List.mem_cons] at hx
      rcases hx with rfl | hx
      · exact absurd hx0 h0
      · exact ⟨x, hx, hx0⟩
    split_ifs with h0 h1
    · rfl
    · exfalso
      obtain ⟨x, hx, hx0⟩ := hin h0
      have := hc.lt_of_lt_of_le (hs.1 x hx) (le_of_eq hx0)
      omega
    · simp only [List.map_cons]
      rw [ih hs.2 (hin h0)]

theorem keys_delList (cmp : K → K → Int) (key : K) (L : List (K × V)) :
    (delList cmp key L).map Prod.fst =
      (L.map Prod.fst).filter (fun x => decide (cmp x key ≠ 0)) := by
  induction L with
  | nil => rfl
  | cons e L ih =>
    obtain ⟨a, b⟩ := e
    by_cases h0 : cmp a key = 0
    · rw [delList_cons_eq cmp key a b L h0, ih]
      simp [h0]
    · rw [delList_cons_ne cmp key a b L h0]
      simp [h0, ih]

theorem length_delList_of_present {cmp : K → K → Int} (hc : LawfulCmp cmp) (key : K) :
    ∀ L : List (K × V), (L.map Prod.fst).Pairwise (fun a b => cmp a b < 0) →
      (∃ x ∈ L.map Prod.fst, cmp x key = 0) →
      (delList cmp key L).length + 1 = L.length := by
  intro L
  induction L with
  | nil => intro _ h; simp at h
  | cons e L ih =>
    obtain ⟨a, b⟩ := e
    intro hs hp
    simp only [List.map_cons, List.pairwise_cons] at hs
    by_cases h0 : cmp a key = 0
    · rw [delList_cons_eq cmp key a b L h0, delList_eq_self]
      · rfl
      · intro e he
        have h1 := hs.1 e.1 (List.mem_map_of_mem Prod.fst he)
        have h2 : cmp key a = 0 := (hc.eq_iff_eq a key).1 h0
        have h3 := hc.lt_of_le_of_lt (le_of_eq h2) h1
        have h4 := hc.lt_iff_gt key e.1
        omega
    · rw [delList_cons_ne cmp key a b L h0]
      obtain ⟨x, hx, hx0⟩ := hp
      simp only [List.map_cons, List.mem_cons] at hx
      rcases hx with rfl | hx
      · exact absurd hx0 h0
      · have := ih hs.2 ⟨x, hx, hx0⟩
        simp only [List.length_cons]
        omega

theorem Len_eq_length {cmp : K → K → Int} {r : avlNode K V} (h : r.CachesOK) :
    (AVLTree.mk r cmp).Len = (r.toList.length : Int) := by
  rw [length_toList]
  exact Size_eq_of_CachesOK h

theorem any_eq_true_iff_present (cmp : K → K → Int) (key : K) (acc : List K) :
    acc.any (fun x => decide (cmp x key = 0)) = true ↔ ∃ x ∈ acc, cmp x key = 0 := by
  simp [List.any_eq_true]

/-- The stored keys follow the abstract reading of the calls. -/
theorem runOps_liveKeys (ops : List (Op K V)) :
    ∀ (t : AVLTree K V) (acc : List K), LawfulCmp t.cmp → WellFormed t.cmp t.root →
      List.Perm t.root.keys acc →
      ∃ t1, runOps t ops = some t1 ∧ t1.root.CachesOK ∧
        List.Perm t1.root.keys (liveKeys t.cmp acc ops) := by
  induction ops with
  | nil => intro t acc _ hw hp; exact ⟨t, rfl, hw.2.2, hp⟩
  | cons op ops ih =>
    intro t acc hc hw hp
    have hs := (BST_iff_sorted hc _).1 hw.1
    cases op with
    | Insert key value =>
      obtain ⟨r, e, hw1, hl⟩ := insert_WellFormed hc key value hw
      have hk : List.Perm r.keys
          (if acc.any (fun x => decide (t.cmp x key = 0)) then acc else key :: acc) := by
        rw [keys, hl]
        by_cases hpr : ∃ x ∈ t.root.keys, t.cmp x key = 0
        · have hacc : acc.any (fun x => decide (t.cmp x key = 0)) = true := by
            rw [any_eq_true_iff_present]
            obtain ⟨x, hx, hx0⟩ := hpr
            exact ⟨x, hp.mem_iff.1 hx, hx0⟩
          rw [if_pos hacc, keys_insList_of_present hc key value _ hs hpr]
          exact hp
        · have hacc : ¬ acc.any (fun x => decide (t.cmp x key = 0)) = true := by
            rw [any_eq_true_iff_present]
            rintro ⟨x, hx, hx0⟩
            exact hpr ⟨x, hp.mem_iff.2 hx, hx0⟩
          rw [if_neg hacc]
          refine (keys_insList_of_absent t.cmp key value _ ?_).trans (List.Perm.cons key hp)
          intro x hx hx0
          exact hpr ⟨x, hx, hx0⟩
      obtain ⟨t1, e1, h1, h2⟩ := ih { t with root := r } _ hc hw1 hk
      exact ⟨t1, by simp [runOps, Op.apply, AVLTree.Insert, e, e1], h1, h2⟩
    | Remove key =>
      obtain ⟨r, e, hw1, hl⟩ := remove_WellFormed hc key hw
      have hk : List.Perm r.keys (acc.filter (fun x => decide (t.cmp x key ≠ 0))) := by
        rw [keys, hl, keys_delList]
        exact List.Perm.filter _ hp
      obtain ⟨t1, e1, h1, h2⟩ := ih { t with root := r } _ hc hw1 hk
      exact ⟨t1, by simp [runOps, Op.apply, AVLTree.Remove, e, e1], h1, h2⟩
    | Clear =>
      obtain ⟨t1, e1, h1, h2⟩ := ih t.Clear [] hc (WellFormed_nil _) (List.Perm.refl _)
      exact ⟨t1, by simp [runOps, Op.apply, e1], h1, h2⟩

/-- C6. Size accuracy. On a well-formed tree with a lawful comparator, `Insert`
of a key that compares equal to no stored key increases `Len()` by exactly 1 and
`Insert` of a key already present leaves `Len()` unchanged; `Remove` of a present
key decreases `Len()` by exactly 1 and `Remove` of an absent key leaves it
unchanged. Hence after any sequence of calls on an empty tree `Len()` is the
number of distinct keys inserted and not removed since. -/
theorem C6_size_accuracy (cmp : K → K → Int) (hc : LawfulCmp cmp) :
    (∀ (r : avlNode K V) (k : K) (v : V), WellFormed cmp r →
      ∃ t1, (AVLTree.mk r cmp).Insert k v = some t1 ∧
        ((∀ x ∈ r.keys, cmp x k ≠ 0) → t1.Len = (AVLTree.mk r cmp).Len + 1) ∧
        ((∃ x ∈ r.keys, cmp x k = 0) → t1.Len = (AVLTree.mk r cmp).Len)) ∧
    (∀ (r : avlNode K V) (k : K), WellFormed cmp r →
      ∃ t1, (AVLTree.mk r cmp).Remove k = some t1 ∧
        ((∃ x ∈ r.keys, cmp x k = 0) → t1.Len = (AVLTree.mk r cmp).Len - 1) ∧
        ((∀ x ∈ r.keys, cmp x k ≠ 0) → t1.Len = (AVLTree.mk r cmp).Len)) ∧
    (∀ ops : List (Op K V),
      ∃ t, runOps (NewAVLTree cmp) ops = some t ∧
        t.Len = ((liveKeys cmp [] ops).length : Int)) := by
  refine ⟨?_, ?_, ?_⟩
  · intro r k v hw
    obtain ⟨r1, e, hw1, hl⟩ := insert_WellFormed hc k v hw
    have hs := (BST_iff_sorted hc _).1 hw.1
    refine ⟨AVLTree.mk r1 cmp, by simp [AVLTree.Insert, e], ?_, ?_⟩
    · intro habs
      rw [Len_eq_length hw1.2.2, Len_eq_length hw.2.2, hl]
      have := (keys_insList_of_absent cmp k v r.toList habs).length_eq
      simp only [List.length_map, List.length_cons] at this
      rw [this]
      push_cast
      rfl
    · intro hpr
      rw [Len_eq_length hw1.2.2, Len_eq_length hw.2.2, hl]
      have := congrArg List.length (keys_insList_of_present hc k v r.toList hs hpr)
      simp only [List.length_map] at this
      rw [this]
  · intro r k hw
    obtain ⟨r1, e, hw1, hl⟩ := remove_WellFormed hc k hw
    have hs := (BST_iff_sorted hc _).1 hw.1
    refine ⟨AVLTree.mk r1 cmp, by simp [AVLTree.Remove, e], ?_, ?_⟩
    · intro hpr
      rw [Len_eq_length hw1.2.2, Len_eq_length hw.2.2, hl]
      have := length_delList_of_present hc k r.toList hs hpr
      omega
    · intro habs
      rw [Len_eq_length hw1.2.2, Len_eq_length hw.2.2, hl, delList_eq_self]
      intro e he
      exact habs e.1 (mem_keys_of_mem_toList he)
  · intro ops
    obtain ⟨t, e, hca, hp⟩ :=
      runOps_liveKeys ops (NewAVLTree cmp) [] hc (WellFormed_nil cmp) (List.Perm.refl _)
    refine ⟨t, e, ?_⟩
    have h1 : t.Len = (t.root.trueSize : Int) := Size_eq_of_CachesOK hca
    rw [h1, ← length_keys, hp.length_eq]
    rfl

/-! ## Round trip with `CmpLess` -/

theorem CmpLess_eq_zero_iff (x y : Int) : CmpLess x y = 0 ↔ x = y := by
  unfold CmpLess
  split_ifs <;> simp_all

theorem CmpLess_neg_iff (x y : Int) : CmpLess x y < 0 ↔ x < y := by
  unfold CmpLess
  split_ifs with h1 h2
  · simp [h1]
  · simp only [gt_iff_lt] at h2
    constructor
    · intro h; omega
    · intro h; omega
  · simp only [gt_iff_lt] at h2
    constructor
    · intro _; omega
    · intro _; omega

theorem liveKeys_append (cmp : K → K → Int) (ops1 ops2 : List (Op K V)) :
    ∀ acc : List K,
      liveKeys cmp acc (ops1 ++ ops2) = liveKeys cmp (liveKeys cmp acc ops1) ops2 := by
  induction ops1 with
  | nil => intro acc; rfl
  | cons op ops ih =>
    intro acc
    cases op with
    | Insert key value => exact ih _
    | Remove key => exact ih _
    | Clear => exact ih _

theorem liveKeys_inserts (kvs : List (Int × V)) :
    ∀ acc : List Int, (kvs.map Prod.fst).Nodup → (∀ k ∈ kvs.map Prod.fst, k ∉ acc) →
      List.Perm (liveKeys CmpLess acc (kvs.map (fun e => (Op.Insert e.1 e.2 : Op Int V))))
        (kvs.map Prod.fst ++ acc) := by
  induction kvs with
  | nil => intro acc _ _; exact List.Perm.refl _
  | cons e kvs ih =>
    obtain ⟨k, v⟩ := e
    intro acc hnd hdis
    simp only [List.map_cons, List.nodup_cons] at hnd
    have hk : k ∉ acc := hdis k (by simp)
    have hany : ¬ acc.any (fun x => decide (CmpLess x k = 0)) = true := by
      rw [any_eq_true_iff_present]
      rintro ⟨x, hx, hx0⟩
      rw [CmpLess_eq_zero_iff] at hx0
      exact hk (hx0 ▸ hx)
    simp only [List.map_cons, liveKeys, if_neg hany]
    refine (ih (k :: acc) hnd.2 ?_).trans ?_
    · intro x hx
      simp only [List.mem_cons, not_or]
      refine ⟨?_, hdis x (by simp only [List.map_cons, List.mem_cons]; exact Or.inr hx)⟩
      rintro rfl
      exact hnd.1 hx
    · exact List.perm_middle

theorem liveKeys_removes (rs : List Int) :
    ∀ acc : List Int,
      liveKeys CmpLess acc (rs.map (fun k => (Op.Remove k : Op Int V))) =
        acc.filter (fun x => decide (x ∉ rs)) := by
  induction rs with
  | nil => intro acc; simp [liveKeys]
  | cons r rs ih =>
    intro acc
    simp only [List.map_cons, liveKeys]
    rw [ih, List.filter_filter]
    congr 1
    funext x
    simp only [List.mem_cons, not_or, CmpLess_eq_zero_iff]
    by_cases h1 : x = r <;> by_cases h2 : x ∈ rs <;> simp [h1, h2, CmpLess_eq_zero_iff]

/-- C7. Round trip. Insert pairwise distinct integer keys, in any order, into an
empty tree with comparator `CmpLess`, then remove the keys of any list `rs` (any
subset of the inserted keys in particular), in any order: every call returns and
the in-order traversal of the resulting tree's keys is the inserted-minus-removed
keys in ascending order. -/
theorem C7_round_trip (kvs : List (Int × V)) (rs : List Int)
    (hd : (kvs.map Prod.fst).Nodup) :
    ∃ t, runOps (NewAVLTree CmpLess)
        (kvs.map (fun e => (Op.Insert e.1 e.2 : Op Int V)) ++
          rs.map (fun k => (Op.Remove k : Op Int V))) = some t ∧
      t.root.keys =
        List.insertionSort (fun a b => a ≤ b)
          ((kvs.map Prod.fst).filter (fun x => decide (x ∉ rs))) := by
  obtain ⟨t, e, ec, hw⟩ := runOps_WellFormed
    (kvs.map (fun e => (Op.Insert e.1 e.2 : Op Int V)) ++
      rs.map (fun k => (Op.Remove k : Op Int V)))
    (NewAVLTree CmpLess) CmpLess_lawful (WellFormed_nil _)
  obtain ⟨t2, e2, _, hp⟩ := runOps_liveKeys
    (kvs.map (fun e => (Op.Insert e.1 e.2 : Op Int V)) ++
      rs.map (fun k => (Op.Remove k : Op Int V)))
    (NewAVLTree CmpLess) [] CmpLess_lawful (WellFormed_nil _) (List.Perm.refl _)
  rw [e] at e2
  cases e2
  refine ⟨t, e, ?_⟩
  have ec1 : t.cmp = CmpLess := ec
  rw [ec1] at hw
  have hs : t.root.keys.Pairwise (fun a b => a ≤ b) := by
    refine List.Pairwise.imp ?_ ((BST_iff_sorted CmpLess_lawful _).1 hw.1)
    intro a b hab
    exact le_of_lt ((CmpLess_neg_iff a b).1 hab)
  have hperm : List.Perm t.root.keys
      (List.insertionSort (fun a b => a ≤ b)
        ((kvs.map Prod.fst).filter (fun x => decide (x ∉ rs)))) := by
    refine hp.trans ?_
    show List.Perm (liveKeys CmpLess [] _) _
    rw [liveKeys_append, liveKeys_removes]
    refine List.Perm.trans ?_ (List.perm_insertionSort _ _).symm
    refine List.Perm.filter _ ?_
    have := liveKeys_inserts kvs [] hd (fun k _ => List.not_mem_nil k)
    simpa using this
  exact List.eq_of_perm_of_sorted hperm hs (List.sorted_insertionSort _ _)

/-! ## Neighbour queries -/

theorem mem_keys_node {k : K} {v : V} {l r : avlNode K V} {s h : Int} {x : K} :
    x ∈ (node k v l r s h).keys ↔ x ∈ l.keys ∨ x = k ∨ x ∈ r.keys := by
  rw [keys_node]
  simp

theorem mem_toList_node {k : K} {v : V} {l r : avlNode K V} {s h : Int} {e : K × V} :
    e ∈ (node k v l r s h).toList ↔ e ∈ l.toList ∨ e = (k, v) ∨ e ∈ r.toList := by
  rw [toList_node]
  simp

/-- On an ordered tree an entry of the in-order list is what `Get` returns for
its key. -/
theorem lookupList_of_mem [Inhabited V] {cmp : K → K → Int} (hc : LawfulCmp cmp) (k : K)
    (v : V) :
    ∀ L : List (K × V), (L.map Prod.fst).Pairwise (fun a b => cmp a b < 0) → (k, v) ∈ L →
      lookupList cmp k L = (v, true) := by
  intro L
  induction L with
  | nil => intro _ h; simp at h
  | cons e L ih =>
    obtain ⟨a, b⟩ := e
    intro hs hm
    simp only [List.map_cons, List.pairwise_cons] at hs
    rw [lookupList_cons]
    rcases List.mem_cons.1 hm with h | h
    · cases h
      rw [if_pos (hc.refl _)]
    · have := hs.1 k (List.mem_map_of_mem Prod.fst h)
      rw [if_neg (by omega), ih hs.2 h]

theorem getLoop_of_mem [Inhabited V] {cmp : K → K → Int} (hc : LawfulCmp cmp)
    {t : avlNode K V} (hb : t.BST cmp) {k : K} {v : V} (hm : (k, v) ∈ t.toList) :
    getLoop cmp t k = (v, true) := by
  rw [getLoop_eq_lookupList hc k t hb]
  exact lookupList_of_mem hc k v _ ((BST_iff_sorted hc t).1 hb) hm

/-- The loop of `GetFloor` on an ordered subtree: either no key of the subtree
is at most the query and the named results are unchanged, or the results are the
entry with the greatest key that is at most the query. -/
theorem getFloorLoop_spec [Inhabited K] [Inhabited V] {cmp : K → K → Int}
    (hc : LawfulCmp cmp) (q : K) :
    ∀ (t : avlNode K V) (acc : K × V × Bool), t.BST cmp →
      ((∀ x ∈ t.keys, ¬ cmp x q ≤ 0) ∧ getFloorLoop cmp t q acc = acc) ∨
      (∃ k v, getFloorLoop cmp t q acc = (k, v, true) ∧ (k, v) ∈ t.toList ∧ cmp k q ≤ 0 ∧
        ∀ x ∈ t.keys, cmp x q ≤ 0 → cmp x k ≤ 0) := by
  intro t
  induction t with
  | nil => intro acc _; left; exact ⟨fun x hx => by simp [keys_nil] at hx, rfl⟩
  | node k v l r s h ihl ihr =>
    intro acc hb
    obtain ⟨hbl, hbr, hlk, hrk⟩ := hb
    rw [getFloorLoop]
    by_cases h0 : cmp k q = 0
    · rw [if_pos h0]
      right
      refine ⟨k, v, rfl, mem_toList_node.2 (Or.inr (Or.inl rfl)), le_of_eq h0, ?_⟩
      intro x _ hx
      exact hc.trans x q k hx (le_of_eq ((hc.eq_iff_eq k q).1 h0))
    · rw [if_neg h0]
      by_cases h1 : cmp k q > 0
      · rw [if_pos h1]
        have hr : ∀ x ∈ r.keys, ¬ cmp x q ≤ 0 := by
          intro x hx hxq
          have h2 := (hc.lt_iff_gt k x).2 (hrk x hx)
          have := hc.lt_of_lt_of_le h2 hxq
          omega
        rcases ihl acc hbl with ⟨hn, e⟩ | ⟨k1, v1, e, hm, hle, hmax⟩
        · left
          refine ⟨?_, e⟩
          intro x hx
          rcases mem_keys_node.1 hx with hx | rfl | hx
          · exact hn x hx
          · omega
          · exact hr x hx
        · right
          refine ⟨k1, v1, e, mem_toList_node.2 (Or.inl hm), hle, ?_⟩
          intro x hx hxq
          rcases mem_keys_node.1 hx with hx | rfl | hx
          · exact hmax x hx hxq
          · omega
          · exact absurd hxq (hr x hx)
      · rw [if_neg h1]
        have h2 : cmp k q < 0 := by omega
        right
        rcases ihr (k, v, true) hbr with ⟨hn, e⟩ | ⟨k1, v1, e, hm, hle, hmax⟩
        · refine ⟨k, v, e, mem_toList_node.2 (Or.inr (Or.inl rfl)), le_of_lt h2, ?_⟩
          intro x hx hxq
          rcases mem_keys_node.1 hx with hx | rfl | hx
          · exact le_of_lt (hlk x hx)
          · exact le_of_eq (hc.refl x)
          · exact absurd hxq (hn x hx)
        · refine ⟨k1, v1, e, mem_toList_node.2 (Or.inr (Or.inr hm)), hle, ?_⟩
          have hkk1 : cmp k k1 < 0 := (hc.lt_iff_gt k k1).2 (hrk k1 (mem_keys_of_mem_toList hm))
          intro x hx hxq
          rcases mem_keys_node.1 hx with hx | rfl | hx
          · exact le_of_lt (hc.lt_trans (hlk x hx) hkk1)
          · exact le_of_lt hkk1
          · exact hmax x hx hxq

/-- The loop of `GetCeiling` on an ordered subtree: either no key of the subtree
is at least the query and the named results are unchanged, or the results are
the entry with the least key that is at least the query. -/
theorem getCeilingLoop_spec [Inhabited K] [Inhabited V] {cmp : K → K → Int}
    (hc : LawfulCmp cmp) (q : K) :
    ∀ (t : avlNode K V) (acc : K × V × Bool), t.BST cmp →
      ((∀ x ∈ t.keys, ¬ cmp x q ≥ 0) ∧ getCeilingLoop cmp t q acc = acc) ∨
      (∃ k v, getCeilingLoop cmp t q acc = (k, v, true) ∧ (k, v) ∈ t.toList ∧ cmp k q ≥ 0 ∧
        ∀ x ∈ t.keys, cmp x q ≥ 0 → cmp k x ≤ 0) := by
  intro t
  induction t with
  | nil => intro acc _; left; exact ⟨fun x hx => by simp [keys_nil] at hx, rfl⟩
  | node k v l r s h ihl ihr =>
    intro acc hb
    obtain ⟨hbl, hbr, hlk, hrk⟩ := hb
    rw [getCeilingLoop]
    by_cases h0 : cmp k q = 0
    · rw [if_pos h0]
      right
      refine ⟨k, v, rfl, mem_toList_node.2 (Or.inr (Or.inl rfl)), ge_of_eq h0, ?_⟩
      intro x _ hx
      have h1 := hc.lt_iff_gt x q
      have h2 := hc.lt_iff_gt q x
      exact hc.trans k q x (le_of_eq h0) (by omega)
    · rw [if_neg h0]
      by_cases h1 : cmp k q > 0
      · rw [if_pos h1]
        right
        rcases ihl (k, v, true) hbl with ⟨hn, e⟩ | ⟨k1, v1, e, hm, hle, hmin⟩
        · refine ⟨k, v, e, mem_toList_node.2 (Or.inr (Or.inl rfl)), le_of_lt h1, ?_⟩
          intro x hx hxq
          rcases mem_keys_node.1 hx with hx | rfl | hx
          · exact absurd hxq (hn x hx)
          · exact le_of_eq (hc.refl x)
          · exact le_of_lt ((hc.lt_iff_gt k x).2 (hrk x hx))
        · refine ⟨k1, v1, e, mem_toList_node.2 (Or.inl hm), hle, ?_⟩
          have hk1k : cmp k1 k < 0 := hlk k1 (mem_keys_of_mem_toList hm)
          intro x hx hxq
          rcases mem_keys_node.1 hx with hx | rfl | hx
          · exact hmin x hx hxq
          · exact le_of_lt hk1k
          · exact le_of_lt (hc.lt_trans hk1k ((hc.lt_iff_gt k x).2 (hrk x hx)))
      · rw [if_neg h1]
        have h2 : cmp k q < 0 := by omega
        have hl : ∀ x ∈ l.keys, ¬ cmp x q ≥ 0 := by
          intro x hx hxq
          have := hc.lt_trans (hlk x hx) h2
          omega
        rcases ihr acc hbr with ⟨hn, e⟩ | ⟨k1, v1, e, hm, hle, hmin⟩
        · left
          refine ⟨?_, e⟩
          intro x hx
          rcases mem_keys_node.1 hx with hx | rfl | hx
          · exact hl x hx
          · omega
          · exact hn x hx
        · right
          refine ⟨k1, v1, e, mem_toList_node.2 (Or.inr (Or.inr hm)), hle, ?_⟩
          intro x hx hxq
          rcases mem_keys_node.1 hx with hx | rfl | hx
          · exact absurd hxq (hl x hx)
          · omega
          · exact hmin x hx hxq

/-- The loop of `GetLower` on an ordered subtree: either no key of the subtree
is strictly below the query and the named results are unchanged, or the results
are the entry with the greatest key strictly below the query. -/
theorem getLowerLoop_spec [Inhabited K] [Inhabited V] {cmp : K → K → Int}
    (hc : LawfulCmp cmp) (q : K) :
    ∀ (t : avlNode K V) (acc : K × V × Bool), t.BST cmp →
      ((∀ x ∈ t.keys, ¬ cmp x q < 0) ∧ getLowerLoop cmp t q acc = acc) ∨
      (∃ k v, getLowerLoop cmp t q acc = (k, v, true) ∧ (k, v) ∈ t.toList ∧ cmp k q < 0 ∧
        ∀ x ∈ t.keys, cmp x q < 0 → cmp x k ≤ 0) := by
  intro t
  induction t with
  | nil => intro acc _; left; exact ⟨fun x hx => by simp [keys_nil] at hx, rfl⟩
  | node k v l r s h ihl ihr =>
    intro acc hb
    obtain ⟨hbl, hbr, hlk, hrk⟩ := hb
    rw [getLowerLoop]
    by_cases h1 : cmp k q ≥ 0
    · rw [if_pos h1]
      have hr : ∀ x ∈ r.keys, ¬ cmp x q < 0 := by
        intro x hx hxq
        have h2 := (hc.lt_iff_gt k x).2 (hrk x hx)
        have := hc.lt_trans h2 hxq
        omega
      rcases ihl acc hbl with ⟨hn, e⟩ | ⟨k1, v1, e, hm, hle, hmax⟩
      · left
        refine ⟨?_, e⟩
        intro x hx
        rcases mem_keys_node.1 hx with hx | rfl | hx
        · exact hn x hx
        · omega
        · exact hr x hx
      · right
        refine ⟨k1, v1, e, mem_toList_node.2 (Or.inl hm), hle, ?_⟩
        intro x hx hxq
        rcases mem_keys_node.1 hx with hx | rfl | hx
        · exact hmax x hx hxq
        · omega
        · exact absurd hxq (hr x hx)
    · rw [if_neg h1]
      have h2 : cmp k q < 0 := by omega
      right
      rcases ihr (k, v, true) hbr with ⟨hn, e⟩ | ⟨k1, v1, e, hm, hle, hmax⟩
      · refine ⟨k, v, e, mem_toList_node.2 (Or.inr (Or.inl rfl)), h2, ?_⟩
        intro x hx hxq
        rcases mem_keys_node.1 hx with hx | rfl | hx
        · exact le_of_lt (hlk x hx)
        · exact le_of_eq (hc.refl x)
        · exact absurd hxq (hn x hx)
      · refine ⟨k1, v1, e, mem_toList_node.2 (Or.inr (Or.inr hm)), hle, ?_⟩
        have hkk1 : cmp k k1 < 0 := (hc.lt_iff_gt k k1).2 (hrk k1 (mem_keys_of_mem_toList hm))
        intro x hx hxq
        rcases mem_keys_node.1 hx with hx | rfl | hx
        · exact le_of_lt (hc.lt_trans (hlk x hx) hkk1)
        · exact le_of_lt hkk1
        · exact hmax x hx hxq

/-- C8. GetFloor is the greatest-lower-or-equal query. On an ordered tree with a
lawful comparator: when some stored key is at most `q`, `GetFloor(q)` returns
`(k, v, true)` where `(k, v)` is a stored entry (so `v` is what `Get(k)` finds),
`k` is at most `q`, and every stored key that is at most `q` is at most `k`; `k`
compares equal to `q` when `q` is present. When no stored key is at most `q` the
result is the zero values with found = false; found is false exactly then. -/
theorem C8_getFloor [Inhabited K] [Inhabited V] (t : AVLTree K V) (hc : LawfulCmp t.cmp)
    (hb : t.root.BST t.cmp) (q : K) :
    ((∃ x ∈ t.root.keys, t.cmp x q ≤ 0) →
      ∃ k v, t.GetFloor q = (k, v, true) ∧ (k, v) ∈ t.root.toList ∧ t.Get k = (v, true) ∧
        t.cmp k q ≤ 0 ∧ (∀ x ∈ t.root.keys, t.cmp x q ≤ 0 → t.cmp x k ≤ 0) ∧
        ((∃ x ∈ t.root.keys, t.cmp x q = 0) → t.cmp k q = 0)) ∧
    ((∀ x ∈ t.root.keys, ¬ t.cmp x q ≤ 0) → t.GetFloor q = (default, default, false)) ∧
    ((t.GetFloor q).2.2 = false ↔ ∀ x ∈ t.root.keys, ¬ t.cmp x q ≤ 0) := by
  have hspec := getFloorLoop_spec hc q t.root (default, default, false) hb
  refine ⟨?_, ?_, ?_⟩
  · rintro ⟨x, hx, hxq⟩
    rcases hspec with ⟨hn, _⟩ | ⟨k, v, e, hm, hle, hmax⟩
    · exact absurd hxq (hn x hx)
    · refine ⟨k, v, e, hm, getLoop_of_mem hc hb hm, hle, hmax, ?_⟩
      rintro ⟨y, hy, hyq⟩
      have h1 := hmax y hy (le_of_eq hyq)
      have h2 := hc.trans q y k (le_of_eq ((hc.eq_iff_eq y q).1 hyq)) h1
      have h3 := hc.lt_iff_gt k q
      have h4 := hc.lt_iff_gt q k
      omega
  · intro hn
    rcases hspec with ⟨_, e⟩ | ⟨k, v, _, hm, hle, _⟩
    · exact e
    · exact absurd hle (hn k (mem_keys_of_mem_toList hm))
  · rcases hspec with ⟨hn, e⟩ | ⟨k, v, e, hm, hle, _⟩
    · constructor
      · intro _; exact hn
      · intro _
        show (getFloorLoop t.cmp t.root q (default, default, false)).2.2 = false
        rw [e]
    · constructor
      · intro hf
        have : (getFloorLoop t.cmp t.root q (default, default, false)).2.2 = false := hf
        rw [e] at this
        cases this
      · intro hn
        exact absurd hle (hn k (mem_keys_of_mem_toList hm))

/-- C9. GetCeiling is the least-greater-or-equal query. On an ordered tree with
a lawful comparator: when some stored key is at least `q`, `GetCeiling(q)`
returns `(k, v, true)` where `(k, v)` is a stored entry (so `v` is what `Get(k)`
finds), `k` is at least `q`, and `k` is at most every stored key that is at least
`q`; `k` compares equal to `q` when `q` is present. When no stored key is at
least `q` the result is the zero values with found = false; found is false
exactly then. -/
theorem C9_getCeiling [Inhabited K] [Inhabited V] (t : AVLTree K V) (hc : LawfulCmp t.cmp)
    (hb : t.root.BST t.cmp) (q : K) :
    ((∃ x ∈ t.root.keys, t.cmp x q ≥ 0) →
      ∃ k v, t.GetCeiling q = (k, v, true) ∧ (k, v) ∈ t.root.toList ∧ t.Get k = (v, true) ∧
        t.cmp k q ≥ 0 ∧ (∀ x ∈ t.root.keys, t.cmp x q ≥ 0 → t.cmp k x ≤ 0) ∧
        ((∃ x ∈ t.root.keys, t.cmp x q = 0) → t.cmp k q = 0)) ∧
    ((∀ x ∈ t.root.keys, ¬ t.cmp x q ≥ 0) → t.GetCeiling q = (default, default, false)) ∧
    ((t.GetCeiling q).2.2 = false ↔ ∀ x ∈ t.root.keys, ¬ t.cmp x q ≥ 0) := by
  have hspec := getCeilingLoop_spec hc q t.root (default, default, false) hb
  refine ⟨?_, ?_, ?_⟩
  · rintro ⟨x, hx, hxq⟩
    rcases hspec with ⟨hn, _⟩ | ⟨k, v, e, hm, hle, hmin⟩
    · exact absurd hxq (hn x hx)
    · refine ⟨k, v, e, hm, getLoop_of_mem hc hb hm, hle, hmin, ?_⟩
      rintro ⟨y, hy, hyq⟩
      have h1 := hmin y hy (ge_of_eq hyq)
      have h2 := hc.trans k y q h1 (le_of_eq hyq)
      omega
  · intro hn
    rcases hspec with ⟨_, e⟩ | ⟨k, v, _, hm, hle, _⟩
    · exact e
    · exact absurd hle (hn k (mem_keys_of_mem_toList hm))
  · rcases hspec with ⟨hn, e⟩ | ⟨k, v, e, hm, hle, _⟩
    · constructor
      · intro _; exact hn
      · intro _
        show (getCeilingLoop t.cmp t.root q (default, default, false)).2.2 = false
        rw [e]
    · constructor
      · intro hf
        have : (getCeilingLoop t.cmp t.root q (default, default, false)).2.2 = false := hf
        rw [e] at this
        cases this
      · intro hn
        exact absurd hle (hn k (mem_keys_of_mem_toList hm))

/-- C10. GetLower is the strict predecessor query. On an ordered tree with a
lawful comparator and any query key `q`, present or not: when some stored key is
strictly less than `q`, `GetLower(q)` returns `(k, v, true)` where `(k, v)` is a
stored entry (so `v` is what `Get(k)` finds), `k` is strictly less than `q` (so it
does not compare equal to `q`), and every stored key strictly less than `q` is at
most `k`. When no stored key is strictly less than `q` the result is the zero
values with found = false; found is false exactly then. -/
theorem C10_getLower [Inhabited K] [Inhabited V] (t : AVLTree K V) (hc : LawfulCmp t.cmp)
    (hb : t.root.BST t.cmp) (q : K) :
    ((∃ x ∈ t.root.keys, t.cmp x q < 0) →
      ∃ k v, t.GetLower q = (k, v, true) ∧ (k, v) ∈ t.root.toList ∧ t.Get k = (v, true) ∧
        t.cmp k q < 0 ∧ t.cmp k q ≠ 0 ∧
        (∀ x ∈ t.root.keys, t.cmp x q < 0 → t.cmp x k ≤ 0)) ∧
    ((∀ x ∈ t.root.keys, ¬ t.cmp x q < 0) → t.GetLower q = (default, default, false)) ∧
    ((t.GetLower q).2.2 = false ↔ ∀ x ∈ t.root.keys, ¬ t.cmp x q < 0) := by
  have hspec := getLowerLoop_spec hc q t.root (default, default, false) hb
  refine ⟨?_, ?_, ?_⟩
  · rintro ⟨x, hx, hxq⟩
    rcases hspec with ⟨hn, _⟩ | ⟨k, v, e, hm, hlt, hmax⟩
    · exact absurd hxq (hn x hx)
    · exact ⟨k, v, e, hm, getLoop_of_mem hc hb hm, hlt, ne_of_lt hlt, hmax⟩
  · intro hn
    rcases hspec with ⟨_, e⟩ | ⟨k, v, _, hm, hlt, _⟩
    · exact e
    · exact absurd hlt (hn k (mem_keys_of_mem_toList hm))
  · rcases hspec with ⟨hn, e⟩ | ⟨k, v, e, hm, hlt, _⟩
    · constructor
      · intro _; exact hn
      · intro _
        show (getLowerLoop t.cmp t.root q (default, default, false)).2.2 = false
        rw [e]
    · constructor
      · intro hf
        have : (getLowerLoop t.cmp t.root q (default, default, false)).2.2 = false := hf
        rw [e] at this
        cases this
      · intro hn
        exact absurd hlt (hn k (mem_keys_of_mem_toList hm))

/-! ## Instances of the theorems on the trees of the tests -/

theorem C1_balance_preserved_witness :
    (∃ t, runOps (NewAVLTree (CmpLess : Int → Int → Int))
        [Op.Insert 1 (0 : Int), Op.Insert 2 0, Op.Insert 3 0, Op.Insert 5 0, Op.Insert 4 0,
          Op.Remove 5, Op.Clear, Op.Insert 7 1] = some t ∧ t.root.Balanced) ∧
    (tree12345.CachesOK ∧ tree12345.Balanced ∧
      ∃ t1, (AVLTree.mk tree12345 CmpLess).Insert 6 0 = some t1 ∧ t1.root.Balanced) ∧
    (tree12345.CachesOK ∧ tree12345.Balanced ∧
      ∃ t1, (AVLTree.mk tree12345 CmpLess).Remove 3 = some t1 ∧ t1.root.Balanced) :=
  ⟨(@C1_balance_preserved Int Int CmpLess).1 _,
    ⟨by decide, by decide,
      (@C1_balance_preserved Int Int CmpLess).2.1 (AVLTree.mk tree12345 CmpLess) 6 0
        (by decide) (by decide)⟩,
    ⟨by decide, by decide,
      (@C1_balance_preserved Int Int CmpLess).2.2 (AVLTree.mk tree12345 CmpLess) 3
        (by decide) (by decide)⟩⟩

theorem C2_order_preserved_witness :
    LawfulCmp (CmpLess : Int → Int → Int) ∧
    ∃ t, runOps (NewAVLTree (CmpLess : Int → Int → Int))
        [Op.Insert 3 (0 : Int), Op.Insert 1 0, Op.Insert 2 0, Op.Remove 3, Op.Insert 2 9] =
          some t ∧ t.root.BST CmpLess ∧ t.root.keys.Pairwise (fun a b => CmpLess a b < 0) :=
  ⟨CmpLess_lawful, C2_order_preserved CmpLess CmpLess_lawful _⟩

theorem C4_insert_get_witness :
    LawfulCmp (CmpLess : Int → Int → Int) ∧ WellFormed CmpLess tree12345 ∧
    ∃ t1, (AVLTree.mk tree12345 CmpLess).Insert 4 8 = some t1 ∧ t1.Get 4 = (8, true) ∧
      ∀ q, CmpLess 4 q ≠ 0 → t1.Get q = (AVLTree.mk tree12345 CmpLess).Get q :=
  ⟨CmpLess_lawful, by decide,
    C4_insert_get (AVLTree.mk tree12345 CmpLess) CmpLess_lawful (by decide) 4 8⟩

theorem C5_remove_get_witness :
    LawfulCmp (CmpLess : Int → Int → Int) ∧ WellFormed CmpLess tree12345 ∧
    ∃ t1, (AVLTree.mk tree12345 CmpLess).Remove 3 = some t1 ∧ t1.Get 3 = (default, false) ∧
      ∀ q, CmpLess 3 q ≠ 0 → t1.Get q = (AVLTree.mk tree12345 CmpLess).Get q :=
  ⟨CmpLess_lawful, by decide,
    C5_remove_get (AVLTree.mk tree12345 CmpLess) CmpLess_lawful (by decide) 3⟩

theorem C6_size_accuracy_witness :
    LawfulCmp (CmpLess : Int → Int → Int) ∧ WellFormed CmpLess tree12345 ∧
    (∃ t1, (AVLTree.mk tree12345 CmpLess).Insert 6 0 = some t1 ∧
      ((∀ x ∈ tree12345.keys, CmpLess x 6 ≠ 0) →
        t1.Len = (AVLTree.mk tree12345 CmpLess).Len + 1) ∧
      ((∃ x ∈ tree12345.keys, CmpLess x 6 = 0) →
        t1.Len = (AVLTree.mk tree12345 CmpLess).Len)) ∧
    (∃ t1, (AVLTree.mk tree12345 CmpLess).Remove 3 = some t1 ∧
      ((∃ x ∈ tree12345.keys, CmpLess x 3 = 0) →
        t1.Len = (AVLTree.mk tree12345 CmpLess).Len - 1) ∧
      ((∀ x ∈ tree12345.keys, CmpLess x 3 ≠ 0) →
        t1.Len = (AVLTree.mk tree12345 CmpLess).Len)) :=
  ⟨CmpLess_lawful, by decide,
    (C6_size_accuracy CmpLess CmpLess_lawful).1 tree12345 6 0 (by decide),
    (C6_size_accuracy CmpLess CmpLess_lawful).2.1 tree12345 3 (by decide)⟩

theorem C7_round_trip_witness :
    ([((3 : Int), (2 : Int)), (1, 0), (2, 1), (5, 4), (4, 3)].map Prod.fst).Nodup ∧
    ∃ t, runOps (NewAVLTree CmpLess)
        ([((3 : Int), (2 : Int)), (1, 0), (2, 1), (5, 4), (4, 3)].map
            (fun e => (Op.Insert e.1 e.2 : Op Int Int)) ++
          [(2 : Int), 5].map (fun k => (Op.Remove k : Op Int Int))) = some t ∧
      t.root.keys =
        List.insertionSort (fun a b => a ≤ b)
          (([((3 : Int), (2 : Int)), (1, 0), (2, 1), (5, 4), (4, 3)].map Prod.fst).filter
            (fun x => decide (x ∉ [(2 : Int), 5]))) :=
  ⟨by decide, C7_round_trip [((3 : Int), (2 : Int)), (1, 0), (2, 1), (5, 4), (4, 3)] [2, 5]
    (by decide)⟩

theorem C8_getFloor_witness :
    LawfulCmp (CmpLess : Int → Int → Int) ∧ tree12345.BST CmpLess ∧
    (((AVLTree.mk tree12345 CmpLess).GetFloor 6).2.2 = false ↔
      ∀ x ∈ tree12345.keys, ¬ CmpLess x 6 ≤ 0) :=
  ⟨CmpLess_lawful, by decide,
    (C8_getFloor (AVLTree.mk tree12345 CmpLess) CmpLess_lawful (by decide) 6).2.2⟩

theorem C9_getCeiling_witness :
    LawfulCmp (CmpLess : Int → Int → Int) ∧ tree12345.BST CmpLess ∧
    (((AVLTree.mk tree12345 CmpLess).GetCeiling 0).2.2 = false ↔
      ∀ x ∈ tree12345.keys, ¬ CmpLess x 0 ≥ 0) :=
  ⟨CmpLess_lawful, by decide,
    (C9_getCeiling (AVLTree.mk tree12345 CmpLess) CmpLess_lawful (by decide) 0).2.2⟩

theorem C10_getLower_witness :
    LawfulCmp (CmpLess : Int → Int → Int) ∧ tree12345.BST CmpLess ∧
    (((AVLTree.mk tree12345 CmpLess).GetLower 3).2.2 = false ↔
      ∀ x ∈ tree12345.keys, ¬ CmpLess x 3 < 0) :=
  ⟨CmpLess_lawful, by decide,
    (C10_getLower (AVLTree.mk tree12345 CmpLess) CmpLess_lawful (by decide) 3).2.2⟩

/-! ## `GetHigher`, `GetFirst`, `GetLast` and `Get` -/

/-- The loop of `GetHigher` on an ordered subtree: either no key of the subtree
is strictly above the query and the named results are unchanged, or the results
are the entry with the least key strictly above the query. -/
theorem getHigherLoop_spec [Inhabited K] [Inhabited V] {cmp : K → K → Int}
    (hc : LawfulCmp cmp) (q : K) :
    ∀ (t : avlNode K V) (acc : K × V × Bool), t.BST cmp →
      ((∀ x ∈ t.keys, ¬ cmp x q > 0) ∧ getHigherLoop cmp t q acc = acc) ∨
      (∃ k v, getHigherLoop cmp t q acc = (k, v, true) ∧ (k, v) ∈ t.toList ∧ cmp k q > 0 ∧
        ∀ x ∈ t.keys, cmp x q > 0 → cmp k x ≤ 0) := by
  intro t
  induction t with
  | nil => intro acc _; left; exact ⟨fun x hx => by simp [keys_nil] at hx, rfl⟩
  | node k v l r s h ihl ihr =>
    intro acc hb
    obtain ⟨hbl, hbr, hlk, hrk⟩ := hb
    rw [getHigherLoop]
    by_cases h1 : cmp k q ≤ 0
    · rw [if_pos h1]
      have hl : ∀ x ∈ l.keys, ¬ cmp x q > 0 := by
        intro x hx hxq
        have := hc.lt_of_lt_of_le (hlk x hx) h1
        omega
      rcases ihr acc hbr with ⟨hn, e⟩ | ⟨k1, v1, e, hm, hgt, hmin⟩
      · left
        refine ⟨?_, e⟩
        intro x hx
        rcases mem_keys_node.1 hx with hx | rfl | hx
        · exact hl x hx
        · omega
        · exact hn x hx
      · right
        refine ⟨k1, v1, e, mem_toList_node.2 (Or.inr (Or.inr hm)), hgt, ?_⟩
        intro x hx hxq
        rcases mem_keys_node.1 hx with hx | rfl | hx
        · exact absurd hxq (hl x hx)
        · omega
        · exact hmin x hx hxq
    · rw [if_neg h1]
      have h2 : cmp k q > 0 := by omega
      right
      rcases ihl (k, v, true) hbl with ⟨hn, e⟩ | ⟨k1, v1, e, hm, hgt, hmin⟩
      · refine ⟨k, v, e, mem_toList_node.2 (Or.inr (Or.inl rfl)), h2, ?_⟩
        intro x hx hxq
        rcases mem_keys_node.1 hx with hx | rfl | hx
        · exact absurd hxq (hn x hx)
        · exact le_of_eq (hc.refl x)
        · exact le_of_lt ((hc.lt_iff_gt k x).2 (hrk x hx))
      · refine ⟨k1, v1, e, mem_toList_node.2 (Or.inl hm), hgt, ?_⟩
        have hk1k : cmp k1 k < 0 := hlk k1 (mem_keys_of_mem_toList hm)
        intro x hx hxq
        rcases mem_keys_node.1 hx with hx | rfl | hx
        · exact hmin x hx hxq
        · exact le_of_lt hk1k
        · exact le_of_lt (hc.lt_trans hk1k ((hc.lt_iff_gt k x).2 (hrk x hx)))

/-- C11. GetHigher is the strict successor query. On an ordered tree with a
lawful comparator and any query key `q`, present or not: when some stored key is
strictly greater than `q`, `GetHigher(q)` returns `(k, v, true)` where `(k, v)` is
a stored entry (so `v` is what `Get(k)` finds), `k` is strictly greater than `q`
(so it does not compare equal to `q`), and `k` is at most every stored key
strictly greater than `q`. When no stored key is strictly greater than `q` the
result is the zero values with found = false; found is false exactly then. -/
theorem C11_getHigher [Inhabited K] [Inhabited V] (t : AVLTree K V) (hc : LawfulCmp t.cmp)
    (hb : t.root.BST t.cmp) (q : K) :
    ((∃ x ∈ t.root.keys, t.cmp x q > 0) →
      ∃ k v, t.GetHigher q = (k, v, true) ∧ (k, v) ∈ t.root.toList ∧ t.Get k = (v, true) ∧
        t.cmp k q > 0 ∧ t.cmp k q ≠ 0 ∧
        (∀ x ∈ t.root.keys, t.cmp x q > 0 → t.cmp k x ≤ 0)) ∧
    ((∀ x ∈ t.root.keys, ¬ t.cmp x q > 0) → t.GetHigher q = (default, default, false)) ∧
    ((t.GetHigher q).2.2 = false ↔ ∀ x ∈ t.root.keys, ¬ t.cmp x q > 0) := by
  have hspec := getHigherLoop_spec hc q t.root (default, default, false) hb
  refine ⟨?_, ?_, ?_⟩
  · rintro ⟨x, hx, hxq⟩
    rcases hspec with ⟨hn, _⟩ | ⟨k, v, e, hm, hgt, hmin⟩
    · exact absurd hxq (hn x hx)
    · exact ⟨k, v, e, hm, getLoop_of_mem hc hb hm, hgt, ne_of_gt hgt, hmin⟩
  · intro hn
    rcases hspec with ⟨_, e⟩ | ⟨k, v, _, hm, hgt, _⟩
    · exact e
    · exact absurd hgt (hn k (mem_keys_of_mem_toList hm))
  · rcases hspec with ⟨hn, e⟩ | ⟨k, v, e, hm, hgt, _⟩
    · constructor
      · intro _; exact hn
      · intro _
        show (getHigherLoop t.cmp t.root q (default, default, false)).2.2 = false
        rw [e]
    · constructor
      · intro hf
        have : (getHigherLoop t.cmp t.root q (default, default, false)).2.2 = false := hf
        rw [e] at this
        cases this
      · intro hn
        exact absurd hgt (hn k (mem_keys_of_mem_toList hm))

/-- The loop of `GetFirst` stops at the node of the first in-order entry. -/
theorem getFirstLoop_toList (k : K) (v : V) (l r : avlNode K V) (s h : Int) :
    ∃ nk nv nr ns nh rest, getFirstLoop (node k v l r s h) = node nk nv nil nr ns nh ∧
      (node k v l r s h).toList = (nk, nv) :: rest := by
  induction l generalizing k v r s h with
  | nil => exact ⟨k, v, r, s, h, r.toList, rfl, rfl⟩
  | node lk lv ll lr ls lh ihl _ =>
    obtain ⟨nk, nv, nr, ns, nh, rest, e1, e2⟩ := ihl lk lv lr ls lh
    refine ⟨nk, nv, nr, ns, nh, rest ++ (k, v) :: r.toList, ?_, ?_⟩
    · rw [getFirstLoop]; exact e1
    · rw [toList_node, e2]; rfl

/-- The loop of `GetLast` stops at the node of the last in-order entry. -/
theorem getLastLoop_toList (k : K) (v : V) (l r : avlNode K V) (s h : Int) :
    ∃ nk nv nl ns nh rest, getLastLoop (node k v l r s h) = node nk nv nl nil ns nh ∧
      (node k v l r s h).toList = rest ++ [(nk, nv)] := by
  induction r generalizing k v l s h with
  | nil => exact ⟨k, v, l, s, h, l.toList, rfl, rfl⟩
  | node rk rv rl rr rs rh _ ihr =>
    obtain ⟨nk, nv, nl, ns, nh, rest, e1, e2⟩ := ihr rk rv rl rs rh
    refine ⟨nk, nv, nl, ns, nh, l.toList ++ (k, v) :: rest, ?_, ?_⟩
    · rw [getLastLoop]; exact e1
    · rw [toList_node, e2]; simp

/-- `GetFirst` reads the head of the in-order list. -/
theorem GetFirst_eq [Inhabited K] [Inhabited V] (t : AVLTree K V) :
    t.GetFirst =
      match t.root.toList.head? with
      | none => (default, default, false)
      | some e => (e.1, e.2, true) := by
  obtain ⟨r, c⟩ := t
  cases r with
  | nil => rfl
  | node k v l r s h =>
    obtain ⟨nk, nv, nr, ns, nh, rest, e1, e2⟩ := getFirstLoop_toList k v l r s h
    simp only [AVLTree.GetFirst, e1, e2, List.head?_cons]

/-- `GetLast` reads the last element of the in-order list. -/
theorem GetLast_eq [Inhabited K] [Inhabited V] (t : AVLTree K V) :
    t.GetLast =
      match t.root.toList.getLast? with
      | none => (default, default, false)
      | some e => (e.1, e.2, true) := by
  obtain ⟨r, c⟩ := t
  cases r with
  | nil => rfl
  | node k v l r s h =>
    obtain ⟨nk, nv, nl, ns, nh, rest, e1, e2⟩ := getLastLoop_toList k v l r s h
    simp [AVLTree.GetLast, e1, e2]

/-- C12. GetFirst and GetLast return the extreme entries. On a non-empty ordered
tree with a lawful comparator `GetFirst()` returns `(k, v, true)` for the first
entry `(k, v)` of the in-order traversal, whose key is at most every stored key,
and `GetLast()` returns the last entry of the in-order traversal, whose key is at
least every stored key. Each reports found = false if and only if the tree is
empty. -/
theorem C12_getFirst_getLast [Inhabited K] [Inhabited V] (t : AVLTree K V)
    (hc : LawfulCmp t.cmp) (hb : t.root.BST t.cmp) :
    (t.root ≠ nil →
      (∃ k v, t.GetFirst = (k, v, true) ∧ t.root.toList.head? = some (k, v) ∧
        ∀ x ∈ t.root.keys, t.cmp k x ≤ 0) ∧
      (∃ k v, t.GetLast = (k, v, true) ∧ t.root.toList.getLast? = some (k, v) ∧
        ∀ x ∈ t.root.keys, t.cmp x k ≤ 0)) ∧
    ((t.GetFirst).2.2 = false ↔ t.root = nil) ∧
    ((t.GetLast).2.2 = false ↔ t.root = nil) := by
  obtain ⟨r, c⟩ := t
  have hs := (BST_iff_sorted hc r).1 hb
  cases r with
  | nil =>
    refine ⟨fun h => absurd rfl h, ?_, ?_⟩
    · exact ⟨fun _ => rfl, fun _ => rfl⟩
    · exact ⟨fun _ => rfl, fun _ => rfl⟩
  | node k v l r s h =>
    obtain ⟨fk, fv, fr, fs, fh, frest, ef1, ef2⟩ := getFirstLoop_toList k v l r s h
    obtain ⟨lk, lv, ll, ls, lh, lrest, el1, el2⟩ := getLastLoop_toList k v l r s h
    have hF : (AVLTree.mk (node k v l r s h) c).GetFirst = (fk, fv, true) := by
      simp only [AVLTree.GetFirst, ef1]
    have hL : (AVLTree.mk (node k v l r s h) c).GetLast = (lk, lv, true) := by
      simp only [AVLTree.GetLast, el1]
    refine ⟨fun _ => ⟨⟨fk, fv, hF, ?_, ?_⟩, ⟨lk, lv, hL, ?_, ?_⟩⟩, ?_, ?_⟩
    · show (node k v l r s h).toList.head? = _
      rw [ef2]; rfl
    · intro x hx
      have hs1 := hs
      simp only [keys, ef2, List.map_cons, List.pairwise_cons] at hs1 hx
      rcases List.mem_cons.1 hx with rfl | hx
      · exact le_of_eq (hc.refl _)
      · exact le_of_lt (hs1.1 x hx)
    · show (node k v l r s h).toList.getLast? = _
      rw [el2]; simp
    · intro x hx
      have hs1 := hs
      simp only [keys, el2, List.map_append, List.map_cons, List.map_nil,
        List.pairwise_append, List.mem_append, List.mem_singleton] at hs1 hx
      rcases hx with hx | rfl
      · exact le_of_lt (hs1.2.2 x hx _ rfl)
      · exact le_of_eq (hc.refl _)
    · rw [hF]; simp
    · rw [hL]; simp

/-! ## `Get` as membership -/

theorem lookupList_of_absent [Inhabited V] (cmp : K → K → Int) (q : K) :
    ∀ L : List (K × V), (∀ e ∈ L, cmp e.1 q ≠ 0) → lookupList cmp q L = (default, false) := by
  intro L
  induction L with
  | nil => intro _; rfl
  | cons e L ih =>
    obtain ⟨a, b⟩ := e
    intro h
    rw [lookupList_cons, if_neg (h (a, b) (List.mem_cons_self _ _))]
    exact ih (fun e he => h e (List.mem_cons_of_mem _ he))

theorem lookupList_of_present [Inhabited V] (cmp : K → K → Int) (q : K) :
    ∀ L : List (K × V), (∃ e ∈ L, cmp e.1 q = 0) →
      ∃ e ∈ L, cmp e.1 q = 0 ∧ lookupList cmp q L = (e.2, true) := by
  intro L
  induction L with
  | nil => intro h; simp at h
  | cons e L ih =>
    obtain ⟨a, b⟩ := e
    intro h
    rw [lookupList_cons]
    by_cases h0 : cmp a q = 0
    · exact ⟨(a, b), List.mem_cons_self _ _, h0, by rw [if_pos h0]⟩
    · rw [if_neg h0]
      obtain ⟨e, he, he0⟩ := h
      rcases List.mem_cons.1 he with rfl | he
      · exact absurd he0 h0
      · obtain ⟨e1, h1, h2, h3⟩ := ih ⟨e, he, he0⟩
        exact ⟨e1, List.mem_cons_of_mem _ h1, h2, h3⟩

/-- C13. Get is exact membership lookup. On an ordered tree with a lawful
comparator: when some node has a key comparing equal to `q`, `Get(q)` returns
`(v, true)` where `v` is the value of a node whose key compares equal to `q`;
otherwise it returns `(zero value, false)`. So found is true if and only if some
node anywhere in the tree has a key comparing equal to `q`. -/
theorem C13_get_membership [Inhabited V] (t : AVLTree K V) (hc : LawfulCmp t.cmp)
    (hb : t.root.BST t.cmp) (q : K) :
    ((∃ e ∈ t.root.toList, t.cmp e.1 q = 0) →
      ∃ e ∈ t.root.toList, t.cmp e.1 q = 0 ∧ t.Get q = (e.2, true)) ∧
    ((∀ e ∈ t.root.toList, t.cmp e.1 q ≠ 0) → t.Get q = (default, false)) ∧
    ((t.Get q).2 = true ↔ ∃ e ∈ t.root.toList, t.cmp e.1 q = 0) ∧
    (∀ v, t.Get q = (v, true) → ∃ e ∈ t.root.toList, t.cmp e.1 q = 0 ∧ e.2 = v) := by
  have hg : t.Get q = lookupList t.cmp q t.root.toList := getLoop_eq_lookupList hc q t.root hb
  refine ⟨?_, ?_, ?_, ?_⟩
  · intro h
    rw [hg]
    exact lookupList_of_present t.cmp q _ h
  · intro h
    rw [hg]
    exact lookupList_of_absent t.cmp q _ h
  · rw [hg]
    constructor
    · intro h
      by_contra hne
      have := lookupList_of_absent t.cmp q t.root.toList
        (fun e he h0 => hne ⟨e, he, h0⟩)
      rw [this] at h
      cases h
    · intro h
      obtain ⟨e, _, _, h3⟩ := lookupList_of_present t.cmp q _ h
      rw [h3]
  · intro v h
    rw [hg] at h
    by_cases hp : ∃ e ∈ t.root.toList, t.cmp e.1 q = 0
    · obtain ⟨e, h1, h2, h3⟩ := lookupList_of_present t.cmp q _ hp
      rw [h3] at h
      exact ⟨e, h1, h2, congrArg Prod.fst h⟩
    · have := lookupList_of_absent t.cmp q t.root.toList
        (fun e he h0 => hp ⟨e, he, h0⟩)
      rw [this] at h
      cases h

/-! ## Calls that leave the structure alone -/

/-- On a node with correct caches `Maintain` changes nothing. -/
theorem Maintain_eq_self {k : K} {v : V} {l r : avlNode K V} {s h : Int}
    (hc : (node k v l r s h).CachesOK) : Maintain (node k v l r s h) = node k v l r s h := by
  obtain ⟨hl, hr, hh, hs⟩ := hc
  rw [Maintain_node, Height_eq_of_CachesOK hl, Height_eq_of_CachesOK hr,
    Size_eq_of_CachesOK hl, Size_eq_of_CachesOK hr, max_eq, ← hh, ← hs]

/-- On a balanced node with correct caches `fix` changes nothing. -/
theorem fix_eq_self {k : K} {v : V} {l r : avlNode K V} {s h : Int}
    (hc : (node k v l r s h).CachesOK) (hb : (node k v l r s h).Balanced) :
    fix (node k v l r s h) = some (node k v l r s h) := by
  obtain ⟨hl, hr, _, _⟩ := hc
  obtain ⟨_, _, hd⟩ := hb
  rw [fix_node, if_pos]
  rw [Height_eq_of_CachesOK hl, Height_eq_of_CachesOK hr]
  omega

/-- Removing a key that compares equal to no stored key returns the same subtree. -/
theorem remove_absent (cmp : K → K → Int) (key : K) :
    ∀ t : avlNode K V, t.CachesOK → t.Balanced → (∀ x ∈ t.keys, cmp x key ≠ 0) →
      remove cmp t key = some t := by
  intro t
  induction t with
  | nil => intro _ _ _; rfl
  | node k v l r s h ihl ihr =>
    intro hc hb habs
    have h0 : ¬ cmp k key = 0 := habs k (mem_keys_node.2 (Or.inr (Or.inl rfl)))
    rw [remove_node, if_neg h0]
    by_cases h1 : cmp k key > 0
    · rw [if_pos h1, ihl hc.1 hb.1 (fun x hx => habs x (mem_keys_node.2 (Or.inl hx)))]
      show fix (Maintain (node k v l r s h)) = _
      rw [Maintain_eq_self hc, fix_eq_self hc hb]
    · rw [if_neg h1, ihr hc.2.1 hb.2.1 (fun x hx => habs x (mem_keys_node.2 (Or.inr (Or.inr hx))))]
      show fix (Maintain (node k v l r s h)) = _
      rw [Maintain_eq_self hc, fix_eq_self hc hb]

/-- C14. Idempotent removal. On a well-formed tree, `Remove(k)` of a key that
compares equal to no stored key returns the identical tree: same shape, same keys
and values at the same positions, same cached fields; so `Len()` is unchanged. -/
theorem C14_remove_absent (t : AVLTree K V) (hwf : WellFormed t.cmp t.root) (k : K)
    (habs : ∀ x ∈ t.root.keys, t.cmp x k ≠ 0) :
    t.Remove k = some t ∧ ∀ t1, t.Remove k = some t1 → t1 = t ∧ t1.Len = t.Len := by
  have h : t.Remove k = some t := by
    simp only [AVLTree.Remove, remove_absent t.cmp k t.root hwf.2.2 hwf.2.1 habs]
  refine ⟨h, ?_⟩
  intro t1 h1
  rw [h] at h1
  cases h1
  exact ⟨rfl, rfl⟩

theorem present_insList {cmp : K → K → Int} (hc : LawfulCmp cmp) (key : K) (value : V) :
    ∀ L : List (K × V), ∃ x ∈ (insList cmp key value L).map Prod.fst, cmp x key = 0 := by
  intro L
  induction L with
  | nil => exact ⟨key, by simp [insList], hc.refl key⟩
  | cons e L ih =>
    obtain ⟨a, b⟩ := e
    rw [insList_cons]
    split_ifs with h0 h1
    · exact ⟨a, by simp, h0⟩
    · exact ⟨key, by simp, hc.refl key⟩
    · obtain ⟨x, hx, hx0⟩ := ih
      exact ⟨x, by simp only [List.map_cons, List.mem_cons]; exact Or.inr hx, hx0⟩

/-- C15. Upsert semantics. On a well-formed tree with a lawful comparator,
`Insert(k, v1)` and then `Insert(k, v2)` both return, `Len()` after the second is
`Len()` after the first, and `Get(k)` then returns `(v2, true)`. -/
theorem C15_upsert [Inhabited V] (t : AVLTree K V) (hc : LawfulCmp t.cmp)
    (hwf : WellFormed t.cmp t.root) (k : K) (v1 v2 : V) :
    ∃ t1 t2, t.Insert k v1 = some t1 ∧ t1.Insert k v2 = some t2 ∧ t2.Len = t1.Len ∧
      t2.Get k = (v2, true) := by
  obtain ⟨r1, e1, hw1, hl1⟩ := insert_WellFormed hc k v1 hwf
  obtain ⟨r2, e2, hw2, hl2⟩ := insert_WellFormed hc k v2 hw1
  refine ⟨AVLTree.mk r1 t.cmp, AVLTree.mk r2 t.cmp, by simp [AVLTree.Insert, e1],
    by simp [AVLTree.Insert, e2], ?_, ?_⟩
  · rw [Len_eq_length hw2.2.2, Len_eq_length hw1.2.2, hl2]
    have hp : ∃ x ∈ r1.toList.map Prod.fst, t.cmp x k = 0 := by
      rw [hl1]; exact present_insList hc k v1 _
    have := congrArg List.length
      (keys_insList_of_present hc k v2 r1.toList ((BST_iff_sorted hc r1).1 hw1.1) hp)
    simp only [List.length_map] at this
    rw [this]
  · show getLoop t.cmp r2 k = (v2, true)
    rw [getLoop_eq_lookupList hc k r2 hw2.1, hl2, lookupList_insList_self hc]

/-- Replacing values by a function that keeps them all returns the same tree. -/
theorem mapValues_eq_self (f : K → V → V) :
    ∀ t : avlNode K V, (∀ e ∈ t.toList, f e.1 e.2 = e.2) → t.mapValues f = t := by
  intro t
  induction t with
  | nil => intro _; rfl
  | node k v l r s h ihl ihr =>
    intro hf
    rw [mapValues, ihl (fun e he => hf e (mem_toList_node.2 (Or.inl he))),
      ihr (fun e he => hf e (mem_toList_node.2 (Or.inr (Or.inr he)))),
      show f k v = v from hf (k, v) (mem_toList_node.2 (Or.inr (Or.inl rfl)))]

theorem Height_mapValues (f : K → V → V) (t : avlNode K V) :
    (t.mapValues f).Height = t.Height := by
  cases t <;> rfl

theorem Size_mapValues (f : K → V → V) (t : avlNode K V) :
    (t.mapValues f).Size = t.Size := by
  cases t <;> rfl

/-- Inserting a key that compares equal to a stored key only replaces the value
of the node holding that key. -/
theorem insert_present {cmp : K → K → Int} (hc : LawfulCmp cmp) (key : K) (value : V) :
    ∀ t : avlNode K V, WellFormed cmp t → (∃ x ∈ t.keys, cmp x key = 0) →
      insert cmp t key value =
        some (t.mapValues (fun k0 v0 => if cmp k0 key = 0 then value else v0)) := by
  intro t
  induction t with
  | nil => intro _ h; simp [keys_nil] at h
  | node k v l r s h ihl ihr =>
    rintro ⟨hb, hbal, hca⟩ hp
    obtain ⟨hbl, hbr, hlk, hrk⟩ := hb
    have hlne : cmp k key ≤ 0 → ∀ e ∈ l.toList, cmp e.1 key ≠ 0 := by
      intro hle e he
      have := hc.lt_of_lt_of_le (hlk e.1 (mem_keys_of_mem_toList he)) hle
      omega
    have hrne : cmp k key ≥ 0 → ∀ e ∈ r.toList, cmp e.1 key ≠ 0 := by
      intro hge e he
      have h1 := (hc.lt_iff_gt k e.1).2 (hrk e.1 (mem_keys_of_mem_toList he))
      have h2 := hc.lt_iff_gt key k
      have h3 := hc.eq_iff_eq key k
      have h4 : cmp key k ≤ 0 := by omega
      have h5 := hc.lt_of_le_of_lt h4 h1
      have h6 := hc.lt_iff_gt key e.1
      omega
    have hL : cmp k key ≤ 0 →
        l.mapValues (fun k0 v0 => if cmp k0 key = 0 then value else v0) = l := fun hle =>
      mapValues_eq_self _ l (fun e he => if_neg (hlne hle e he))
    have hR : cmp k key ≥ 0 →
        r.mapValues (fun k0 v0 => if cmp k0 key = 0 then value else v0) = r := fun hge =>
      mapValues_eq_self _ r (fun e he => if_neg (hrne hge e he))
    have hs : 1 + l.Size + r.Size = s := by
      rw [Size_eq_of_CachesOK hca.1, Size_eq_of_CachesOK hca.2.1]
      exact hca.2.2.2.symm
    have hh : 1 + container.max l.Height r.Height = h := by
      rw [Height_eq_of_CachesOK hca.1, Height_eq_of_CachesOK hca.2.1, max_eq]
      exact hca.2.2.1.symm
    rw [insert, mapValues]
    by_cases h0 : cmp k key = 0
    · rw [if_pos h0, if_pos h0, hL (le_of_eq h0), hR (ge_of_eq h0)]
    · rw [if_neg h0, if_neg h0]
      by_cases h1 : cmp k key > 0
      · rw [if_pos h1, hR (le_of_lt h1)]
        have hpl : ∃ x ∈ l.keys, cmp x key = 0 := by
          obtain ⟨x, hx, hx0⟩ := hp
          rcases mem_keys_node.1 hx with hx | rfl | hx
          · exact ⟨x, hx, hx0⟩
          · exact absurd hx0 h0
          · obtain ⟨e, he, rfl⟩ := List.mem_map.1 hx
            exact absurd hx0 (hrne (le_of_lt h1) e he)
        rw [ihl ⟨hbl, hbal.1, hca.1⟩ hpl]
        show fix (Maintain (node k v _ r s h)) = _
        rw [Maintain_node, Height_mapValues, Size_mapValues, hs, hh, fix_node, if_pos]
        rw [Height_mapValues]
        have := Height_eq_of_CachesOK hca.1
        have := Height_eq_of_CachesOK hca.2.1
        have := hbal.2.2
        omega
      · rw [if_neg h1, hL (by omega)]
        have hpr : ∃ x ∈ r.keys, cmp x key = 0 := by
          obtain ⟨x, hx, hx0⟩ := hp
          rcases mem_keys_node.1 hx with hx | rfl | hx
          · obtain ⟨e, he, rfl⟩ := List.mem_map.1 hx
            exact absurd hx0 (hlne (by omega) e he)
          · exact absurd hx0 h0
          · exact ⟨x, hx, hx0⟩
        rw [ihr ⟨hbr, hbal.2.1, hca.2.1⟩ hpr]
        show fix (Maintain (node k v l _ s h)) = _
        rw [Maintain_node, Height_mapValues, Size_mapValues, hs, hh, fix_node, if_pos]
        rw [Height_mapValues]
        have := Height_eq_of_CachesOK hca.1
        have := Height_eq_of_CachesOK hca.2.1
        have := hbal.2.2
        omega

theorem toList_mapValues (f : K → V → V) (t : avlNode K V) :
    (t.mapValues f).toList = t.toList.map (fun e => (e.1, f e.1 e.2)) := by
  induction t with
  | nil => rfl
  | node k v l r s h ihl ihr =>
    rw [mapValues, toList_node, toList_node, ihl, ihr]
    simp

theorem keys_mapValues (f : K → V → V) (t : avlNode K V) :
    (t.mapValues f).keys = t.keys := by
  rw [keys, keys, toList_mapValues, List.map_map]
  rfl

/-- In a strictly sorted list exactly one entry has a key comparing equal to a
key that is present. -/
theorem length_filter_of_present {cmp : K → K → Int} (hc : LawfulCmp cmp) (key : K) :
    ∀ L : List (K × V), (L.map Prod.fst).Pairwise (fun a b => cmp a b < 0) →
      (∃ x ∈ L.map Prod.fst, cmp x key = 0) →
      (L.filter (fun e => decide (cmp e.1 key = 0))).length = 1 := by
  intro L
  induction L with
  | nil => intro _ h; simp at h
  | cons e L ih =>
    obtain ⟨a, b⟩ := e
    intro hs hp
    simp only [List.map_cons, List.pairwise_cons] at hs
    by_cases h0 : cmp a key = 0
    · have hnil : L.filter (fun e => decide (cmp e.1 key = 0)) = [] := by
        rw [List.filter_eq_nil_iff]
        intro e he
        have h1 := hs.1 e.1 (List.mem_map_of_mem Prod.fst he)
        have h2 : cmp key a = 0 := (hc.eq_iff_eq a key).1 h0
        have h3 := hc.lt_of_le_of_lt (le_of_eq h2) h1
        have h4 := hc.lt_iff_gt key e.1
        simp only [decide_eq_true_eq]
        omega
      rw [List.filter_cons_of_pos (by simpa using h0), hnil]
      rfl
    · rw [List.filter_cons_of_neg (by simpa using h0)]
      obtain ⟨x, hx, hx0⟩ := hp
      simp only [List.map_cons, List.mem_cons] at hx
      rcases hx with rfl | hx
      · exact absurd hx0 h0
      · exact ih hs.2 ⟨x, hx, hx0⟩

/-- C16. Inserting an existing key does not alter structure. On a well-formed
tree with a lawful comparator, when `k` compares equal to a stored key,
`Insert(k, v)` returns the tree with the same shape, the same keys (the stored key
is kept, not replaced by `k`) and the same cached heights and sizes, in which the
value of the one node whose key compares equal to `k` is `v` and every other
value is unchanged. -/
theorem C16_insert_existing (t : AVLTree K V) (hc : LawfulCmp t.cmp)
    (hwf : WellFormed t.cmp t.root) (k : K) (v : V)
    (hp : ∃ x ∈ t.root.keys, t.cmp x k = 0) :
    t.Insert k v =
      some (AVLTree.mk (t.root.mapValues (fun k0 v0 => if t.cmp k0 k = 0 then v else v0))
        t.cmp) ∧
    (t.root.mapValues (fun k0 v0 => if t.cmp k0 k = 0 then v else v0)).keys = t.root.keys ∧
    (t.root.toList.filter (fun e => decide (t.cmp e.1 k = 0))).length = 1 := by
  refine ⟨?_, keys_mapValues _ _, ?_⟩
  · simp only [AVLTree.Insert, insert_present hc k v t.root hwf hp]
  · exact length_filter_of_present hc k _ ((BST_iff_sorted hc _).1 hwf.1) hp

/-! ## Not found, and `Clear` -/

theorem getLoop_false [Inhabited V] (cmp : K → K → Int) (q : K) :
    ∀ t : avlNode K V, (getLoop cmp t q).2 = false → getLoop cmp t q = (default, false) := by
  intro t
  induction t with
  | nil => intro _; rfl
  | node k v l r s h ihl ihr =>
    rw [getLoop]
    split_ifs
    · intro h; cases h
    · exact ihl
    · exact ihr

theorem getFloorLoop_false [Inhabited K] [Inhabited V] (cmp : K → K → Int) (q : K) :
    ∀ (t : avlNode K V) (acc : K × V × Bool),
      getFloorLoop cmp t q acc = acc ∨ (getFloorLoop cmp t q acc).2.2 = true := by
  intro t
  induction t with
  | nil => intro acc; exact Or.inl rfl
  | node k v l r s h ihl ihr =>
    intro acc
    rw [getFloorLoop]
    split_ifs
    · exact Or.inr rfl
    · exact ihl acc
    · rcases ihr (k, v, true) with h | h
      · right; rw [h]
      · exact Or.inr h

theorem getCeilingLoop_false [Inhabited K] [Inhabited V] (cmp : K → K → Int) (q : K) :
    ∀ (t : avlNode K V) (acc : K × V × Bool),
      getCeilingLoop cmp t q acc = acc ∨ (getCeilingLoop cmp t q acc).2.2 = true := by
  intro t
  induction t with
  | nil => intro acc; exact Or.inl rfl
  | node k v l r s h ihl ihr =>
    intro acc
    rw [getCeilingLoop]
    split_ifs
    · exact Or.inr rfl
    · rcases ihl (k, v, true) with h | h
      · right; rw [h]
      · exact Or.inr h
    · exact ihr acc

theorem getLowerLoop_false [Inhabited K] [Inhabited V] (cmp : K → K → Int) (q : K) :
    ∀ (t : avlNode K V) (acc : K × V × Bool),
      getLowerLoop cmp t q acc = acc ∨ (getLowerLoop cmp t q acc).2.2 = true := by
  intro t
  induction t with
  | nil => intro acc; exact Or.inl rfl
  | node k v l r s h ihl ihr =>
    intro acc
    rw [getLowerLoop]
    split_ifs
    · exact ihl acc
    · rcases ihr (k, v, true) with h | h
      · right; rw [h]
      · exact Or.inr h

theorem getHigherLoop_false [Inhabited K] [Inhabited V] (cmp : K → K → Int) (q : K) :
    ∀ (t : avlNode K V) (acc : K × V × Bool),
      getHigherLoop cmp t q acc = acc ∨ (getHigherLoop cmp t q acc).2.2 = true := by
  intro t
  induction t with
  | nil => intro acc; exact Or.inl rfl
  | node k v l r s h ihl ihr =>
    intro acc
    rw [getHigherLoop]
    split_ifs
    · exact ihr acc
    · rcases ihl (k, v, true) with h | h
      · right; rw [h]
      · exact Or.inr h

theorem eq_of_flag_false {α : Type} {x acc : α × Bool} (h : x = acc ∨ x.2 = true)
    (hf : x.2 = false) : x = acc := by
  rcases h with h | h
  · exact h
  · rw [hf] at h; cases h

theorem eq_of_flag_false3 {α β : Type} {x acc : α × β × Bool} (h : x = acc ∨ x.2.2 = true)
    (hf : x.2.2 = false) : x = acc := by
  rcases h with h | h
  · exact h
  · rw [hf] at h; cases h

/-- C17. Not-found is a flag with default results, never an error. For every
tree and every query key each of the seven queries is a total function of the
tree (no nil dereference), and whenever its found flag is false the returned key
and value are the zero values. On the empty tree all seven report found = false. -/
theorem C17_not_found [Inhabited K] [Inhabited V] (t : AVLTree K V) (q : K) :
    (((t.Get q).2 = false → t.Get q = (default, false)) ∧
      ((t.GetFloor q).2.2 = false → t.GetFloor q = (default, default, false)) ∧
      ((t.GetCeiling q).2.2 = false → t.GetCeiling q = (default, default, false)) ∧
      ((t.GetLower q).2.2 = false → t.GetLower q = (default, default, false)) ∧
      ((t.GetHigher q).2.2 = false → t.GetHigher q = (default, default, false)) ∧
      ((t.GetFirst).2.2 = false → t.GetFirst = (default, default, false)) ∧
      ((t.GetLast).2.2 = false → t.GetLast = (default, default, false))) ∧
    ((NewAVLTree t.cmp : AVLTree K V).Get q = (default, false) ∧
      (NewAVLTree t.cmp : AVLTree K V).GetFloor q = (default, default, false) ∧
      (NewAVLTree t.cmp : AVLTree K V).GetCeiling q = (default, default, false) ∧
      (NewAVLTree t.cmp : AVLTree K V).GetLower q = (default, default, false) ∧
      (NewAVLTree t.cmp : AVLTree K V).GetHigher q = (default, default, false) ∧
      (NewAVLTree t.cmp : AVLTree K V).GetFirst = (default, default, false) ∧
      (NewAVLTree t.cmp : AVLTree K V).GetLast = (default, default, false)) := by
  refine ⟨⟨getLoop_false t.cmp q t.root,
    eq_of_flag_false3 (getFloorLoop_false t.cmp q t.root _),
    eq_of_flag_false3 (getCeilingLoop_false t.cmp q t.root _),
    eq_of_flag_false3 (getLowerLoop_false t.cmp q t.root _),
    eq_of_flag_false3 (getHigherLoop_false t.cmp q t.root _), ?_, ?_⟩,
    ⟨rfl, rfl, rfl, rfl, rfl, rfl, rfl⟩⟩
  · intro h
    unfold AVLTree.GetFirst at h ⊢
    cases hl : getFirstLoop t.root with
    | nil => rfl
    | node k v l r s ht => rw [hl] at h; cases h
  · intro h
    unfold AVLTree.GetLast at h ⊢
    cases hl : getLastLoop t.root with
    | nil => rfl
    | node k v l r s ht => rw [hl] at h; cases h

/-- C18. Clear empties the tree. After `Clear()` the tree has no root, `Len()`
is 0, `Get` of every key reports not found, and the comparator is unchanged: the
tree is the one `NewAVLTree` makes for that comparator, so every later sequence of
calls behaves on it as on a fresh tree. -/
theorem C18_clear [Inhabited V] (t : AVLTree K V) :
    t.Clear.root = nil ∧ t.Clear.Len = 0 ∧ (∀ q, t.Clear.Get q = (default, false)) ∧
      t.Clear.cmp = t.cmp ∧ t.Clear = NewAVLTree t.cmp ∧
      ∀ ops : List (Op K V), runOps t.Clear ops = runOps (NewAVLTree t.cmp) ops :=
  ⟨rfl, rfl, fun _ => rfl, rfl, rfl, fun _ => rfl⟩

/-- C19. Rotation correctness on three keys. For each of the insertion orders
(1,2,3), (3,2,1), (3,1,2) and (1,3,2) into an empty integer tree with comparator
`CmpLess`, whatever the values, the three inserts return, the tree is balanced
after each of them, and the final tree has `Len() = 3` with root key 2 over the
leaves with keys 1 and 3. -/
theorem C19_three_keys (a b c : V) :
    (∃ t1 t2 t3, (NewAVLTree CmpLess).Insert (1 : Int) a = some t1 ∧
      t1.Insert 2 b = some t2 ∧ t2.Insert 3 c = some t3 ∧
      t1.root.Balanced ∧ t2.root.Balanced ∧ t3.root.Balanced ∧ t3.Len = 3 ∧
      t3.root = node 2 b (node 1 a nil nil 1 1) (node 3 c nil nil 1 1) 3 2) ∧
    (∃ t1 t2 t3, (NewAVLTree CmpLess).Insert (3 : Int) c = some t1 ∧
      t1.Insert 2 b = some t2 ∧ t2.Insert 1 a = some t3 ∧
      t1.root.Balanced ∧ t2.root.Balanced ∧ t3.root.Balanced ∧ t3.Len = 3 ∧
      t3.root = node 2 b (node 1 a nil nil 1 1) (node 3 c nil nil 1 1) 3 2) ∧
    (∃ t1 t2 t3, (NewAVLTree CmpLess).Insert (3 : Int) c = some t1 ∧
      t1.Insert 1 a = some t2 ∧ t2.Insert 2 b = some t3 ∧
      t1.root.Balanced ∧ t2.root.Balanced ∧ t3.root.Balanced ∧ t3.Len = 3 ∧
      t3.root = node 2 b (node 1 a nil nil 1 1) (node 3 c nil nil 1 1) 3 2) ∧
    (∃ t1 t2 t3, (NewAVLTree CmpLess).Insert (1 : Int) a = some t1 ∧
      t1.Insert 3 c = some t2 ∧ t2.Insert 2 b = some t3 ∧
      t1.root.Balanced ∧ t2.root.Balanced ∧ t3.root.Balanced ∧ t3.Len = 3 ∧
      t3.root = node 2 b (node 1 a nil nil 1 1) (node 3 c nil nil 1 1) 3 2) := by
  refine ⟨⟨_, _, _, rfl, rfl, rfl, ?_, ?_, ?_, rfl, rfl⟩,
    ⟨_, _, _, rfl, rfl, rfl, ?_, ?_, ?_, rfl, rfl⟩,
    ⟨_, _, _, rfl, rfl, rfl, ?_, ?_, ?_, rfl, rfl⟩,
    ⟨_, _, _, rfl, rfl, rfl, ?_, ?_, ?_, rfl, rfl⟩⟩ <;>
    simp [avlNode.Balanced, trueHeight]

/-! ## The neighbour queries on the in-order list -/

theorem floorList_append (cmp : K → K → Int) (q : K) (acc : K × V × Bool)
    (L R : List (K × V)) :
    floorList cmp q acc (L ++ R) = floorList cmp q (floorList cmp q acc L) R := by
  unfold floorList
  rw [List.foldl_append]

theorem floorList_cons (cmp : K → K → Int) (q : K) (acc : K × V × Bool) (a : K) (b : V)
    (R : List (K × V)) :
    floorList cmp q acc ((a, b) :: R) =
      floorList cmp q (if cmp a q ≤ 0 then (a, b, true) else acc) R := rfl

theorem floorList_unchanged (cmp : K → K → Int) (q : K) :
    ∀ (R : List (K × V)) (acc : K × V × Bool), (∀ e ∈ R, ¬ cmp e.1 q ≤ 0) →
      floorList cmp q acc R = acc := by
  intro R
  induction R with
  | nil => intro acc _; rfl
  | cons e R ih =>
    obtain ⟨a, b⟩ := e
    intro acc h
    rw [floorList_cons, if_neg (h (a, b) (List.mem_cons_self _ _))]
    exact ih acc (fun e he => h e (List.mem_cons_of_mem _ he))

theorem getFloorLoop_eq_floorList {cmp : K → K → Int} (hc : LawfulCmp cmp) (q : K) :
    ∀ (t : avlNode K V) (acc : K × V × Bool), t.BST cmp →
      getFloorLoop cmp t q acc = floorList cmp q acc t.toList := by
  intro t
  induction t with
  | nil => intro acc _; rfl
  | node k v l r s h ihl ihr =>
    intro acc hb
    obtain ⟨hbl, hbr, hlk, hrk⟩ := hb
    have hr : cmp k q ≥ 0 → ∀ e ∈ r.toList, ¬ cmp e.1 q ≤ 0 := by
      intro hge e he hle
      have h1 := (hc.lt_iff_gt k e.1).2 (hrk e.1 (mem_keys_of_mem_toList he))
      have h2 := hc.lt_of_lt_of_le h1 hle
      omega
    rw [getFloorLoop, toList_node, floorList_append, floorList_cons]
    by_cases h0 : cmp k q = 0
    · rw [if_pos h0, if_pos (le_of_eq h0), floorList_unchanged cmp q _ _ (hr (ge_of_eq h0))]
    · rw [if_neg h0]
      by_cases h1 : cmp k q > 0
      · rw [if_pos h1, if_neg (by omega), floorList_unchanged cmp q _ _ (hr (le_of_lt h1))]
        exact ihl acc hbl
      · rw [if_neg h1, if_pos (by omega)]
        exact ihr _ hbr

theorem lowerList_append (cmp : K → K → Int) (q : K) (acc : K × V × Bool)
    (L R : List (K × V)) :
    lowerList cmp q acc (L ++ R) = lowerList cmp q (lowerList cmp q acc L) R := by
  unfold lowerList
  rw [List.foldl_append]

theorem lowerList_cons (cmp : K → K → Int) (q : K) (acc : K × V × Bool) (a : K) (b : V)
    (R : List (K × V)) :
    lowerList cmp q acc ((a, b) :: R) =
      lowerList cmp q (if cmp a q < 0 then (a, b, true) else acc) R := rfl

theorem lowerList_unchanged (cmp : K → K → Int) (q : K) :
    ∀ (R : List (K × V)) (acc : K × V × Bool), (∀ e ∈ R, ¬ cmp e.1 q < 0) →
      lowerList cmp q acc R = acc := by
  intro R
  induction R with
  | nil => intro acc _; rfl
  | cons e R ih =>
    obtain ⟨a, b⟩ := e
    intro acc h
    rw [lowerList_cons, if_neg (h (a, b) (List.mem_cons_self _ _))]
    exact ih acc (fun e he => h e (List.mem_cons_of_mem _ he))

theorem getLowerLoop_eq_lowerList {cmp : K → K → Int} (hc : LawfulCmp cmp) (q : K) :
    ∀ (t : avlNode K V) (acc : K × V × Bool), t.BST cmp →
      getLowerLoop cmp t q acc = lowerList cmp q acc t.toList := by
  intro t
  induction t with
  | nil => intro acc _; rfl
  | node k v l r s h ihl ihr =>
    intro acc hb
    obtain ⟨hbl, hbr, hlk, hrk⟩ := hb
    have hr : cmp k q ≥ 0 → ∀ e ∈ r.toList, ¬ cmp e.1 q < 0 := by
      intro hge e he hlt
      have h1 := (hc.lt_iff_gt k e.1).2 (hrk e.1 (mem_keys_of_mem_toList he))
      have h2 := hc.lt_trans h1 hlt
      omega
    rw [getLowerLoop, toList_node, lowerList_append, lowerList_cons]
    by_cases h1 : cmp k q ≥ 0
    · rw [if_pos h1, if_neg (by omega), lowerList_unchanged cmp q _ _ (hr h1)]
      exact ihl acc hbl
    · rw [if_neg h1, if_pos (by omega)]
      exact ihr _ hbr

theorem ceilingList_append (cmp : K → K → Int) (q : K) (acc : K × V × Bool)
    (L R : List (K × V)) :
    ceilingList cmp q acc (L ++ R) = ceilingList cmp q (ceilingList cmp q acc R) L := by
  unfold ceilingList
  rw [List.foldr_append]

theorem ceilingList_cons (cmp : K → K → Int) (q : K) (acc : K × V × Bool) (a : K) (b : V)
    (R : List (K × V)) :
    ceilingList cmp q acc ((a, b) :: R) =
      if cmp a q ≥ 0 then (a, b, true) else ceilingList cmp q acc R := rfl

theorem ceilingList_unchanged (cmp : K → K → Int) (q : K) :
    ∀ (R : List (K × V)) (acc : K × V × Bool), (∀ e ∈ R, ¬ cmp e.1 q ≥ 0) →
      ceilingList cmp q acc R = acc := by
  intro R
  induction R with
  | nil => intro acc _; rfl
  | cons e R ih =>
    obtain ⟨a, b⟩ := e
    intro acc h
    rw [ceilingList_cons, if_neg (h (a, b) (List.mem_cons_self _ _))]
    exact ih acc (fun e he => h e (List.mem_cons_of_mem _ he))

theorem getCeilingLoop_eq_ceilingList {cmp : K → K → Int} (hc : LawfulCmp cmp) (q : K) :
    ∀ (t : avlNode K V) (acc : K × V × Bool), t.BST cmp →
      getCeilingLoop cmp t q acc = ceilingList cmp q acc t.toList := by
  intro t
  induction t with
  | nil => intro acc _; rfl
  | node k v l r s h ihl ihr =>
    intro acc hb
    obtain ⟨hbl, hbr, hlk, hrk⟩ := hb
    have hl : cmp k q ≤ 0 → ∀ e ∈ l.toList, ¬ cmp e.1 q ≥ 0 := by
      intro hle e he hge
      have h2 := hc.lt_of_lt_of_le (hlk e.1 (mem_keys_of_mem_toList he)) hle
      omega
    rw [getCeilingLoop, toList_node, ceilingList_append, ceilingList_cons]
    by_cases h0 : cmp k q = 0
    · rw [if_pos h0, if_pos (ge_of_eq h0), ceilingList_unchanged cmp q _ _ (hl (le_of_eq h0))]
    · rw [if_neg h0]
      by_cases h1 : cmp k q > 0
      · rw [if_pos h1, if_pos (le_of_lt h1)]
        exact ihl _ hbl
      · rw [if_neg h1, if_neg (by omega), ceilingList_unchanged cmp q _ _ (hl (by omega))]
        exact ihr acc hbr

theorem higherList_append (cmp : K → K → Int) (q : K) (acc : K × V × Bool)
    (L R : List (K × V)) :
    higherList cmp q acc (L ++ R) = higherList cmp q (higherList cmp q acc R) L := by
  unfold higherList
  rw [List.foldr_append]

theorem higherList_cons (cmp : K → K → Int) (q : K) (acc : K × V × Bool) (a : K) (b : V)
    (R : List (K × V)) :
    higherList cmp q acc ((a, b) :: R) =
      if cmp a q > 0 then (a, b, true) else higherList cmp q acc R := rfl

theorem higherList_unchanged (cmp : K → K → Int) (q : K) :
    ∀ (R : List (K × V)) (acc : K × V × Bool), (∀ e ∈ R, ¬ cmp e.1 q > 0) →
      higherList cmp q acc R = acc := by
  intro R
  induction R with
  | nil => intro acc _; rfl
  | cons e R ih =>
    obtain ⟨a, b⟩ := e
    intro acc h
    rw [higherList_cons, if_neg (h (a, b) (List.mem_cons_self _ _))]
    exact ih acc (fun e he => h e (List.mem_cons_of_mem _ he))

theorem getHigherLoop_eq_higherList {cmp : K → K → Int} (hc : LawfulCmp cmp) (q : K) :
    ∀ (t : avlNode K V) (acc : K × V × Bool), t.BST cmp →
      getHigherLoop cmp t q acc = higherList cmp q acc t.toList := by
  intro t
  induction t with
  | nil => intro acc _; rfl
  | node k v l r s h ihl ihr =>
    intro acc hb
    obtain ⟨hbl, hbr, hlk, hrk⟩ := hb
    have hl : cmp k q ≤ 0 → ∀ e ∈ l.toList, ¬ cmp e.1 q > 0 := by
      intro hle e he hgt
      have h2 := hc.lt_of_lt_of_le (hlk e.1 (mem_keys_of_mem_toList he)) hle
      omega
    rw [getHigherLoop, toList_node, higherList_append, higherList_cons]
    by_cases h1 : cmp k q ≤ 0
    · rw [if_pos h1, if_neg (by omega), higherList_unchanged cmp q _ _ (hl h1)]
      exact ihr acc hbr
    · rw [if_neg h1, if_pos (by omega)]
      exact ihl _ hbl

/-! ## Values after a run of inserts -/

theorem mem_insList (cmp : K → K → Int) (key : K) (value : V) (e : K × V) :
    ∀ L : List (K × V), e ∈ insList cmp key value L → e ∈ L ∨ e.2 = value := by
  intro L
  induction L with
  | nil =>
    intro h
    simp only [insList, List.mem_singleton] at h
    right; rw [h]
  | cons x L ih =>
    obtain ⟨a, b⟩ := x
    rw [insList_cons]
    split_ifs
    · intro h
      rcases List.mem_cons.1 h with rfl | h
      · right; rfl
      · left; exact List.mem_cons_of_mem _ h
    · intro h
      rcases List.mem_cons.1 h with rfl | h
      · right; rfl
      · left; exact h
    · intro h
      rcases List.mem_cons.1 h with rfl | h
      · left; exact List.mem_cons_self _ _
      · rcases ih h with h | h
        · left; exact List.mem_cons_of_mem _ h
        · right; exact h

/-- Inserts whose values all satisfy a property keep it on every stored value. -/
theorem runOps_inserts_values (P : V → Prop) (kvs : List (K × V)) :
    ∀ t : AVLTree K V, LawfulCmp t.cmp → WellFormed t.cmp t.root →
      (∀ e ∈ t.root.toList, P e.2) → (∀ e ∈ kvs, P e.2) →
      ∃ t1, runOps t (kvs.map (fun e => (Op.Insert e.1 e.2 : Op K V))) = some t1 ∧
        ∀ e ∈ t1.root.toList, P e.2 := by
  induction kvs with
  | nil => intro t _ _ h _; exact ⟨t, rfl, h⟩
  | cons x kvs ih =>
    intro t hc hw h hk
    obtain ⟨r, e, hw1, hl⟩ := insert_WellFormed hc x.1 x.2 hw
    have h1 : ∀ e ∈ r.toList, P e.2 := by
      intro e he
      rw [hl] at he
      rcases mem_insList t.cmp x.1 x.2 e _ he with he | he
      · exact h e he
      · rw [he]; exact hk x (List.mem_cons_self _ _)
    obtain ⟨t1, e1, h2⟩ := ih (AVLTree.mk r t.cmp) hc hw1 h1
      (fun e he => hk e (List.mem_cons_of_mem _ he))
    exact ⟨t1, by simp [runOps, Op.apply, AVLTree.Insert, e, e1], h2⟩

theorem eq_map_of_values {c : V} :
    ∀ L : List (K × V), (∀ e ∈ L, e.2 = c) → L = (L.map Prod.fst).map (fun k => (k, c)) := by
  intro L
  induction L with
  | nil => intro _; rfl
  | cons x L ih =>
    obtain ⟨a, b⟩ := x
    intro h
    have hb : b = c := h (a, b) (List.mem_cons_self _ _)
    rw [List.map_cons, List.map_cons, ← ih (fun e he => h e (List.mem_cons_of_mem _ he)), hb]

/-- Inserting the keys 1 to 5 with value 0 in any order gives a tree whose
in-order list is the five entries in ascending order. -/
theorem toList_of_inserts_12345 (ks : List Int) (hp : List.Perm ks [1, 2, 3, 4, 5]) :
    ∃ t, runOps (NewAVLTree CmpLess) (ks.map (fun k => (Op.Insert k 0 : Op Int Int))) = some t ∧
      t.cmp = CmpLess ∧ t.root.BST CmpLess ∧
      t.root.toList = [(1, 0), (2, 0), (3, 0), (4, 0), (5, 0)] := by
  have hops : ks.map (fun k => (Op.Insert k 0 : Op Int Int)) =
      (ks.map (fun k => (k, (0 : Int)))).map (fun e => (Op.Insert e.1 e.2 : Op Int Int)) := by
    rw [List.map_map]; rfl
  have hfst : (ks.map (fun k => (k, (0 : Int)))).map Prod.fst = ks := by
    rw [List.map_map]; exact List.map_id _
  have hnd : ks.Nodup := hp.nodup_iff.2 (by decide)
  rw [hops]
  obtain ⟨t, e, ec, hw⟩ := runOps_WellFormed
    ((ks.map (fun k => (k, (0 : Int)))).map (fun e => (Op.Insert e.1 e.2 : Op Int Int)))
    (NewAVLTree CmpLess) CmpLess_lawful (WellFormed_nil _)
  obtain ⟨t2, e2, _, hperm⟩ := runOps_liveKeys
    ((ks.map (fun k => (k, (0 : Int)))).map (fun e => (Op.Insert e.1 e.2 : Op Int Int)))
    (NewAVLTree CmpLess) [] CmpLess_lawful (WellFormed_nil _) (List.Perm.refl _)
  obtain ⟨t3, e3, hval⟩ := runOps_inserts_values (fun v : Int => v = 0)
    (ks.map (fun k => (k, (0 : Int)))) (NewAVLTree CmpLess) CmpLess_lawful (WellFormed_nil _)
    (fun e he => by simp [NewAVLTree, toList] at he)
    (fun e he => by
      obtain ⟨k, _, rfl⟩ := List.mem_map.1 he
      rfl)
  rw [e] at e2 e3
  cases e2
  cases e3
  have ec1 : t.cmp = CmpLess := ec
  rw [ec1] at hw
  refine ⟨t, e, ec1, hw.1, ?_⟩
  have hs : t.root.keys.Pairwise (fun a b => a ≤ b) := by
    refine List.Pairwise.imp ?_ ((BST_iff_sorted CmpLess_lawful _).1 hw.1)
    intro a b hab
    exact le_of_lt ((CmpLess_neg_iff a b).1 hab)
  have hk : List.Perm t.root.keys [1, 2, 3, 4, 5] := by
    refine hperm.trans ?_
    show List.Perm (liveKeys CmpLess [] _) _
    have := liveKeys_inserts (ks.map (fun k => (k, (0 : Int)))) [] (by rw [hfst]; exact hnd)
      (fun k _ => List.not_mem_nil k)
    rw [hfst, List.append_nil] at this
    exact this.trans hp
  have hkeys : t.root.keys = [1, 2, 3, 4, 5] :=
    List.eq_of_perm_of_sorted hk hs (by decide)
  rw [eq_map_of_values t.root.toList hval]
  show List.map (fun k => (k, (0 : Int))) t.root.keys = _
  rw [hkeys]
  rfl

/-- C20. Neighbor query example. For every order of inserting the keys 1, 2, 3,
4, 5, each with value 0, into an empty integer tree with comparator `CmpLess`,
the inserts return and `GetLower(3)` is `(2,0,true)`, `GetHigher(4)` is
`(5,0,true)`, `GetLower(1)` and `GetHigher(5)` report found = false,
`GetCeiling(0)` is `(1,0,true)`, `GetFloor(6)` is `(5,0,true)`, `GetCeiling(2)` is
`(2,0,true)`, `GetFloor(4)` is `(4,0,true)`, `GetFirst()` is `(1,0,true)` and
`GetLast()` is `(5,0,true)`. -/
theorem C20_neighbor_example (ks : List Int) (hp : List.Perm ks [1, 2, 3, 4, 5]) :
    ∃ t, runOps (NewAVLTree CmpLess) (ks.map (fun k => (Op.Insert k 0 : Op Int Int))) = some t ∧
      t.GetLower 3 = (2, 0, true) ∧ t.GetHigher 4 = (5, 0, true) ∧
      (t.GetLower 1).2.2 = false ∧ (t.GetHigher 5).2.2 = false ∧
      t.GetCeiling 0 = (1, 0, true) ∧ t.GetFloor 6 = (5, 0, true) ∧
      t.GetCeiling 2 = (2, 0, true) ∧ t.GetFloor 4 = (4, 0, true) ∧
      t.GetFirst = (1, 0, true) ∧ t.GetLast = (5, 0, true) := by
  obtain ⟨t, e, ec, hb, hl⟩ := toList_of_inserts_12345 ks hp
  obtain ⟨r, c⟩ := t
  have ec1 : c = CmpLess := ec
  subst ec1
  have hl1 : r.toList = [(1, 0), (2, 0), (3, 0), (4, 0), (5, 0)] := hl
  have hb1 : r.BST CmpLess := hb
  refine ⟨_, e, ?_, ?_, ?_, ?_, ?_, ?_, ?_, ?_, ?_, ?_⟩
  · show getLowerLoop CmpLess r 3 _ = _
    rw [getLowerLoop_eq_lowerList CmpLess_lawful 3 r _ hb1, hl1]; rfl
  · show getHigherLoop CmpLess r 4 _ = _
    rw [getHigherLoop_eq_higherList CmpLess_lawful 4 r _ hb1, hl1]; rfl
  · show (getLowerLoop CmpLess r 1 _).2.2 = _
    rw [getLowerLoop_eq_lowerList CmpLess_lawful 1 r _ hb1, hl1]; rfl
  · show (getHigherLoop CmpLess r 5 _).2.2 = _
    rw [getHigherLoop_eq_higherList CmpLess_lawful 5 r _ hb1, hl1]; rfl
  · show getCeilingLoop CmpLess r 0 _ = _
    rw [getCeilingLoop_eq_ceilingList CmpLess_lawful 0 r _ hb1, hl1]; rfl
  · show getFloorLoop CmpLess r 6 _ = _
    rw [getFloorLoop_eq_floorList CmpLess_lawful 6 r _ hb1, hl1]; rfl
  · show getCeilingLoop CmpLess r 2 _ = _
    rw [getCeilingLoop_eq_ceilingList CmpLess_lawful 2 r _ hb1, hl1]; rfl
  · show getFloorLoop CmpLess r 4 _ = _
    rw [getFloorLoop_eq_floorList CmpLess_lawful 4 r _ hb1, hl1]; rfl
  · rw [GetFirst_eq]
    dsimp only
    rw [hl1]; rfl
  · rw [GetLast_eq]
    dsimp only
    rw [hl1]; rfl

/-! ## Instances of the theorems on the trees of the tests, continued -/

theorem C11_getHigher_witness :
    LawfulCmp (CmpLess : Int → Int → Int) ∧ tree12345.BST CmpLess ∧
    (((AVLTree.mk tree12345 CmpLess).GetHigher 4).2.2 = false ↔
      ∀ x ∈ tree12345.keys, ¬ CmpLess x 4 > 0) :=
  ⟨CmpLess_lawful, by decide,
    (C11_getHigher (AVLTree.mk tree12345 CmpLess) CmpLess_lawful (by decide) 4).2.2⟩

theorem C12_getFirst_getLast_witness :
    LawfulCmp (CmpLess : Int → Int → Int) ∧ tree12345.BST CmpLess ∧
    (((AVLTree.mk tree12345 CmpLess).GetFirst).2.2 = false ↔ tree12345 = nil) ∧
    (((AVLTree.mk tree12345 CmpLess).GetLast).2.2 = false ↔ tree12345 = nil) :=
  ⟨CmpLess_lawful, by decide,
    (C12_getFirst_getLast (AVLTree.mk tree12345 CmpLess) CmpLess_lawful (by decide)).2⟩

theorem C13_get_membership_witness :
    LawfulCmp (CmpLess : Int → Int → Int) ∧ tree12345.BST CmpLess ∧
    (((AVLTree.mk tree12345 CmpLess).Get 3).2 = true ↔
      ∃ e ∈ tree12345.toList, CmpLess e.1 3 = 0) :=
  ⟨CmpLess_lawful, by decide,
    (C13_get_membership (AVLTree.mk tree12345 CmpLess) CmpLess_lawful (by decide) 3).2.2.1⟩

theorem C14_remove_absent_witness :
    WellFormed CmpLess tree12345 ∧ (∀ x ∈ tree12345.keys, CmpLess x 6 ≠ 0) ∧
    (AVLTree.mk tree12345 CmpLess).Remove 6 = some (AVLTree.mk tree12345 CmpLess) :=
  ⟨by decide, by decide,
    (C14_remove_absent (AVLTree.mk tree12345 CmpLess) (by decide) 6 (by decide)).1⟩

theorem C15_upsert_witness :
    LawfulCmp (CmpLess : Int → Int → Int) ∧ WellFormed CmpLess tree12345 ∧
    ∃ t1 t2, (AVLTree.mk tree12345 CmpLess).Insert 7 1 = some t1 ∧
      t1.Insert 7 2 = some t2 ∧ t2.Len = t1.Len ∧ t2.Get 7 = (2, true) :=
  ⟨CmpLess_lawful, by decide,
    C15_upsert (AVLTree.mk tree12345 CmpLess) CmpLess_lawful (by decide) 7 1 2⟩

theorem C16_insert_existing_witness :
    LawfulCmp (CmpLess : Int → Int → Int) ∧ WellFormed CmpLess tree12345 ∧
    (∃ x ∈ tree12345.keys, CmpLess x 4 = 0) ∧
    (AVLTree.mk tree12345 CmpLess).Insert 4 9 =
      some (AVLTree.mk
        (tree12345.mapValues (fun k0 v0 => if CmpLess k0 4 = 0 then 9 else v0)) CmpLess) :=
  ⟨CmpLess_lawful, by decide, by decide,
    (C16_insert_existing (AVLTree.mk tree12345 CmpLess) CmpLess_lawful (by decide) 4 9
      (by decide)).1⟩

theorem C20_neighbor_example_witness :
    List.Perm [(3 : Int), 2, 4, 1, 5] [1, 2, 3, 4, 5] ∧
    ∃ t, runOps (NewAVLTree CmpLess)
        ([(3 : Int), 2, 4, 1, 5].map (fun k => (Op.Insert k 0 : Op Int Int))) = some t ∧
      t.GetLower 3 = (2, 0, true) ∧ t.GetHigher 4 = (5, 0, true) ∧
      (t.GetLower 1).2.2 = false ∧ (t.GetHigher 5).2.2 = false ∧
      t.GetCeiling 0 = (1, 0, true) ∧ t.GetFloor 6 = (5, 0, true) ∧
      t.GetCeiling 2 = (2, 0, true) ∧ t.GetFloor 4 = (4, 0, true) ∧
      t.GetFirst = (1, 0, true) ∧ t.GetLast = (5, 0, true) :=
  ⟨by decide, C20_neighbor_example [3, 2, 4, 1, 5] (by decide)⟩

theorem C17_not_found_witness :
    ((AVLTree.mk tree12345 CmpLess).GetLower 1).2.2 = false ∧
    (AVLTree.mk tree12345 CmpLess).GetLower 1 = (default, default, false) :=
  ⟨by decide, (C17_not_found (AVLTree.mk tree12345 CmpLess) 1).1.2.2.2.1 (by decide)⟩

/-! ## Has, MustGet and the comparators of compare.go -/

/-- C21. Has and MustGet agree with Get. For every tree and key `k`, `Has(k)` is
the found flag of `Get(k)`; `MustGet(k)` is the value returned by `Get(k)` when
found and the zero value of `V` when not found, which in both cases is the value
`Get(k)` returns. -/
theorem C21_has_mustGet [Inhabited V] (t : AVLTree K V) (k : K) :
    t.Has k = (t.Get k).2 ∧
    ((t.Get k).2 = true → t.MustGet k = (t.Get k).1) ∧
    ((t.Get k).2 = false → t.MustGet k = default) ∧
    t.MustGet k = (t.Get k).1 := by
  refine ⟨rfl, ?_, ?_, ?_⟩
  · intro h
    unfold AVLTree.MustGet
    rw [if_pos h]
  · intro h
    unfold AVLTree.MustGet
    rw [if_neg (by rw [h]; decide)]
  · unfold AVLTree.MustGet
    by_cases h : (t.Get k).2 = true
    · rw [if_pos h]
    · rw [if_neg h]
      have hf : (t.Get k).2 = false := by simpa using h
      have := getLoop_false t.cmp k t.root hf
      show default = (getLoop t.cmp t.root k).1
      rw [this]

theorem CmpLess_pos_iff (x y : Int) : CmpLess x y > 0 ↔ x > y := by
  unfold CmpLess
  split_ifs with h1 h2
  · simp [h1]
  · simp only [gt_iff_lt] at h2 ⊢
    constructor
    · intro _; exact h2
    · intro _; omega
  · simp only [gt_iff_lt] at h2 ⊢
    constructor
    · intro h; omega
    · intro h; omega

/-- C22. CmpLess is a lawful three-way comparator on integers and CmpGreater is
its reverse. For all integers `x`, `y`: `CmpLess(x, y)` is -1 iff `x < y`, 0 iff
`x = y` and 1 iff `x > y`; it satisfies the comparator contract; and
`CmpGreater(x, y) = CmpLess(y, x) = -CmpLess(x, y)`. -/
theorem C22_cmpLess (x y : Int) :
    (CmpLess x y = -1 ↔ x < y) ∧ (CmpLess x y = 0 ↔ x = y) ∧ (CmpLess x y = 1 ↔ x > y) ∧
    LawfulCmp (CmpLess : Int → Int → Int) ∧
    CmpGreater x y = CmpLess y x ∧ CmpGreater x y = - CmpLess x y := by
  have hv : CmpLess x y = -1 ∨ CmpLess x y = 0 ∨ CmpLess x y = 1 := by
    unfold CmpLess
    split_ifs <;> simp
  have h1 := CmpLess_neg_iff x y
  have h2 := CmpLess_eq_zero_iff x y
  have h3 := CmpLess_pos_iff x y
  have hv2 : CmpLess y x = -1 ∨ CmpLess y x = 0 ∨ CmpLess y x = 1 := by
    unfold CmpLess
    split_ifs <;> simp
  have h4 := CmpLess_neg_iff y x
  have h5 := CmpLess_eq_zero_iff y x
  have h6 := CmpLess_pos_iff y x
  refine ⟨?_, h2, ?_, CmpLess_lawful, rfl, ?_⟩
  · constructor
    · intro h; exact h1.1 (by omega)
    · intro h; have := h1.2 h; omega
  · constructor
    · intro h; exact h3.1 (by omega)
    · intro h; have := h3.2 h; omega
  · show CmpLess y x = - CmpLess x y
    rcases lt_trichotomy x y with h | h | h
    · have a1 := h1.2 h
      have a2 := h6.2 h
      omega
    · have a1 := h2.2 h
      have a2 := h5.2 h.symm
      omega
    · have a1 := h3.2 h
      have a2 := h4.2 h
      omega

/-! ### CmpSliceLess -/

theorem CmpSliceLess_cons_cons (a b : Int) (xs ys : List Int) :
    CmpSliceLess (a :: xs) (b :: ys) =
      if a < b then -1 else if a > b then 1 else CmpSliceLess xs ys := rfl

theorem CmpSliceLess_values : ∀ x y : List Int,
    CmpSliceLess x y = -1 ∨ CmpSliceLess x y = 0 ∨ CmpSliceLess x y = 1 := by
  intro x
  induction x with
  | nil => intro y; cases y <;> simp [CmpSliceLess]
  | cons a xs ih =>
    intro y
    cases y with
    | nil => simp [CmpSliceLess]
    | cons b ys =>
      rw [CmpSliceLess_cons_cons]
      split_ifs
      · simp
      · simp
      · exact ih ys

theorem CmpSliceLess_swap : ∀ x y : List Int, CmpSliceLess y x = - CmpSliceLess x y := by
  intro x
  induction x with
  | nil => intro y; cases y <;> simp [CmpSliceLess]
  | cons a xs ih =>
    intro y
    cases y with
    | nil => simp [CmpSliceLess]
    | cons b ys =>
      rw [CmpSliceLess_cons_cons, CmpSliceLess_cons_cons]
      split_ifs <;> first | (exfalso; omega) | rfl | exact ih ys

theorem CmpSliceLess_eq_zero_iff : ∀ x y : List Int, CmpSliceLess x y = 0 ↔ x = y := by
  intro x
  induction x with
  | nil => intro y; cases y <;> simp [CmpSliceLess]
  | cons a xs ih =>
    intro y
    cases y with
    | nil => simp [CmpSliceLess]
    | cons b ys =>
      rw [CmpSliceLess_cons_cons]
      rcases lt_trichotomy a b with h | h | h
      · rw [if_pos h]
        constructor
        · intro h1; omega
        · intro h1; cases h1; omega
      · rw [if_neg (by omega), if_neg (by omega), ih ys]
        constructor
        · intro h1; rw [h, h1]
        · intro h1; cases h1; rfl
      · rw [if_neg (by omega), if_pos h]
        constructor
        · intro h1; omega
        · intro h1; cases h1; omega

theorem LexLt_nil_cons (b : Int) (t : List Int) : LexLt [] (b :: t) :=
  ⟨[], Or.inl ⟨b, t, rfl, rfl⟩⟩

theorem not_LexLt_nil (x : List Int) : ¬ LexLt x [] := by
  rintro ⟨p, ⟨b, t, _, h⟩ | ⟨a, s, b, t, _, h, _⟩⟩ <;>
    · have := congrArg List.length h
      simp at this
      omega

theorem LexLt_cons_cons (a b : Int) (xs ys : List Int) :
    LexLt (a :: xs) (b :: ys) ↔ a < b ∨ (a = b ∧ LexLt xs ys) := by
  constructor
  · rintro ⟨p, ⟨b1, t, hx, hy⟩ | ⟨a1, s, b1, t, hx, hy, hlt⟩⟩
    · cases p with
      | nil => cases hx
      | cons c p =>
        simp only [List.cons_append, List.cons.injEq] at hx hy
        right
        exact ⟨by rw [hx.1, hy.1], ⟨p, Or.inl ⟨b1, t, hx.2, hy.2⟩⟩⟩
    · cases p with
      | nil =>
        simp only [List.nil_append, List.cons.injEq] at hx hy
        left
        rw [hx.1, hy.1]; exact hlt
      | cons c p =>
        simp only [List.cons_append, List.cons.injEq] at hx hy
        right
        exact ⟨by rw [hx.1, hy.1], ⟨p, Or.inr ⟨a1, s, b1, t, hx.2, hy.2, hlt⟩⟩⟩
  · rintro (h | ⟨rfl, p, ⟨b1, t, hx, hy⟩ | ⟨a1, s, b1, t, hx, hy, hlt⟩⟩)
    · exact ⟨[], Or.inr ⟨a, xs, b, ys, rfl, rfl, h⟩⟩
    · exact ⟨a :: p, Or.inl ⟨b1, t, by rw [hx], by rw [hy]; rfl⟩⟩
    · exact ⟨a :: p, Or.inr ⟨a1, s, b1, t, by rw [hx]; rfl, by rw [hy]; rfl, hlt⟩⟩

theorem CmpSliceLess_neg_iff : ∀ x y : List Int, CmpSliceLess x y = -1 ↔ LexLt x y := by
  intro x
  induction x with
  | nil =>
    intro y
    cases y with
    | nil =>
      constructor
      · intro h; simp [CmpSliceLess] at h
      · intro h; exact absurd h (not_LexLt_nil _)
    | cons b t =>
      constructor
      · intro _; exact LexLt_nil_cons b t
      · intro _; rfl
  | cons a xs ih =>
    intro y
    cases y with
    | nil =>
      constructor
      · intro h; simp [CmpSliceLess] at h
      · intro h; exact absurd h (not_LexLt_nil _)
    | cons b ys =>
      rw [CmpSliceLess_cons_cons, LexLt_cons_cons]
      rcases lt_trichotomy a b with h | h | h
      · rw [if_pos h]
        exact ⟨fun _ => Or.inl h, fun _ => rfl⟩
      · rw [if_neg (by omega), if_neg (by omega), ih ys]
        constructor
        · intro h1; exact Or.inr ⟨h, h1⟩
        · rintro (h1 | ⟨_, h1⟩)
          · omega
          · exact h1
      · rw [if_neg (by omega), if_pos h]
        constructor
        · intro h1; omega
        · rintro (h1 | ⟨h1, _⟩) <;> omega

/-- C23. CmpSliceLess is three-way lexicographic comparison. For all integer
slices `x`, `y` the result is -1, 0 or 1; it is -1 exactly when `x` is
lexicographically less than `y` (decided at the first differing index, a proper
prefix below the longer slice), 1 exactly when `y` is lexicographically less than
`x`, and 0 exactly when `x` and `y` have equal length and equal elements; and
`CmpSliceGreater(x, y) = CmpSliceLess(y, x) = -CmpSliceLess(x, y)`. -/
theorem C23_cmpSliceLess (x y : List Int) :
    (CmpSliceLess x y = -1 ∨ CmpSliceLess x y = 0 ∨ CmpSliceLess x y = 1) ∧
    (CmpSliceLess x y = -1 ↔ LexLt x y) ∧
    (CmpSliceLess x y = 0 ↔ x = y) ∧
    (CmpSliceLess x y = 1 ↔ LexLt y x) ∧
    CmpSliceGreater x y = CmpSliceLess y x ∧ CmpSliceGreater x y = - CmpSliceLess x y := by
  refine ⟨CmpSliceLess_values x y, CmpSliceLess_neg_iff x y, CmpSliceLess_eq_zero_iff x y, ?_,
    rfl, CmpSliceLess_swap x y⟩
  rw [← CmpSliceLess_neg_iff y x, CmpSliceLess_swap x y]
  constructor <;> intro h <;> omega

/-! ## ArrayDeque -/

theorem ArrayDeque.Len_eq {T : Type} (d : ArrayDeque T) : d.Len = (d.seq.length : Int) := by
  simp [ArrayDeque.Len, ArrayDeque.seq]

theorem ArrayDeque.Len_eq_zero_iff {T : Type} (d : ArrayDeque T) : d.Len = 0 ↔ d.seq = [] := by
  rw [ArrayDeque.Len_eq]
  constructor
  · intro h
    exact List.length_eq_zero.1 (by omega)
  · intro h
    rw [h]; rfl

theorem getElem?_length_sub_one {T : Type} (l : List T) (x : T) :
    (l ++ [x])[(l ++ [x]).length - 1]? = some x := by
  simp

theorem ArrayDeque.Front_eq {T : Type} (d : ArrayDeque T) : d.Front = d.seq.head? := by
  obtain ⟨left, right⟩ := d
  unfold ArrayDeque.Front ArrayDeque.Len ArrayDeque.seq
  simp only
  rcases List.eq_nil_or_concat left with rfl | ⟨l1, x, hx⟩
  · cases right with
    | nil => simp
    | cons y r =>
      have h : ¬ ((([] : List T).length : Int) + ((y :: r).length : Int) = 0) := by
        simp only [List.length_nil, List.length_cons]; omega
      rw [if_neg h]
      simp
  · rw [List.concat_eq_append] at hx
    subst hx
    have h : ¬ (((l1 ++ [x]).length : Int) + (right.length : Int) = 0) := by
      simp only [List.length_append, List.length_cons, List.length_nil]; omega
    rw [if_neg h]
    simp

theorem ArrayDeque.Back_eq {T : Type} (d : ArrayDeque T) : d.Back = d.seq.getLast? := by
  obtain ⟨left, right⟩ := d
  unfold ArrayDeque.Back ArrayDeque.Len ArrayDeque.seq
  simp only
  rcases List.eq_nil_or_concat right with rfl | ⟨r1, x, hx⟩
  · cases left with
    | nil => simp
    | cons y l =>
      have h : ¬ (((y :: l).length : Int) + (([] : List T).length : Int) = 0) := by
        simp only [List.length_nil, List.length_cons]; omega
      rw [if_neg h]
      simp
  · rw [List.concat_eq_append] at hx
    subst hx
    have h : ¬ ((left.length : Int) + ((r1 ++ [x]).length : Int) = 0) := by
      simp only [List.length_append, List.length_cons, List.length_nil]; omega
    rw [if_neg h]
    simp [← List.append_assoc]

theorem ArrayDeque.PopFront_spec {T : Type} (d : ArrayDeque T) (h : d.seq ≠ []) :
    ∃ x d1, d.PopFront = some (x, d1) ∧ d.seq = x :: d1.seq := by
  obtain ⟨left, right⟩ := d
  unfold ArrayDeque.PopFront ArrayDeque.Len
  unfold ArrayDeque.seq at h ⊢
  simp only at h ⊢
  rcases List.eq_nil_or_concat left with rfl | ⟨l1, x, hx⟩
  · cases right with
    | nil => simp at h
    | cons y r =>
      have h0 : ¬ ((([] : List T).length : Int) + ((y :: r).length : Int) = 0) := by
        simp only [List.length_nil, List.length_cons]; omega
      rw [if_neg h0]
      exact ⟨y, ⟨[], r⟩, by simp, by simp⟩
  · rw [List.concat_eq_append] at hx
    subst hx
    have h0 : ¬ (((l1 ++ [x]).length : Int) + (right.length : Int) = 0) := by
      simp only [List.length_append, List.length_cons, List.length_nil]; omega
    rw [if_neg h0]
    exact ⟨x, ⟨l1, right⟩, by simp, by simp⟩

theorem ArrayDeque.PopBack_spec {T : Type} (d : ArrayDeque T) (h : d.seq ≠ []) :
    ∃ x d1, d.PopBack = some (x, d1) ∧ d.seq = d1.seq ++ [x] := by
  obtain ⟨left, right⟩ := d
  unfold ArrayDeque.PopBack ArrayDeque.Len
  unfold ArrayDeque.seq at h ⊢
  simp only at h ⊢
  rcases List.eq_nil_or_concat right with rfl | ⟨r1, x, hx⟩
  · cases left with
    | nil => simp at h
    | cons y l =>
      have h0 : ¬ (((y :: l).length : Int) + (([] : List T).length : Int) = 0) := by
        simp only [List.length_nil, List.length_cons]; omega
      rw [if_neg h0]
      exact ⟨y, ⟨l, []⟩, by simp, by simp⟩
  · rw [List.concat_eq_append] at hx
    subst hx
    have h0 : ¬ ((left.length : Int) + ((r1 ++ [x]).length : Int) = 0) := by
      simp only [List.length_append, List.length_cons, List.length_nil]; omega
    rw [if_neg h0]
    exact ⟨x, ⟨left, r1⟩, by simp, by simp⟩

/-- C25. ArrayDeque implements a double-ended queue over its two slices. With
`seq(d) = reverse(d.left) ++ d.right`: `PushFront(x)` yields `x :: seq`,
`PushBack(x)` yields `seq ++ [x]`, `Len()` is the length of `seq`; `Front()` and
`Back()` return the first and last element of `seq`, `PopFront()` and `PopBack()`
return the first and last element and leave `seq` without it, also when the
element lives in the opposite slice; and the four panic exactly on the empty deque. -/
theorem C25_arrayDeque {T : Type} (d : ArrayDeque T) (x : T) :
    (d.PushFront x).seq = x :: d.seq ∧ (d.PushBack x).seq = d.seq ++ [x] ∧
    d.Len = (d.seq.length : Int) ∧
    d.Front = d.seq.head? ∧ d.Back = d.seq.getLast? ∧
    (d.seq ≠ [] →
      (∃ y d1, d.PopFront = some (y, d1) ∧ d.seq = y :: d1.seq) ∧
      (∃ y d1, d.PopBack = some (y, d1) ∧ d.seq = d1.seq ++ [y])) ∧
    (d.Front = none ↔ d.seq = []) ∧ (d.Back = none ↔ d.seq = []) ∧
    (d.PopFront = none ↔ d.seq = []) ∧ (d.PopBack = none ↔ d.seq = []) ∧
    ((NewArrayDeque : ArrayDeque T).PushFront x).Back = some x ∧
    ((NewArrayDeque : ArrayDeque T).PushBack x).Front = some x := by
  have hpf : d.PopFront = none ↔ d.seq = [] := by
    constructor
    · intro h
      by_contra hne
      obtain ⟨y, d1, e, _⟩ := d.PopFront_spec hne
      rw [e] at h; cases h
    · intro h
      unfold ArrayDeque.PopFront
      rw [if_pos ((d.Len_eq_zero_iff).2 h)]
  have hpb : d.PopBack = none ↔ d.seq = [] := by
    constructor
    · intro h
      by_contra hne
      obtain ⟨y, d1, e, _⟩ := d.PopBack_spec hne
      rw [e] at h; cases h
    · intro h
      unfold ArrayDeque.PopBack
      rw [if_pos ((d.Len_eq_zero_iff).2 h)]
  refine ⟨by simp [ArrayDeque.PushFront, ArrayDeque.seq],
    by simp [ArrayDeque.PushBack, ArrayDeque.seq], d.Len_eq, d.Front_eq, d.Back_eq,
    fun h => ⟨d.PopFront_spec h, d.PopBack_spec h⟩, ?_, ?_, hpf, hpb, ?_, ?_⟩
  · rw [d.Front_eq]; exact List.head?_eq_none_iff
  · rw [d.Back_eq]; exact List.getLast?_eq_none_iff
  · rw [ArrayDeque.Back_eq]; rfl
  · rw [ArrayDeque.Front_eq]; rfl

/-! ## Vector -/

/-- C27. Vector Insert and Remove are positional and inverse to each other. For
`0 <= i <= Len()`, `Insert(i, t)` returns with contents
`old[0..i) ++ [t] ++ old[i..]`; for `0 <= i < Len()`, `Remove(i)` returns `old[i]`
and leaves `old[0..i) ++ old[i+1..]`; hence `Insert(i, t)` followed by `Remove(i)`
returns `t` and restores the original contents. -/
theorem C27_vector {T : Type} (old : Vector T) (i : Int) (t : T) :
    (0 ≤ i → i ≤ old.Len →
      old.Insert i t = some (List.take i.toNat old ++ [t] ++ List.drop i.toNat old) ∧
      (old.Insert i t).bind (fun v => v.Remove i) = some (t, old)) ∧
    (0 ≤ i → i < old.Len →
      ∃ x, List.get? old i.toNat = some x ∧
        old.Remove i = some (x, List.take i.toNat old ++ List.drop (i.toNat + 1) old)) := by
  constructor
  · intro h0 h1
    have hlen : i.toNat ≤ List.length old := by
      have : i ≤ (List.length old : Int) := h1
      omega
    have e : old.Insert i t = some (List.take i.toNat old ++ ([t] ++ List.drop i.toNat old)) := by
      unfold Vector.Insert
      rw [if_pos ⟨h0, h1⟩]
    refine ⟨by rw [e, List.append_assoc], ?_⟩
    rw [e, Option.some_bind]
    unfold Vector.Remove
    have hl : List.length (List.take i.toNat old ++ ([t] ++ List.drop i.toNat old)) =
        List.length old + 1 := by
      simp only [List.length_append, List.length_take, List.length_drop, List.length_cons,
        List.length_nil]
      omega
    have htake : List.length (List.take i.toNat old) = i.toNat := by
      rw [List.length_take]; omega
    rw [if_pos ⟨h0, by rw [hl]; push_cast; have : i ≤ (List.length old : Int) := h1; omega⟩]
    have hg : List.get? (List.take i.toNat old ++ ([t] ++ List.drop i.toNat old)) i.toNat =
        some t := by
      rw [List.get?_eq_getElem?, List.getElem?_append_right (by omega), htake]
      simp
    rw [hg]
    simp only [Option.some.injEq, Prod.mk.injEq, true_and]
    have hd : List.drop (i.toNat + 1) (List.take i.toNat old) = [] :=
      List.drop_eq_nil_of_le (by omega)
    rw [List.take_append_of_le_length (by omega), List.take_take, min_self,
      List.drop_append_eq_append_drop, htake, hd]
    simp
  · intro h0 h1
    have hlt : i.toNat < List.length old := by
      have : i < (List.length old : Int) := h1
      omega
    refine ⟨List.get old ⟨i.toNat, hlt⟩, List.get?_eq_get hlt, ?_⟩
    unfold Vector.Remove
    rw [if_pos ⟨h0, h1⟩, List.get?_eq_get hlt]

/-! ## Rotations and one fix-up -/

/-- C28. One fix-up application suffices. For a node with correct cached fields
whose two subtrees are balanced at every node and whose balance factor is +2 or
-2, `fix` returns a subtree in which every node satisfies the balance invariant
and has correct cached height and size, with the same in-order sequence of
entries. -/
theorem C28_fix_once (k : K) (v : V) (l r : avlNode K V) (s h : Int)
    (hc : (node k v l r s h).CachesOK) (hl : l.Balanced) (hr : r.Balanced)
    (hb : (node k v l r s h).Bal = 2 ∨ (node k v l r s h).Bal = -2) :
    ∃ t, fix (node k v l r s h) = some t ∧ t.Balanced ∧ t.CachesOK ∧
      t.toList = (node k v l r s h).toList := by
  have hHl := Height_eq_of_CachesOK hc.1
  have hHr := Height_eq_of_CachesOK hc.2.1
  rw [Bal_node, hHl, hHr] at hb
  obtain ⟨t, e, hct, hbt, _, _⟩ := fix_spec k v s h hc.1 hl hc.2.1 hr (by omega)
  rw [Maintain_eq_self hc] at e
  exact ⟨t, e, hbt, hct, fix_toList e⟩

/-- C29. Left rotation. For a node `n` with a present right child `r`, the
subtrees having correct caches, `rotateLeft(n)` returns `r` as the root with
`r.Left = n`, `n.Right` the former `r.Left`, `n.Left` and `r.Right` unchanged and
no key or value modified; the in-order sequence of entries is unchanged; and the
cached height and size of both `n` and `r` are then their true values. -/
theorem C29_rotateLeft (k : K) (v : V) (l : avlNode K V) (s h : Int) (rk : K) (rv : V)
    (rl rr : avlNode K V) (rs rh : Int)
    (hl : l.CachesOK) (hrl : rl.CachesOK) (hrr : rr.CachesOK) :
    ∃ s1 h1 s2 h2,
      rotateLeft (node k v l (node rk rv rl rr rs rh) s h) =
        some (node rk rv (node k v l rl s1 h1) rr s2 h2) ∧
      h1 = ((node k v l rl s1 h1).trueHeight : Int) ∧
      s1 = ((node k v l rl s1 h1).trueSize : Int) ∧
      h2 = ((node rk rv (node k v l rl s1 h1) rr s2 h2).trueHeight : Int) ∧
      s2 = ((node rk rv (node k v l rl s1 h1) rr s2 h2).trueSize : Int) ∧
      (node rk rv (node k v l rl s1 h1) rr s2 h2).CachesOK ∧
      (node rk rv (node k v l rl s1 h1) rr s2 h2).toList =
        (node k v l (node rk rv rl rr rs rh) s h).toList := by
  have hn : (Maintain (node k v l rl s h)).CachesOK := CachesOK_Maintain hl hrl
  have hr : (Maintain (node rk rv (Maintain (node k v l rl s h)) rr rs rh)).CachesOK :=
    CachesOK_Maintain hn hrr
  refine ⟨_, _, _, _, rotateLeft_node k v l s h rk rv rl rr rs rh, ?_, ?_, ?_, ?_, hr, ?_⟩
  · exact Height_eq_of_CachesOK hn
  · exact Size_eq_of_CachesOK hn
  · exact Height_eq_of_CachesOK hr
  · exact Size_eq_of_CachesOK hr
  · exact rotateLeft_toList (rotateLeft_node k v l s h rk rv rl rr rs rh)

/-- C30. Right rotation is the inverse of left rotation. For a node `n` whose
subtree has correct cached fields: when its right child is present,
`rotateRight(rotateLeft(n))` is `n`, identical in shape, keys, values and cached
fields; when its left child is present, `rotateLeft(rotateRight(n))` is `n`. -/
theorem C30_rotate_inverse (k : K) (v : V) (l r : avlNode K V) (s h : Int)
    (hc : (node k v l r s h).CachesOK) :
    (r ≠ nil →
      (rotateLeft (node k v l r s h)).bind rotateRight = some (node k v l r s h)) ∧
    (l ≠ nil →
      (rotateRight (node k v l r s h)).bind rotateLeft = some (node k v l r s h)) := by
  constructor
  · intro hr
    cases r with
    | nil => exact absurd rfl hr
    | node rk rv rl rr rs rh =>
      rw [rotateLeft_node, Option.some_bind]
      show rotateRight (node rk rv (Maintain (node k v l rl s h)) rr _ _) = _
      have e1 : ∀ s1 h1 : Int, Maintain (node rk rv rl rr s1 h1) = node rk rv rl rr rs rh :=
        fun _ _ => Maintain_eq_self hc.2.1
      have e2 : ∀ s1 h1 : Int, Maintain (node k v l (node rk rv rl rr rs rh) s1 h1) =
          node k v l (node rk rv rl rr rs rh) s h := fun _ _ => Maintain_eq_self hc
      rw [Maintain_node k v l rl, rotateRight_node, e1, e2]
  · intro hl
    cases l with
    | nil => exact absurd rfl hl
    | node lk lv ll lr ls lh =>
      rw [rotateRight_node, Option.some_bind]
      show rotateLeft (node lk lv ll (Maintain (node k v lr r s h)) _ _) = _
      have e1 : ∀ s1 h1 : Int, Maintain (node lk lv ll lr s1 h1) = node lk lv ll lr ls lh :=
        fun _ _ => Maintain_eq_self hc.1
      have e2 : ∀ s1 h1 : Int, Maintain (node k v (node lk lv ll lr ls lh) r s1 h1) =
          node k v (node lk lv ll lr ls lh) r s h := fun _ _ => Maintain_eq_self hc
      rw [Maintain_node k v lr r, rotateLeft_node, e1, e2]

/-! ## The doubly linked list in memory -/

section pointers

variable {T : Type}

/-! ## Memory lemmas -/

theorem Heap.modE_some (h : Heap T) (a : Nat) (E : Element T) (f : Element T → Element T)
    (ha : h.elems a = some E) : h.modE (some a) f = some (h.putE a (f E)) := by
  simp [Heap.modE, Heap.getE, ha]

theorem Heap.putE_elems (h : Heap T) (a : Nat) (E : Element T) (x : Nat) :
    (h.putE a E).elems x = if x = a then some E else h.elems x := rfl

theorem Heap.nextOf_putE (h : Heap T) (a : Nat) (E : Element T) (x : Nat) :
    (h.putE a E).nextOf x = if x = a then E.next else h.nextOf x := by
  unfold Heap.nextOf
  rw [Heap.putE_elems]
  split_ifs <;> rfl

theorem Heap.prevOf_putE (h : Heap T) (a : Nat) (E : Element T) (x : Nat) :
    (h.putE a E).prevOf x = if x = a then E.prev else h.prevOf x := by
  unfold Heap.prevOf
  rw [Heap.putE_elems]
  split_ifs <;> rfl

theorem Heap.listOf_putE (h : Heap T) (a : Nat) (E : Element T) (x : Nat) :
    (h.putE a E).listOf x = if x = a then E.list else h.listOf x := by
  unfold Heap.listOf
  rw [Heap.putE_elems]
  split_ifs <;> rfl

theorem Heap.valOf_putE (h : Heap T) (a : Nat) (E : Element T) (x : Nat) :
    (h.putE a E).valOf x = if x = a then some E.Value else h.valOf x := by
  unfold Heap.valOf
  rw [Heap.putE_elems]
  split_ifs <;> rfl

theorem Heap.elems_of_listOf {h : Heap T} {a l : Nat} (hl : h.listOf a = some l) :
    ∃ E, h.elems a = some E ∧ E.list = some l := by
  unfold Heap.listOf at hl
  cases e : h.elems a with
  | none => rw [e] at hl; cases hl
  | some E => rw [e] at hl; exact ⟨E, rfl, hl⟩

theorem Heap.nextOf_eq {h : Heap T} {a : Nat} {E : Element T} (ha : h.elems a = some E) :
    h.nextOf a = E.next := by
  unfold Heap.nextOf; rw [ha]

theorem Heap.prevOf_eq {h : Heap T} {a : Nat} {E : Element T} (ha : h.elems a = some E) :
    h.prevOf a = E.prev := by
  unfold Heap.prevOf; rw [ha]

theorem Heap.listOf_eq {h : Heap T} {a : Nat} {E : Element T} (ha : h.elems a = some E) :
    h.listOf a = E.list := by
  unfold Heap.listOf; rw [ha]

theorem Heap.valOf_eq {h : Heap T} {a : Nat} {E : Element T} (ha : h.elems a = some E) :
    h.valOf a = some E.Value := by
  unfold Heap.valOf; rw [ha]

/-! ## Doubly linked rings -/

theorem chain_snoc {R : Nat → Nat → Prop} (q : Nat) :
    ∀ (xs : List Nat) (p : Nat),
      List.Chain R p (xs ++ [q]) ↔ List.Chain R p xs ∧ R (lastFrom p xs) q := by
  intro xs
  induction xs with
  | nil => intro p; simp [lastFrom]
  | cons a xs ih =>
    intro p
    simp only [List.cons_append, List.chain_cons, ih, lastFrom]
    tauto

theorem chain_frame {h h1 : Heap T} :
    ∀ (xs : List Nat) (p : Nat), List.Chain h.link p xs →
      (∀ x ∈ (p :: xs).dropLast, h1.nextOf x = h.nextOf x) →
      (∀ y ∈ xs, h1.prevOf y = h.prevOf y) → List.Chain h1.link p xs := by
  intro xs
  induction xs with
  | nil => intro p _ _ _; exact List.Chain.nil
  | cons a xs ih =>
    intro p hc hn hp
    rw [List.chain_cons] at hc ⊢
    have hd : (p :: a :: xs).dropLast = p :: (a :: xs).dropLast := rfl
    refine ⟨⟨?_, ?_⟩, ih a hc.2 ?_ ?_⟩
    · rw [hn p (by rw [hd]; exact List.mem_cons_self _ _)]; exact hc.1.1
    · rw [hp a (List.mem_cons_self _ _)]; exact hc.1.2
    · intro x hx
      exact hn x (by rw [hd]; exact List.mem_cons_of_mem _ hx)
    · intro y hy
      exact hp y (List.mem_cons_of_mem _ hy)

theorem lastFrom_mem (p : Nat) : ∀ xs : List Nat, lastFrom p xs ∈ p :: xs := by
  intro xs
  induction xs generalizing p with
  | nil => simp [lastFrom]
  | cons a xs ih =>
    rw [lastFrom]
    exact List.mem_cons_of_mem _ (ih a)

theorem dropLast_append_lastFrom (p : Nat) :
    ∀ xs : List Nat, (p :: xs).dropLast ++ [lastFrom p xs] = p :: xs := by
  intro xs
  induction xs generalizing p with
  | nil => rfl
  | cons a xs ih =>
    have hd : (p :: a :: xs).dropLast = p :: (a :: xs).dropLast := rfl
    rw [hd, lastFrom, List.cons_append, ih a]

theorem not_mem_dropLast_of_nodup {p : Nat} {xs : List Nat} (hn : (p :: xs).Nodup) :
    lastFrom p xs ∉ (p :: xs).dropLast := by
  rw [← dropLast_append_lastFrom p xs] at hn
  intro hm
  have := List.disjoint_of_nodup_append hn hm
  exact this (List.mem_singleton_self _)

theorem lastFrom_eq_self_iff {p : Nat} {xs : List Nat} (hn : (p :: xs).Nodup) :
    lastFrom p xs = p ↔ xs = [] := by
  constructor
  · intro h
    cases xs with
    | nil => rfl
    | cons a xs =>
      exfalso
      have h1 : lastFrom a xs ∈ a :: xs := lastFrom_mem a xs
      rw [lastFrom] at h
      rw [h] at h1
      exact (List.nodup_cons.1 hn).1 h1
  · intro h; rw [h]; rfl

theorem lastFrom_append_singleton (p q : Nat) :
    ∀ xs : List Nat, lastFrom p (xs ++ [q]) = q := by
  intro xs
  induction xs generalizing p with
  | nil => rfl
  | cons a xs ih => rw [List.cons_append, lastFrom]; exact ih a

theorem Remove_effect (h : Heap T) (l a p n : Nat) (A P N : Element T) (L : LinkedList)
    (hA : h.elems a = some A) (hAl : A.list = some l) (hAp : A.prev = some p)
    (hAn : A.next = some n) (hP : h.elems p = some P) (hN : h.elems n = some N)
    (hap : a ≠ p) (han : a ≠ n) (hL : h.lists l = some L) :
    ∃ h1, LinkedList.Remove h l (some a) = some (h1, A.Value) ∧
      (∀ x, h1.nextOf x = if x = a then none else if x = p then some n else h.nextOf x) ∧
      (∀ x, h1.prevOf x = if x = a then none else if x = n then some p else h.prevOf x) ∧
      (∀ x, h1.listOf x = if x = a then none else h.listOf x) ∧
      (∀ x, h1.valOf x = h.valOf x) ∧
      h1.lists = (fun x => if x = l then some { L with size := L.size - 1 } else h.lists x) ∧
      h1.freeElem = h.freeElem := by
  have hpa : p ≠ a := fun e => hap e.symm
  have hna : n ≠ a := fun e => han e.symm
  obtain ⟨r, hr⟩ : ∃ r, LinkedList.Remove h l (some a) = r := ⟨_, rfl⟩
  have hr2 := hr
  by_cases hnp : n = p
  · subst hnp
    simp [LinkedList.Remove, Heap.getE, Heap.modE, Heap.putE, Heap.modL, hA, hAl, hAp, hAn, hP,
        hap, hpa, hL] at hr2
    rw [hr, ← hr2]
    refine ⟨_, rfl, ?_, ?_, ?_, ?_, rfl, rfl⟩
    · intro x
      unfold Heap.nextOf
      by_cases hxa : x = a
      · simp [hxa]
      · by_cases hxn : x = n
        · simp [hxn, hna]
        · simp [hxa, hxn]
    · intro x
      unfold Heap.prevOf
      by_cases hxa : x = a
      · simp [hxa]
      · by_cases hxn : x = n
        · simp [hxn, hna]
        · simp [hxa, hxn]
    · intro x
      unfold Heap.listOf
      by_cases hxa : x = a
      · simp [hxa]
      · by_cases hxn : x = n
        · simp [hxn, hna, hP]
        · simp [hxa, hxn]
    · intro x
      unfold Heap.valOf
      by_cases hxa : x = a
      · simp [hxa, hA]
      · by_cases hxn : x = n
        · simp [hxn, hna, hP]
        · simp [hxa, hxn]
  · have hpn : p ≠ n := fun e => hnp e.symm
    simp [LinkedList.Remove, Heap.getE, Heap.modE, Heap.putE, Heap.modL, hA, hAl, hAp, hAn, hP,
        hN, hap, hpa, hL, han, hna, hnp, hpn] at hr2
    rw [hr, ← hr2]
    refine ⟨_, rfl, ?_, ?_, ?_, ?_, rfl, rfl⟩
    · intro x
      unfold Heap.nextOf
      by_cases hxa : x = a
      · simp [hxa]
      · by_cases hxn : x = n
        · simp [hxn, hna, hnp, hN]
        · by_cases hxp : x = p
          · simp [hxp, hpa, hpn]
          · simp [hxa, hxn, hxp]
    · intro x
      unfold Heap.prevOf
      by_cases hxa : x = a
      · simp [hxa]
      · by_cases hxn : x = n
        · simp [hxn, hna]
        · by_cases hxp : x = p
          · simp [hxp, hpa, hpn, hP]
          · simp [hxa, hxn, hxp]
    · intro x
      unfold Heap.listOf
      by_cases hxa : x = a
      · simp [hxa]
      · by_cases hxn : x = n
        · simp [hxn, hna, hN]
        · by_cases hxp : x = p
          · simp [hxp, hpa, hpn, hP]
          · simp [hxa, hxn, hxp]
    · intro x
      unfold Heap.valOf
      by_cases hxa : x = a
      · simp [hxa, hA]
      · by_cases hxn : x = n
        · simp [hxn, hna, hN]
        · by_cases hxp : x = p
          · simp [hxp, hpa, hpn, hP]
          · simp [hxa, hxn, hxp]

theorem Heap.elems_of_nextOf {h : Heap T} {a b : Nat} (hn : h.nextOf a = some b) :
    ∃ E, h.elems a = some E ∧ E.next = some b := by
  unfold Heap.nextOf at hn
  cases e : h.elems a with
  | none => rw [e] at hn; cases hn
  | some E => rw [e] at hn; exact ⟨E, rfl, hn⟩

theorem Heap.elems_of_prevOf {h : Heap T} {a b : Nat} (hn : h.prevOf a = some b) :
    ∃ E, h.elems a = some E ∧ E.prev = some b := by
  unfold Heap.prevOf at hn
  cases e : h.elems a with
  | none => rw [e] at hn; cases hn
  | some E => rw [e] at hn; exact ⟨E, rfl, hn⟩

/-- Removing a member unlinks it and keeps the rest of the ring. -/
theorem ListRep.remove {h : Heap T} {l s a : Nat} {pre post : List Nat}
    (hr : ListRep h l s (pre ++ a :: post)) :
    ∃ h1 v, LinkedList.Remove h l (some a) = some (h1, v) ∧ h.valOf a = some v ∧
      ListRep h1 l s (pre ++ post) ∧ (∀ x, h1.valOf x = h.valOf x) := by
  obtain ⟨hl, hnd, hch, hown, hfresh⟩ := hr
  -- the neighbours
  obtain ⟨n, rest, hnr⟩ : ∃ n rest, post ++ [s] = n :: rest := by
    cases post with
    | nil => exact ⟨s, [], rfl⟩
    | cons b post1 => exact ⟨b, post1 ++ [s], rfl⟩
  have hch1 : List.Chain h.link s (pre ++ a :: n :: rest) := by
    rw [← hnr]; simpa using hch
  rw [List.chain_split, chain_snoc, List.chain_cons] at hch1
  obtain ⟨⟨hcpre, hpa⟩, han, hcrest⟩ := hch1
  -- distinctness
  have hs_pre : s ∉ pre := by
    intro hm
    exact (List.nodup_cons.1 hnd).1 (List.mem_append_left _ hm)
  have hsa : s ≠ a := by
    intro e
    exact (List.nodup_cons.1 hnd).1 (e ▸ List.mem_append_right _ (List.mem_cons_self _ _))
  have hs_post : s ∉ post := by
    intro hm
    exact (List.nodup_cons.1 hnd).1
      (List.mem_append_right _ (List.mem_cons_of_mem _ hm))
  have hnd2 : (pre ++ a :: post).Nodup := (List.nodup_cons.1 hnd).2
  have ha_pre : a ∉ pre := by
    intro hm
    exact (List.nodup_append.1 hnd2).2.2 hm (List.mem_cons_self _ _) 
  have ha_post : a ∉ post := by
    intro hm
    exact (List.nodup_cons.1 (List.nodup_append.1 hnd2).2.1).1 hm
  have hpre_post : ∀ x, x ∈ pre → x ∉ post := by
    intro x hx hp
    exact (List.nodup_append.1 hnd2).2.2 hx (List.mem_cons_of_mem _ hp)
  have hnd_pre : (s :: pre).Nodup :=
    List.nodup_cons.2 ⟨hs_pre, (List.nodup_append.1 hnd2).1⟩
  have hnd_post : (post ++ [s]).Nodup := by
    rw [List.nodup_append]
    refine ⟨(List.nodup_cons.1 (List.nodup_append.1 hnd2).2.1).2, List.nodup_singleton s, ?_⟩
    intro x hx hx2
    rw [List.mem_singleton] at hx2
    exact hs_post (hx2 ▸ hx)
  have hp_mem : lastFrom s pre ∈ s :: pre := lastFrom_mem s pre
  have hn_mem : n ∈ post ++ [s] := by rw [hnr]; exact List.mem_cons_self _ _
  have hap : a ≠ lastFrom s pre := by
    intro e
    rcases List.mem_cons.1 hp_mem with h1 | h1
    · exact hsa (h1 ▸ e).symm
    · exact ha_pre (e ▸ h1)
  have han' : a ≠ n := by
    intro e
    rcases List.mem_append.1 hn_mem with h1 | h1
    · exact ha_post (e ▸ h1)
    · rw [List.mem_singleton] at h1
      exact hsa (h1 ▸ e).symm
  have hn_pre : n ∉ pre := by
    intro hm
    rcases List.mem_append.1 hn_mem with h1 | h1
    · exact hpre_post n hm h1
    · rw [List.mem_singleton] at h1
      exact hs_pre (h1 ▸ hm)
  have hp_post : lastFrom s pre ∉ post := by
    intro hm
    rcases List.mem_cons.1 hp_mem with h1 | h1
    · exact hs_post (h1 ▸ hm)
    · exact hpre_post _ h1 hm
  have hn_rest : n ∉ rest := by
    rw [hnr] at hnd_post
    exact (List.nodup_cons.1 hnd_post).1
  have hrest_sub : ∀ x, x ∈ rest → x ∈ post ++ [s] := by
    intro x hx; rw [hnr]; exact List.mem_cons_of_mem _ hx
  have hdl : (n :: rest).dropLast = post := by
    rw [← hnr]; simp
  -- the elements involved
  obtain ⟨A, hA, hAl⟩ := Heap.elems_of_listOf
    (hown a (List.mem_cons_of_mem _ (List.mem_append_right _ (List.mem_cons_self _ _))))
  have hAp : A.prev = some (lastFrom s pre) := by
    rw [← Heap.prevOf_eq hA]; exact hpa.2
  have hAn : A.next = some n := by
    rw [← Heap.nextOf_eq hA]; exact han.1
  obtain ⟨P, hP, _⟩ := Heap.elems_of_nextOf hpa.1
  obtain ⟨N, hN, _⟩ := Heap.elems_of_prevOf han.2
  obtain ⟨h1, e, hnx, hpv, hls, hvl, hlists, hfree⟩ :=
    Remove_effect h l a (lastFrom s pre) n A P N _ hA hAl hAp hAn hP hN hap han' hl
  refine ⟨h1, A.Value, e, Heap.valOf_eq hA, ⟨?_, ?_, ?_, ?_, ?_⟩, hvl⟩
  · rw [hlists]
    simp only [if_pos]
    congr 2
    simp only [List.length_append, List.length_cons]
    push_cast
    ring
  · exact List.nodup_cons.2 ⟨by
      intro hm
      rcases List.mem_append.1 hm with h2 | h2
      · exact hs_pre h2
      · exact hs_post h2, by
      rw [List.nodup_append] at hnd2 ⊢
      exact ⟨hnd2.1, (List.nodup_cons.1 hnd2.2.1).2, fun x hx hx2 => hpre_post x hx hx2⟩⟩
  · have : pre ++ post ++ [s] = pre ++ n :: rest := by rw [List.append_assoc, hnr]
    rw [this, List.chain_split, chain_snoc]
    refine ⟨⟨?_, ?_, ?_⟩, ?_⟩
    · refine chain_frame pre s hcpre ?_ ?_
      · intro x hx
        have hx1 : x ∈ s :: pre := List.dropLast_subset _ hx
        have hxa : x ≠ a := by
          rintro rfl
          rcases List.mem_cons.1 hx1 with h2 | h2
          · exact hsa h2.symm
          · exact ha_pre h2
        have hxp : x ≠ lastFrom s pre := by
          rintro rfl
          exact not_mem_dropLast_of_nodup hnd_pre hx
        rw [hnx, if_neg hxa, if_neg hxp]
      · intro y hy
        have hya : y ≠ a := by rintro rfl; exact ha_pre hy
        have hyn : y ≠ n := by rintro rfl; exact hn_pre hy
        rw [hpv, if_neg hya, if_neg hyn]
    · rw [hnx, if_neg (fun e => hap e.symm), if_pos rfl]
    · rw [hpv, if_neg (fun e => han' e.symm), if_pos rfl]
    · refine chain_frame rest n hcrest ?_ ?_
      · intro x hx
        rw [hdl] at hx
        have hxa : x ≠ a := by rintro rfl; exact ha_post hx
        have hxp : x ≠ lastFrom s pre := by rintro rfl; exact hp_post hx
        rw [hnx, if_neg hxa, if_neg hxp]
      · intro y hy
        have hya : y ≠ a := by
          rintro rfl
          rcases List.mem_append.1 (hrest_sub _ hy) with h2 | h2
          · exact ha_post h2
          · rw [List.mem_singleton] at h2; exact hsa h2.symm
        have hyn : y ≠ n := by rintro rfl; exact hn_rest hy
        rw [hpv, if_neg hya, if_neg hyn]
  · intro x hx
    have hxa : x ≠ a := by
      rintro rfl
      rcases List.mem_cons.1 hx with h2 | h2
      · exact hsa h2.symm
      · rcases List.mem_append.1 h2 with h3 | h3
        · exact ha_pre h3
        · exact ha_post h3
    rw [hls, if_neg hxa]
    apply hown
    rcases List.mem_cons.1 hx with h2 | h2
    · rw [h2]; exact List.mem_cons_self _ _
    · refine List.mem_cons_of_mem _ ?_
      rcases List.mem_append.1 h2 with h3 | h3
      · exact List.mem_append_left _ h3
      · exact List.mem_append_right _ (List.mem_cons_of_mem _ h3)
  · intro x hx
    rw [hfree]
    apply hfresh
    rcases List.mem_cons.1 hx with h2 | h2
    · rw [h2]; exact List.mem_cons_self _ _
    · refine List.mem_cons_of_mem _ ?_
      rcases List.mem_append.1 h2 with h3 | h3
      · exact List.mem_append_left _ h3
      · exact List.mem_append_right _ (List.mem_cons_of_mem _ h3)

set_option maxHeartbeats 2000000 in
theorem PushBack_effect (h : Heap T) (l s p : Nat) (S P : Element T) (n : Int) (t : T)
    (hL : h.lists l = some { sentinel := some s, size := n })
    (hS : h.elems s = some S) (hSl : S.list = some l) (hSp : S.prev = some p)
    (hP : h.elems p = some P) (hs : s ≠ h.freeElem) (hp : p ≠ h.freeElem) :
    ∃ h1, LinkedList.PushBack h l t = some (h1, some h.freeElem) ∧
      (∀ x, h1.nextOf x = if x = h.freeElem then some s else
        if x = p then some h.freeElem else h.nextOf x) ∧
      (∀ x, h1.prevOf x = if x = h.freeElem then some p else
        if x = s then some h.freeElem else h.prevOf x) ∧
      (∀ x, h1.listOf x = if x = h.freeElem then some l else h.listOf x) ∧
      (∀ x, h1.valOf x = if x = h.freeElem then some t else h.valOf x) ∧
      h1.lists = (fun x => if x = l then some { sentinel := some s, size := n + 1 }
        else h.lists x) ∧
      h1.freeElem = h.freeElem + 1 := by
  have hs' : h.freeElem ≠ s := fun e => hs e.symm
  have hp' : h.freeElem ≠ p := fun e => hp e.symm
  obtain ⟨r, hr⟩ : ∃ r, LinkedList.PushBack h l t = r := ⟨_, rfl⟩
  have hr2 := hr
  by_cases hps : p = s
  · subst hps
    simp [LinkedList.PushBack, LinkedList.InsertBefore, LinkedList.insertBefore, Heap.allocE,
      Heap.getL, Heap.getE, Heap.modE, Heap.putE, Heap.modL, hL, hS, hSl, hSp, hs, hs'] at hr2
    rw [hr, ← hr2]
    refine ⟨_, rfl, ?_, ?_, ?_, ?_, rfl, rfl⟩
    · intro x
      unfold Heap.nextOf
      by_cases hxe : x = h.freeElem
      · simp [hxe]
      · by_cases hxp : x = p
        · simp [hxp, hp, hS]
        · simp [hxe, hxp]
    · intro x
      unfold Heap.prevOf
      by_cases hxe : x = h.freeElem
      · simp [hxe]
      · by_cases hxp : x = p
        · simp [hxp, hp, hS]
        · simp [hxe, hxp]
    · intro x
      unfold Heap.listOf
      by_cases hxe : x = h.freeElem
      · simp [hxe]
      · by_cases hxp : x = p
        · simp [hxp, hp, hS, hSl]
        · simp [hxe, hxp]
    · intro x
      unfold Heap.valOf
      by_cases hxe : x = h.freeElem
      · simp [hxe]
      · by_cases hxp : x = p
        · simp [hxp, hp, hS]
        · simp [hxe, hxp]
  · have hsp : s ≠ p := fun e => hps e.symm
    simp [LinkedList.PushBack, LinkedList.InsertBefore, LinkedList.insertBefore, Heap.allocE,
      Heap.getL, Heap.getE, Heap.modE, Heap.putE, Heap.modL, hL, hS, hSl, hSp, hP, hs, hs',
      hp, hp', hps, hsp] at hr2
    rw [hr, ← hr2]
    refine ⟨_, rfl, ?_, ?_, ?_, ?_, rfl, rfl⟩
    · intro x
      unfold Heap.nextOf
      by_cases hxe : x = h.freeElem
      · simp [hxe, hp', hs']
      · by_cases hxp : x = p
        · simp [hxp, hp, hP, hps]
        · by_cases hxs : x = s
          · simp [hxs, hs, hS, hsp]
          · simp [hxe, hxp, hxs]
    · intro x
      unfold Heap.prevOf
      by_cases hxe : x = h.freeElem
      · simp [hxe, hp', hs']
      · by_cases hxp : x = p
        · simp [hxp, hp, hP, hps]
        · by_cases hxs : x = s
          · simp [hxs, hs, hS, hsp]
          · simp [hxe, hxp, hxs]
    · intro x
      unfold Heap.listOf
      by_cases hxe : x = h.freeElem
      · simp [hxe, hp', hs']
      · by_cases hxp : x = p
        · simp [hxp, hp, hP, hps]
        · by_cases hxs : x = s
          · simp [hxs, hs, hS, hsp, hSl]
          · simp [hxe, hxp, hxs]
    · intro x
      unfold Heap.valOf
      by_cases hxe : x = h.freeElem
      · simp [hxe, hp', hs']
      · by_cases hxp : x = p
        · simp [hxp, hp, hP, hps]
        · by_cases hxs : x = s
          · simp [hxs, hs, hS, hsp]
          · simp [hxe, hxp, hxs]

/-- The sentinel of a represented list: its `list`, `prev` and `next` fields. -/
theorem ListRep.sentinel {h : Heap T} {l s : Nat} {addrs : List Nat}
    (hr : ListRep h l s addrs) :
    ∃ S, h.elems s = some S ∧ S.list = some l ∧ S.prev = some (lastFrom s addrs) ∧
      S.next = some ((addrs ++ [s]).headD s) := by
  obtain ⟨S, hS, hSl⟩ := Heap.elems_of_listOf (hr.owner s (List.mem_cons_self _ _))
  refine ⟨S, hS, hSl, ?_, ?_⟩
  · rw [← Heap.prevOf_eq hS]
    exact ((chain_snoc s addrs s).1 hr.chain).2.2
  · rw [← Heap.nextOf_eq hS]
    have hc := hr.chain
    cases addrs with
    | nil => exact (List.chain_cons.1 hc).1.1
    | cons a rest => exact (List.chain_cons.1 hc).1.1

/-- PushBack appends the fresh address to a represented list. -/
theorem ListRep.pushBack {h : Heap T} {l s : Nat} {addrs : List Nat}
    (hr : ListRep h l s addrs) (t : T) :
    ∃ h1, LinkedList.PushBack h l t = some (h1, some h.freeElem) ∧
      ListRep h1 l s (addrs ++ [h.freeElem]) ∧
      (∀ x, h1.valOf x = if x = h.freeElem then some t else h.valOf x) ∧
      h.freeElem ∉ s :: addrs := by
  obtain ⟨S, hS, hSl, hSp, _⟩ := hr.sentinel
  obtain ⟨hl, hnd, hch, hown, hfresh⟩ := hr
  have hpm : lastFrom s addrs ∈ s :: addrs := lastFrom_mem s addrs
  obtain ⟨P, hP, _⟩ := Heap.elems_of_listOf (hown _ hpm)
  have hne : ∀ x ∈ s :: addrs, x ≠ h.freeElem := fun x hx => Nat.ne_of_lt (hfresh x hx)
  have hfm : h.freeElem ∉ s :: addrs := fun hm => hne _ hm rfl
  obtain ⟨h1, e, hnx, hpv, hls, hvl, hlists, hfree⟩ :=
    PushBack_effect h l s (lastFrom s addrs) S P _ t hl hS hSl hSp hP
      (hne s (List.mem_cons_self _ _)) (hne _ hpm)
  obtain ⟨hc0, hlk⟩ := (chain_snoc s addrs s).1 hch
  refine ⟨h1, e, ⟨?_, ?_, ?_, ?_, ?_⟩, hvl, hfm⟩
  · rw [hlists]
    simp
  · have : s :: (addrs ++ [h.freeElem]) = (s :: addrs) ++ [h.freeElem] := rfl
    rw [this, List.nodup_append]
    refine ⟨hnd, List.nodup_singleton _, ?_⟩
    intro x hx hx2
    rw [List.mem_singleton] at hx2
    exact hne x hx hx2
  · rw [chain_snoc, chain_snoc, lastFrom_append_singleton]
    refine ⟨⟨?_, ?_, ?_⟩, ?_, ?_⟩
    · refine chain_frame addrs s hc0 ?_ ?_
      · intro x hx
        have hx1 : x ∈ s :: addrs := List.dropLast_subset _ hx
        have hxp : x ≠ lastFrom s addrs := by
          rintro rfl
          exact not_mem_dropLast_of_nodup hnd hx
        rw [hnx, if_neg (hne x hx1), if_neg hxp]
      · intro y hy
        have hys : y ≠ s := by
          rintro rfl
          exact (List.nodup_cons.1 hnd).1 hy
        rw [hpv, if_neg (hne y (List.mem_cons_of_mem _ hy)), if_neg hys]
    · rw [hnx, if_neg (hne _ hpm), if_pos rfl]
    · rw [hpv, if_pos rfl]
    · rw [hnx, if_pos rfl]
    · rw [hpv, if_neg (hne s (List.mem_cons_self _ _)), if_pos rfl]
  · intro x hx
    rw [hls]
    by_cases hxe : x = h.freeElem
    · rw [if_pos hxe]
    · rw [if_neg hxe]
      apply hown
      rcases List.mem_cons.1 hx with h2 | h2
      · rw [h2]; exact List.mem_cons_self _ _
      · rcases List.mem_append.1 h2 with h3 | h3
        · exact List.mem_cons_of_mem _ h3
        · rw [List.mem_singleton] at h3; exact absurd h3 hxe
  · intro x hx
    rw [hfree]
    by_cases hxe : x = h.freeElem
    · omega
    · have : x ∈ s :: addrs := by
        rcases List.mem_cons.1 hx with h2 | h2
        · rw [h2]; exact List.mem_cons_self _ _
        · rcases List.mem_append.1 h2 with h3 | h3
          · exact List.mem_cons_of_mem _ h3
          · rw [List.mem_singleton] at h3; exact absurd h3 hxe
      exact Nat.lt_succ_of_lt (hfresh x this)

/-- Front of a represented list is its first address, nil when there is none. -/
theorem ListRep.front {h : Heap T} {l s : Nat} {addrs : List Nat}
    (hr : ListRep h l s addrs) : LinkedList.Front h l = some addrs.head? := by
  obtain ⟨S, hS, hSl, _, hSn⟩ := hr.sentinel
  have hl := hr.hl
  cases addrs with
  | nil =>
    simp at hSn
    simp [LinkedList.Front, Element.Next, Heap.getL, Heap.getE, hl, hS, hSl, hSn]
  | cons a rest =>
    have has : a ≠ s := by
      rintro rfl
      exact (List.nodup_cons.1 hr.nodup).1 (List.mem_cons_self _ _)
    simp at hSn
    simp [LinkedList.Front, Element.Next, Heap.getL, Heap.getE, hl, hS, hSl, hSn, has]

/-- Back of a represented list is its last address, nil when there is none. -/
theorem ListRep.back {h : Heap T} {l s : Nat} {addrs : List Nat}
    (hr : ListRep h l s addrs) : LinkedList.Back h l = some addrs.getLast? := by
  obtain ⟨S, hS, hSl, hSp, _⟩ := hr.sentinel
  have hl := hr.hl
  rcases List.eq_nil_or_concat addrs with rfl | ⟨pre, a, hx⟩
  · simp [lastFrom] at hSp
    simp [LinkedList.Back, Element.Prev, Heap.getL, Heap.getE, hl, hS, hSl, hSp]
  · rw [List.concat_eq_append] at hx
    subst hx
    have has : a ≠ s := by
      rintro rfl
      exact (List.nodup_cons.1 hr.nodup).1 (List.mem_append_right _ (List.mem_singleton_self _))
    rw [lastFrom_append_singleton] at hSp
    simp [LinkedList.Back, Element.Prev, Heap.getL, Heap.getE, hl, hS, hSl, hSp, has]

/-- Overwriting the `Value` of an element keeps the list representation. -/
theorem ListRep.putValue {h : Heap T} {l s : Nat} {addrs : List Nat}
    (hr : ListRep h l s addrs) {a : Nat} {E : Element T} (hE : h.elems a = some E) (v : T) :
    ListRep (h.putE a { E with Value := v }) l s addrs := by
  have hn : ∀ x, (h.putE a { E with Value := v }).nextOf x = h.nextOf x := by
    intro x
    rw [Heap.nextOf_putE]
    split_ifs with hx
    · rw [hx, Heap.nextOf_eq hE]
    · rfl
  have hp : ∀ x, (h.putE a { E with Value := v }).prevOf x = h.prevOf x := by
    intro x
    rw [Heap.prevOf_putE]
    split_ifs with hx
    · rw [hx, Heap.prevOf_eq hE]
    · rfl
  have ho : ∀ x, (h.putE a { E with Value := v }).listOf x = h.listOf x := by
    intro x
    rw [Heap.listOf_putE]
    split_ifs with hx
    · rw [hx, Heap.listOf_eq hE]
    · rfl
  obtain ⟨hl, hnd, hch, hown, hfresh⟩ := hr
  refine ⟨hl, hnd, ?_, ?_, hfresh⟩
  · exact chain_frame _ s hch (fun x _ => hn x) (fun y _ => hp y)
  · intro x hx
    rw [ho]
    exact hown x hx

/-- NewList yields the empty list, whatever the memory was. -/
theorem NewList_rep [Inhabited T] (h : Heap T) :
    ∃ h1, NewList h = some (h1, h.freeList) ∧ ListRep h1 h.freeList h.freeElem [] := by
  obtain ⟨r, hr⟩ : ∃ r, NewList h = r := ⟨_, rfl⟩
  have hr2 := hr
  simp [NewList, Heap.allocE, Heap.allocL, Heap.modE, Heap.getE, Heap.putE] at hr2
  rw [hr, ← hr2]
  refine ⟨_, rfl, ⟨?_, ?_, ?_, ?_, ?_⟩⟩
  · simp
  · simp
  · simp [Heap.link, Heap.nextOf, Heap.prevOf]
  · intro a ha
    simp at ha
    simp [Heap.listOf, ha]
  · intro a ha
    simp at ha
    simp [ha]

end pointers

/-! ## The ordered map -/

section gomap

variable [Comparable K]

theorem mapLookup_eq_none_iff (hlaw : EqIsIdentity K) (mp : List (K × Option Nat)) (k : K) :
    mapLookup mp k = none ↔ k ∉ mp.map Prod.fst := by
  induction mp with
  | nil => simp [mapLookup]
  | cons x rest ih =>
    obtain ⟨a, p⟩ := x
    by_cases hak : a = k
    · subst hak
      have he : Comparable.eq a a = true := (hlaw a a).2 rfl
      simp [mapLookup, he]
    · have he : ¬ Comparable.eq a k = true := fun e => hak ((hlaw a k).1 e)
      have : k ≠ a := fun e => hak e.symm
      simp [mapLookup, he, ih, this]

theorem mapLookup_of_mem (hlaw : EqIsIdentity K) {mp : List (K × Option Nat)} {k : K}
    {p : Option Nat} (hn : (mp.map Prod.fst).Nodup) (hm : (k, p) ∈ mp) :
    mapLookup mp k = some p := by
  induction mp with
  | nil => cases hm
  | cons x rest ih =>
    obtain ⟨a, q⟩ := x
    rw [List.map_cons, List.nodup_cons] at hn
    rcases List.mem_cons.1 hm with h1 | h1
    · cases h1
      have he : Comparable.eq k k = true := (hlaw k k).2 rfl
      simp [mapLookup, he]
    · have hak : a ≠ k := by
        rintro rfl
        exact hn.1 (List.mem_map.2 ⟨(a, p), h1, rfl⟩)
      have he : ¬ Comparable.eq a k = true := fun e => hak ((hlaw a k).1 e)
      simp [mapLookup, he, ih hn.2 h1]

end gomap

section omrep


theorem entries_keys (ents : List (Nat × K × V)) :
    (ents.map (fun e => (e.2.1, some e.1))).map Prod.fst
      = (ents.map (fun e => e.2)).map Prod.fst := by
  rw [List.map_map, List.map_map]
  rfl

theorem rep_keys_nodup {mp : List (K × Option Nat)} {ents : List (Nat × K × V)}
    (hnd : ((ents.map (fun e => e.2)).map Prod.fst).Nodup)
    (hperm : List.Perm mp (ents.map (fun e => (e.2.1, some e.1)))) :
    (mp.map Prod.fst).Nodup := by
  rw [← entries_keys] at hnd
  exact ((hperm.map Prod.fst).nodup_iff).2 hnd

theorem rep_lookup [Comparable K] (hlaw : EqIsIdentity K) {mp : List (K × Option Nat)} {ents : List (Nat × K × V)}
    (hnd : ((ents.map (fun e => e.2)).map Prod.fst).Nodup)
    (hperm : List.Perm mp (ents.map (fun e => (e.2.1, some e.1))))
    {a : Nat} {k : K} {v : V} (hm : (a, k, v) ∈ ents) :
    mapLookup mp k = some (some a) := by
  apply mapLookup_of_mem hlaw (rep_keys_nodup hnd hperm)
  rw [hperm.mem_iff]
  exact List.mem_map.2 ⟨(a, k, v), hm, rfl⟩

theorem rep_lookup_none [Comparable K] (hlaw : EqIsIdentity K) {mp : List (K × Option Nat)}
    {ents : List (Nat × K × V)}
    (hperm : List.Perm mp (ents.map (fun e => (e.2.1, some e.1))))
    {k : K} (hk : k ∉ (ents.map (fun e => e.2)).map Prod.fst) :
    mapLookup mp k = none := by
  rw [mapLookup_eq_none_iff hlaw, (hperm.map Prod.fst).mem_iff, entries_keys]
  exact hk

theorem rep_delete [Comparable K] (hlaw : EqIsIdentity K) {mp : List (K × Option Nat)}
    {E1 E2 : List (Nat × K × V)} {a : Nat} {k : K} {v : V}
    (hnd : (((E1 ++ (a, k, v) :: E2).map (fun e => e.2)).map Prod.fst).Nodup)
    (hperm : List.Perm mp ((E1 ++ (a, k, v) :: E2).map (fun e => (e.2.1, some e.1)))) :
    List.Perm (mapDelete mp k) ((E1 ++ E2).map (fun e => (e.2.1, some e.1))) := by
  unfold mapDelete
  refine (hperm.filter _).trans ?_
  rw [List.map_append, List.map_cons, List.filter_append, List.filter_cons]
  simp only [List.map_append, List.map_cons, List.map_map] at hnd
  rw [List.nodup_append] at hnd
  obtain ⟨_, h2, h3⟩ := hnd
  rw [List.nodup_cons] at h2
  have e1 : List.filter (fun x => !(Comparable.eq x.1 k)) (E1.map (fun e => (e.2.1, some e.1)))
      = E1.map (fun e => (e.2.1, some e.1)) := by
    rw [List.filter_eq_self]
    intro x hx
    obtain ⟨e, he, rfl⟩ := List.mem_map.1 hx
    simp only [Bool.not_eq_true_eq_eq_false, Bool.not_eq_eq_eq_not, Bool.not_true]
    rw [Bool.eq_false_iff]
    intro hk0
    have hk := (hlaw _ _).1 hk0
    exact h3 (List.mem_map.2 ⟨e, he, hk⟩) (List.mem_cons_self _ _)
  have e2 : List.filter (fun x => !(Comparable.eq x.1 k)) (E2.map (fun e => (e.2.1, some e.1)))
      = E2.map (fun e => (e.2.1, some e.1)) := by
    rw [List.filter_eq_self]
    intro x hx
    obtain ⟨e, he, rfl⟩ := List.mem_map.1 hx
    simp only [Bool.not_eq_true_eq_eq_false, Bool.not_eq_eq_eq_not, Bool.not_true]
    rw [Bool.eq_false_iff]
    intro hk0
    have hk := (hlaw _ _).1 hk0
    exact h2.1 (List.mem_map.2 ⟨e, he, hk⟩)
  have e3 : Comparable.eq k k = true := (hlaw k k).2 rfl
  rw [e1, e2]
  simp [e3]

theorem vals_transfer {h h1 : Heap (Pair K V)} {x : Nat} {k : K} {v : V}
    (hv : h1.valOf x = h.valOf x)
    (hE : ∃ E, h.elems x = some E ∧ E.Value.Key = k ∧ E.Value.Value = v) :
    ∃ E, h1.elems x = some E ∧ E.Value.Key = k ∧ E.Value.Value = v := by
  obtain ⟨E, hE, hk, hvv⟩ := hE
  rw [Heap.valOf_eq hE] at hv
  unfold Heap.valOf at hv
  cases e : h1.elems x with
  | none => rw [e] at hv; cases hv
  | some E1 =>
    rw [e] at hv
    have : E1.Value = E.Value := by injection hv
    exact ⟨E1, rfl, by rw [this]; exact hk, by rw [this]; exact hvv⟩

/-- Unlinking one entry of a represented map and deleting its key. -/
theorem rep_removeAt [Comparable K] (hlaw : EqIsIdentity K) {h : Heap (Pair K V)} {m : OrderedMap K} {s : Nat}
    {E1 E2 : List (Nat × K × V)} {a : Nat} {k : K} {v : V}
    (hlr : ListRep h m.list s ((E1 ++ (a, k, v) :: E2).map (fun e => e.1)))
    (hvals : ∀ e ∈ E1 ++ (a, k, v) :: E2,
      ∃ E, h.elems e.1 = some E ∧ E.Value.Key = e.2.1 ∧ E.Value.Value = e.2.2)
    (hnd : (((E1 ++ (a, k, v) :: E2).map (fun e => e.2)).map Prod.fst).Nodup)
    (hperm : List.Perm m.mp ((E1 ++ (a, k, v) :: E2).map (fun e => (e.2.1, some e.1)))) :
    ∃ h1 p, LinkedList.Remove h m.list (some a) = some (h1, p) ∧
      (∃ E, h.elems a = some E ∧ E.Value.Key = k ∧ E.Value.Value = v) ∧
      (∃ E, h1.elems a = some E ∧ E.Value.Key = k ∧ E.Value.Value = v) ∧
      OMRep h1 { m with mp := mapDelete m.mp k } ((E1 ++ E2).map (fun e => e.2)) := by
  have hmem : (a, k, v) ∈ E1 ++ (a, k, v) :: E2 :=
    List.mem_append_right _ (List.mem_cons_self _ _)
  rw [List.map_append, List.map_cons] at hlr
  obtain ⟨h1, p, e, _, hlr1, hvl⟩ := hlr.remove
  refine ⟨h1, p, e, hvals _ hmem, vals_transfer (hvl a) (hvals _ hmem), s, E1 ++ E2, ?_, rfl,
    ?_, ?_, rep_delete hlaw hnd hperm⟩
  · rw [List.map_append]; exact hlr1
  · intro x hx
    refine vals_transfer (hvl x.1) (hvals x ?_)
    rcases List.mem_append.1 hx with h2 | h2
    · exact List.mem_append_left _ h2
    · exact List.mem_append_right _ (List.mem_cons_of_mem _ h2)
  · simp only [List.map_append, List.map_cons] at hnd ⊢
    rw [List.nodup_append] at hnd ⊢
    exact ⟨hnd.1, (List.nodup_cons.1 hnd.2.1).2,
      fun x hx hx2 => hnd.2.2 hx (List.mem_cons_of_mem _ hx2)⟩

end omrep

section omops


theorem ents_split : ∀ (L1 : List (K × V)) {ents : List (Nat × K × V)} {L2 : List (K × V)}
    {k : K} {v : V}, ents.map (fun e => e.2) = L1 ++ (k, v) :: L2 →
    ∃ E1 a E2, ents = E1 ++ (a, k, v) :: E2 ∧ E1.map (fun e => e.2) = L1 ∧
      E2.map (fun e => e.2) = L2 := by
  intro L1
  induction L1 with
  | nil =>
    intro ents L2 k v hL
    cases ents with
    | nil => cases hL
    | cons e E2 =>
      obtain ⟨a, k1, v1⟩ := e
      simp only [List.map_cons, List.nil_append, List.cons.injEq, Prod.mk.injEq] at hL
      obtain ⟨⟨rfl, rfl⟩, h2⟩ := hL
      exact ⟨[], a, E2, rfl, rfl, h2⟩
  | cons x L1 ih =>
    intro ents L2 k v hL
    cases ents with
    | nil => cases hL
    | cons e ents1 =>
      simp only [List.map_cons, List.cons_append, List.cons.injEq] at hL
      obtain ⟨E1, a, E2, h1, h2, h3⟩ := ih hL.2
      refine ⟨e :: E1, a, E2, ?_, ?_, h3⟩
      · rw [h1]; rfl
      · rw [List.map_cons, hL.1, h2]

theorem ents_mem {ents : List (Nat × K × V)} {k : K} {v : V}
    (hm : (k, v) ∈ ents.map (fun e => e.2)) : ∃ a, (a, k, v) ∈ ents := by
  obtain ⟨e, he, h2⟩ := List.mem_map.1 hm
  obtain ⟨a, k1, v1⟩ := e
  simp only [Prod.mk.injEq] at h2
  obtain ⟨rfl, rfl⟩ := h2
  exact ⟨a, he⟩

theorem OMRep_len [Comparable K] {h : Heap (Pair K V)} {m : OrderedMap K} {L : List (K × V)}
    (hrep : OMRep h m L) : m.Len = (L.length : Int) := by
  obtain ⟨s, ents, _, hL, _, _, hperm⟩ := hrep
  unfold OrderedMap.Len
  rw [hperm.length_eq, ← hL]
  simp

theorem OMRep_get_mem [Comparable K] (hlaw : EqIsIdentity K) [Inhabited V] {h : Heap (Pair K V)} {m : OrderedMap K}
    {L : List (K × V)} (hrep : OMRep h m L) {k : K} {v : V} (hm : (k, v) ∈ L) :
    OrderedMap.Get h m k = some (v, true) := by
  obtain ⟨s, ents, _, hL, hvals, hnd, hperm⟩ := hrep
  subst hL
  obtain ⟨a, ha⟩ := ents_mem hm
  obtain ⟨E, hE, _, hv⟩ := hvals _ ha
  simp [OrderedMap.Get, rep_lookup hlaw hnd hperm ha, Heap.getE, hE]
  exact hv

theorem OMRep_get_absent [Comparable K] (hlaw : EqIsIdentity K) [Inhabited V] {h : Heap (Pair K V)}
    {m : OrderedMap K} {L : List (K × V)} (hrep : OMRep h m L) {k : K}
    (hk : k ∉ L.map Prod.fst) : OrderedMap.Get h m k = some (default, false) := by
  obtain ⟨s, ents, _, hL, _, _, hperm⟩ := hrep
  subst hL
  simp [OrderedMap.Get, rep_lookup_none hlaw hperm hk]

theorem OMRep_insert_new [Comparable K] (hlaw : EqIsIdentity K) {h : Heap (Pair K V)} {m : OrderedMap K}
    {L : List (K × V)} (hrep : OMRep h m L) {k : K} (hk : k ∉ L.map Prod.fst) (v : V) :
    ∃ h1 m1, OrderedMap.Insert h m k v = some (h1, m1) ∧ OMRep h1 m1 (L ++ [(k, v)]) := by
  obtain ⟨s, ents, hlr, hL, hvals, hnd, hperm⟩ := hrep
  subst hL
  have hlk := rep_lookup_none hlaw hperm hk
  obtain ⟨h1, e, hlr1, hvl, hfm⟩ := hlr.pushBack { Key := k, Value := v }
  refine ⟨h1, { m with mp := mapSet m.mp k (some h.freeElem) }, ?_, s,
    ents ++ [(h.freeElem, k, v)], ?_, ?_, ?_, ?_, ?_⟩
  · simp [OrderedMap.Insert, OrderedMap.Has, hlk, e]
  · rw [List.map_append]; exact hlr1
  · rw [List.map_append]; rfl
  · intro x hx
    rcases List.mem_append.1 hx with h2 | h2
    · refine vals_transfer ?_ (hvals x h2)
      rw [hvl, if_neg]
      rintro h3
      exact hfm (h3 ▸ List.mem_cons_of_mem _ (List.mem_map.2 ⟨x, h2, rfl⟩))
    · rw [List.mem_singleton] at h2
      subst h2
      have h4 := hvl h.freeElem
      rw [if_pos rfl] at h4
      unfold Heap.valOf at h4
      cases e4 : h1.elems h.freeElem with
      | none => rw [e4] at h4; cases h4
      | some E1 =>
        rw [e4] at h4
        have h5 : E1.Value = { Key := k, Value := v } := by injection h4
        exact ⟨E1, rfl, by rw [h5], by rw [h5]⟩
  · rw [List.map_append, List.nodup_append]
    refine ⟨hnd, List.nodup_singleton _, ?_⟩
    intro x hx hx2
    simp only [List.map_cons, List.map_nil, List.mem_singleton] at hx2
    exact hk (hx2 ▸ hx)
  · unfold mapSet
    simp only [hlk, Option.isSome_none, Bool.false_eq_true, if_false, List.map_append,
      List.map_cons, List.map_nil]
    exact hperm.append_right _

theorem OMRep_insert_existing [Comparable K] (hlaw : EqIsIdentity K) {h : Heap (Pair K V)} {m : OrderedMap K}
    {L1 L2 : List (K × V)} {k : K} {v0 : V} (hrep : OMRep h m (L1 ++ (k, v0) :: L2)) (v : V) :
    ∃ h1 m1, OrderedMap.Insert h m k v = some (h1, m1) ∧ OMRep h1 m1 (L1 ++ (k, v) :: L2) ∧
      m1.Len = m.Len := by
  obtain ⟨s, ents, hlr, hL, hvals, hnd, hperm⟩ := hrep
  obtain ⟨E1, a, E2, rfl, rfl, rfl⟩ := ents_split L1 hL
  rw [← hL] at hnd
  have hmem : (a, k, v0) ∈ E1 ++ (a, k, v0) :: E2 :=
    List.mem_append_right _ (List.mem_cons_self _ _)
  have hlk := rep_lookup hlaw hnd hperm hmem
  obtain ⟨E, hE, _, _⟩ := hvals _ hmem
  refine ⟨h.putE a { E with Value := { Key := k, Value := v } }, m, ?_, ⟨s,
    E1 ++ (a, k, v) :: E2, ?_, ?_, ?_, ?_, ?_⟩, rfl⟩
  · simp [OrderedMap.Insert, OrderedMap.Has, hlk, Heap.modE_some h a E _ hE]
  · have := hlr.putValue hE { Key := k, Value := v }
    simpa using this
  · simp
  · have hndA := (List.nodup_cons.1 hlr.nodup).2
    simp only [List.map_append, List.map_cons] at hndA
    rw [List.nodup_append] at hndA
    intro x hx
    have hcase : x = (a, k, v) ∨ (x ∈ E1 ++ (a, k, v0) :: E2 ∧ x.1 ≠ a) := by
      rcases List.mem_append.1 hx with h2 | h2
      · right
        refine ⟨List.mem_append_left _ h2, ?_⟩
        intro h3
        exact hndA.2.2 (List.mem_map.2 ⟨x, h2, h3⟩) (List.mem_cons_self _ _)
      · rcases List.mem_cons.1 h2 with h3 | h3
        · exact Or.inl h3
        · right
          refine ⟨List.mem_append_right _ (List.mem_cons_of_mem _ h3), ?_⟩
          intro h4
          exact (List.nodup_cons.1 hndA.2.1).1 (List.mem_map.2 ⟨x, h3, h4⟩)
    rcases hcase with rfl | ⟨h2, h3⟩
    · exact ⟨_, by rw [Heap.putE_elems, if_pos rfl], rfl, rfl⟩
    · obtain ⟨E0, hE0, hk0, hv0⟩ := hvals x h2
      exact ⟨E0, by rw [Heap.putE_elems, if_neg h3]; exact hE0, hk0, hv0⟩
  · simpa using hnd
  · simpa using hperm

theorem OMRep_remove [Comparable K] (hlaw : EqIsIdentity K) [Inhabited V] {h : Heap (Pair K V)} {m : OrderedMap K}
    {L1 L2 : List (K × V)} {k : K} {v0 : V} (hrep : OMRep h m (L1 ++ (k, v0) :: L2)) :
    ∃ h1 m1, OrderedMap.Remove h m k = some (h1, m1, v0, true) ∧ OMRep h1 m1 (L1 ++ L2) := by
  obtain ⟨s, ents, hlr, hL, hvals, hnd, hperm⟩ := hrep
  obtain ⟨E1, a, E2, rfl, rfl, rfl⟩ := ents_split L1 hL
  rw [← hL] at hnd
  have hmem : (a, k, v0) ∈ E1 ++ (a, k, v0) :: E2 :=
    List.mem_append_right _ (List.mem_cons_self _ _)
  have hlk := rep_lookup hlaw hnd hperm hmem
  obtain ⟨h1, p, e, _, ⟨E, hE, _, hEv⟩, hrep1⟩ := rep_removeAt hlaw hlr hvals hnd hperm
  refine ⟨h1, _, ?_, by rw [← List.map_append]; exact hrep1⟩
  simp [OrderedMap.Remove, OrderedMap.Has, hlk, e, Heap.getE, hE, hEv]

theorem OMRep_remove_absent [Comparable K] (hlaw : EqIsIdentity K) [Inhabited V] {h : Heap (Pair K V)}
    {m : OrderedMap K} {L : List (K × V)} (hrep : OMRep h m L) {k : K}
    (hk : k ∉ L.map Prod.fst) : OrderedMap.Remove h m k = some (h, m, default, false) := by
  obtain ⟨s, ents, _, hL, _, _, hperm⟩ := hrep
  subst hL
  simp [OrderedMap.Remove, OrderedMap.Has, rep_lookup_none hlaw hperm hk]

theorem OMRep_popFront [Comparable K] (hlaw : EqIsIdentity K) [Inhabited K] [Inhabited V] {h : Heap (Pair K V)}
    {m : OrderedMap K} {k0 : K} {v0 : V} {rest : List (K × V)}
    (hrep : OMRep h m ((k0, v0) :: rest)) :
    ∃ h1 m1, OrderedMap.PopFront h m = some (h1, m1, k0, v0, true) ∧ OMRep h1 m1 rest := by
  obtain ⟨s, ents, hlr, hL, hvals, hnd, hperm⟩ := hrep
  obtain ⟨E1, a, E2, rfl, h1e, rfl⟩ := ents_split [] hL
  rw [List.map_eq_nil_iff] at h1e
  subst h1e
  rw [← hL] at hnd
  have hf := hlr.front
  obtain ⟨h1, p, e, ⟨E, hE, hEk, hEv⟩, _, hrep1⟩ := rep_removeAt hlaw hlr hvals hnd hperm
  refine ⟨h1, _, ?_, hrep1⟩
  simp at hf
  simp [OrderedMap.PopFront, hf, e, Heap.getE, hE, hEk, hEv]

theorem OMRep_popBack [Comparable K] (hlaw : EqIsIdentity K) [Inhabited K] [Inhabited V] {h : Heap (Pair K V)}
    {m : OrderedMap K} {k0 : K} {v0 : V} {rest : List (K × V)}
    (hrep : OMRep h m (rest ++ [(k0, v0)])) :
    ∃ h1 m1, OrderedMap.PopBack h m = some (h1, m1, k0, v0, true) ∧ OMRep h1 m1 rest := by
  obtain ⟨s, ents, hlr, hL, hvals, hnd, hperm⟩ := hrep
  obtain ⟨E1, a, E2, rfl, rfl, h2e⟩ := ents_split rest hL
  rw [List.map_eq_nil_iff] at h2e
  subst h2e
  rw [← hL] at hnd
  have hf := hlr.back
  obtain ⟨h1, p, e, ⟨E, hE, hEk, hEv⟩, _, hrep1⟩ := rep_removeAt hlaw hlr hvals hnd hperm
  refine ⟨h1, _, ?_, by simpa using hrep1⟩
  simp at hf
  simp [OrderedMap.PopBack, hf, e, Heap.getE, hE, hEk, hEv]

theorem OMRep_pop_empty [Comparable K] [Inhabited K] [Inhabited V] {h : Heap (Pair K V)}
    {m : OrderedMap K} (hrep : OMRep h m []) :
    OrderedMap.PopFront h m = some (h, m, default, default, false) ∧
      OrderedMap.PopBack h m = some (h, m, default, default, false) := by
  obtain ⟨s, ents, hlr, hL, _, _, _⟩ := hrep
  rw [List.map_eq_nil_iff] at hL
  subst hL
  have hf := hlr.front
  have hb := hlr.back
  simp at hf hb
  simp [OrderedMap.PopFront, OrderedMap.PopBack, hf, hb]

/-- NewOrderedMap yields the empty map, whatever the memory was. -/
theorem NewOrderedMap_rep [Inhabited K] [Inhabited V] (h : Heap (Pair K V)) :
    ∃ h1 m, NewOrderedMap h = some (h1, m) ∧ OMRep h1 m [] := by
  obtain ⟨h1, e, hlr⟩ := NewList_rep h
  refine ⟨h1, { mp := [], list := h.freeList }, ?_, h.freeElem, [], hlr, rfl, ?_, ?_, ?_⟩
  · simp [NewOrderedMap, e]
  · intro x hx; cases hx
  · simp
  · simp

end omops

/-! ## The list after `Clear` -/

/-- C24. List operations do not ignore the elements taken out by Clear. In the
list built by `PushBack(1)`, `PushBack(2)` and then cleared, `Len()` is 0 and no
element is reached from `Front()`; `InsertAfter(4, e1)` with the former first
element `e1` as mark then makes `Len()` 1, while still no element is reached from
`Front()`: `Clear` leaves `e1.list == l`, so the call is not ignored. -/
theorem C24_clear_leaves_stale_members :
    (do
      let (h1, l) ← NewList (Heap.empty : Heap Int)
      let (h2, e1) ← LinkedList.PushBack h1 l 1
      let (h3, _) ← LinkedList.PushBack h2 l 2
      let h4 ← LinkedList.Clear h3 l
      let n0 ← LinkedList.Len h4 l
      let s0 ← LinkedList.elements h4 l 10
      let (h5, _) ← LinkedList.InsertAfter h4 l 4 e1
      let n1 ← LinkedList.Len h5 l
      let s1 ← LinkedList.elements h5 l 10
      some (n0, s0, n1, s1)) = some (0, [], 1, []) := by
  decide

/-! ## The ordered map against its list of entries -/

theorem EqIsIdentity_Int : EqIsIdentity Int := by
  intro a b
  show decide (a = b) = true ↔ a = b
  simp

theorem OMRep_listLen {K V : Type} {h : Heap (Pair K V)} {m : OrderedMap K} {L : List (K × V)}
    (hrep : OMRep h m L) : LinkedList.Len h m.list = some (L.length : Int) := by
  obtain ⟨s, ents, hlr, hL, _, _, _⟩ := hrep
  have hl := hlr.hl
  simp only [LinkedList.Len, Heap.getL, hl, Option.bind_eq_bind, Option.some_bind]
  rw [← hL]
  simp

theorem C21_has_mustGet_witness :
    ((AVLTree.mk tree12345 CmpLess).Get 3).2 = true ∧
    (AVLTree.mk tree12345 CmpLess).MustGet 3 = ((AVLTree.mk tree12345 CmpLess).Get 3).1 :=
  ⟨by decide, (C21_has_mustGet (AVLTree.mk tree12345 CmpLess) 3).2.1 (by decide)⟩

theorem C25_arrayDeque_witness :
    (ArrayDeque.mk [1] [2] : ArrayDeque Int).seq ≠ [] ∧
    ((∃ y d1, (ArrayDeque.mk [1] [2] : ArrayDeque Int).PopFront = some (y, d1) ∧
        (ArrayDeque.mk [1] [2] : ArrayDeque Int).seq = y :: d1.seq) ∧
      (∃ y d1, (ArrayDeque.mk [1] [2] : ArrayDeque Int).PopBack = some (y, d1) ∧
        (ArrayDeque.mk [1] [2] : ArrayDeque Int).seq = d1.seq ++ [y])) :=
  ⟨by decide, (C25_arrayDeque (ArrayDeque.mk [1] [2] : ArrayDeque Int) 0).2.2.2.2.2.1
    (by decide)⟩

theorem C27_vector_witness :
    (0 : Int) ≤ 1 ∧ (1 : Int) ≤ Vector.Len ([1, 2, 3] : List Int) ∧
    Vector.Insert ([1, 2, 3] : List Int) 1 9 = some ([1, 9, 2, 3] : List Int) ∧
    (Vector.Insert ([1, 2, 3] : List Int) 1 9).bind (fun v => Vector.Remove v 1)
      = some (9, ([1, 2, 3] : List Int)) :=
  ⟨by decide, by decide,
    (C27_vector ([1, 2, 3] : List Int) 1 9).1 (by decide) (by decide)⟩

theorem C28_fix_once_witness :
    (node (3 : Int) (0 : Int) (node 2 0 (node 1 0 nil nil 1 1) nil 2 2) nil 3 3).CachesOK ∧
    (node (2 : Int) (0 : Int) (node 1 0 nil nil 1 1) nil 2 2).Balanced ∧
    (node (3 : Int) (0 : Int) (node 2 0 (node 1 0 nil nil 1 1) nil 2 2) nil 3 3).Bal = 2 ∧
    ∃ t, fix (node (3 : Int) (0 : Int) (node 2 0 (node 1 0 nil nil 1 1) nil 2 2) nil 3 3)
        = some t ∧ t.Balanced ∧ t.CachesOK ∧
      t.toList = (node (3 : Int) (0 : Int) (node 2 0 (node 1 0 nil nil 1 1) nil 2 2) nil 3 3).toList :=
  ⟨by decide, by decide, by decide,
    C28_fix_once (3 : Int) (0 : Int) (node 2 0 (node 1 0 nil nil 1 1) nil 2 2) nil 3 3
      (by decide) (by decide) (by decide) (Or.inl (by decide))⟩

theorem C29_rotateLeft_witness :
    (nil : avlNode Int Int).CachesOK ∧ (node (3 : Int) (0 : Int) nil nil 1 1).CachesOK ∧
    ∃ s1 h1 s2 h2,
      rotateLeft (node (1 : Int) (0 : Int) nil (node 2 0 nil (node 3 0 nil nil 1 1) 2 2) 3 3) =
        some (node 2 0 (node 1 0 nil nil s1 h1) (node 3 0 nil nil 1 1) s2 h2) ∧
      (node (2 : Int) (0 : Int) (node 1 0 nil nil s1 h1) (node 3 0 nil nil 1 1) s2 h2).CachesOK :=
  ⟨by decide, by decide,
    match C29_rotateLeft (1 : Int) (0 : Int) nil 3 3 2 0 nil (node 3 0 nil nil 1 1) 2 2
      (by decide) (by decide) (by decide) with
    | ⟨s1, h1, s2, h2, e, _, _, _, _, hc, _⟩ => ⟨s1, h1, s2, h2, e, hc⟩⟩

theorem C30_rotate_inverse_witness :
    tree12345.CachesOK ∧
    (rotateLeft tree12345).bind rotateRight = some tree12345 ∧
    (rotateRight tree12345).bind rotateLeft = some tree12345 :=
  ⟨by decide,
    (C30_rotate_inverse (3 : Int) (0 : Int) (node 2 0 (node 1 0 nil nil 1 1) nil 2 2)
      (node 4 0 nil (node 5 0 nil nil 1 1) 2 2) 5 3 (by decide)).1 (by simp),
    (C30_rotate_inverse (3 : Int) (0 : Int) (node 2 0 (node 1 0 nil nil 1 1) nil 2 2)
      (node 4 0 nil (node 5 0 nil nil 1 1) 2 2) 5 3 (by decide)).2 (by simp)⟩

/-! ## `fix` on a balanced node, and `remove` at a node with at most one child -/

/-- C31. `fix` is the identity on balanced nodes. For every node whose balance
factor, the cached height of the left child minus that of the right child, lies
in `[-1, 1]`, `fix(node)` returns that same node: no rotation, and no change to
any link, key, value or cached field. -/
theorem C31_fix_identity (k : K) (v : V) (l r : avlNode K V) (s h : Int)
    (hb : -1 ≤ l.Height - r.Height ∧ l.Height - r.Height ≤ 1) :
    (node k v l r s h).Bal = l.Height - r.Height ∧
    fix (node k v l r s h) = some (node k v l r s h) := by
  refine ⟨rfl, ?_⟩
  rw [fix_node, if_pos hb]

/-- C33. Removal of a node with at most one child. When the key of the root of
the subtree compares equal to the requested key, `remove` returns the empty
subtree if the root has no children, exactly the right subtree if the root has
no left child, and exactly the left subtree if it has no right child: the
returned subtree is the child itself, to which no `Maintain` or `fix` is applied. -/
theorem C33_remove_one_child (cmp : K → K → Int) (k : K) (v : V) (l r : avlNode K V)
    (s h : Int) (key : K) (h0 : cmp k key = 0) :
    remove cmp (node k v nil nil s h) key = some nil ∧
    remove cmp (node k v nil r s h) key = some r ∧
    remove cmp (node k v l nil s h) key = some l := by
  refine ⟨?_, ?_, ?_⟩
  · rw [remove_node, if_pos h0]
  · rw [remove_node, if_pos h0]
    cases r <;> rfl
  · rw [remove_node, if_pos h0]
    cases l <;> rfl

/-! ## The height moves by at most one -/

/-- C36. The height changes by at most one per operation. For every tree with
correct caches that is balanced at every node, of height `h`, and any comparator:
`Insert(k, v)` returns a tree of height `h` or `h + 1` and `Remove(k)` a tree of
height `h` or `h - 1`, in the cached and in the true height; so a parent that was
balanced over this tree and a sibling has, once maintained over the new tree, a
balance factor in `[-2, 2]`. -/
theorem C36_height_step (t : AVLTree K V) (hca : t.root.CachesOK) (hbal : t.root.Balanced)
    (key : K) (value : V) :
    (∃ t1, t.Insert key value = some t1 ∧
      (t1.root.trueHeight = t.root.trueHeight ∨ t1.root.trueHeight = t.root.trueHeight + 1) ∧
      (t1.root.Height = t.root.Height ∨ t1.root.Height = t.root.Height + 1) ∧
      ∀ (pk : K) (pv : V) (sib : avlNode K V) (ps ph : Int),
        ((-1 ≤ (node pk pv t.root sib ps ph).Bal ∧ (node pk pv t.root sib ps ph).Bal ≤ 1) →
          -2 ≤ (Maintain (node pk pv t1.root sib ps ph)).Bal ∧
            (Maintain (node pk pv t1.root sib ps ph)).Bal ≤ 2) ∧
        ((-1 ≤ (node pk pv sib t.root ps ph).Bal ∧ (node pk pv sib t.root ps ph).Bal ≤ 1) →
          -2 ≤ (Maintain (node pk pv sib t1.root ps ph)).Bal ∧
            (Maintain (node pk pv sib t1.root ps ph)).Bal ≤ 2)) ∧
    (∃ t1, t.Remove key = some t1 ∧
      (t1.root.trueHeight = t.root.trueHeight ∨ t1.root.trueHeight + 1 = t.root.trueHeight) ∧
      (t1.root.Height = t.root.Height ∨ t1.root.Height = t.root.Height - 1) ∧
      ∀ (pk : K) (pv : V) (sib : avlNode K V) (ps ph : Int),
        ((-1 ≤ (node pk pv t.root sib ps ph).Bal ∧ (node pk pv t.root sib ps ph).Bal ≤ 1) →
          -2 ≤ (Maintain (node pk pv t1.root sib ps ph)).Bal ∧
            (Maintain (node pk pv t1.root sib ps ph)).Bal ≤ 2) ∧
        ((-1 ≤ (node pk pv sib t.root ps ph).Bal ∧ (node pk pv sib t.root ps ph).Bal ≤ 1) →
          -2 ≤ (Maintain (node pk pv sib t1.root ps ph)).Bal ∧
            (Maintain (node pk pv sib t1.root ps ph)).Bal ≤ 2)) := by
  have hH := Height_eq_of_CachesOK hca
  constructor
  · obtain ⟨r1, e, hc1, _, hh⟩ := insert_inv t.cmp key value t.root hca hbal
    have hH1 := Height_eq_of_CachesOK hc1
    have hcached : r1.Height = t.root.Height ∨ r1.Height = t.root.Height + 1 := by
      rw [hH, hH1]
      rcases hh with h1 | h1
      · left; rw [h1]
      · right; rw [h1]; push_cast; ring
    refine ⟨{ t with root := r1 }, by simp only [AVLTree.Insert, e], hh, hcached, ?_⟩
    intro pk pv sib ps ph
    simp only [Maintain_node, Bal_node]
    constructor <;> intro hb <;> constructor <;> omega
  · obtain ⟨r1, e, hc1, _, hh⟩ := remove_inv t.cmp t.root key hca hbal
    have hH1 := Height_eq_of_CachesOK hc1
    have hcached : r1.Height = t.root.Height ∨ r1.Height = t.root.Height - 1 := by
      rw [hH, hH1]
      rcases hh with h1 | h1
      · left; rw [h1]
      · right; rw [← h1]; push_cast; ring
    refine ⟨{ t with root := r1 }, by simp only [AVLTree.Remove, e], hh, hcached, ?_⟩
    intro pk pv sib ps ph
    simp only [Maintain_node, Bal_node]
    constructor <;> intro hb <;> constructor <;> omega

/-! ## The height is logarithmic in the size -/

theorem fib_le_trueSize : ∀ t : avlNode K V, t.Balanced →
    Nat.fib (t.trueHeight + 2) ≤ t.trueSize + 1 := by
  intro t
  induction t with
  | nil => intro _; simp [trueHeight, trueSize]
  | node k v l r s h ihl ihr =>
    intro hb
    obtain ⟨hbl, hbr, hd⟩ := hb
    have h1 := ihl hbl
    have h2 := ihr hbr
    simp only [trueHeight, trueSize]
    rcases Nat.le_total l.trueHeight r.trueHeight with hle | hle
    · have hm : Max.max l.trueHeight r.trueHeight = r.trueHeight := Nat.max_eq_right hle
      have e : 1 + r.trueHeight + 2 = r.trueHeight + 1 + 2 := by omega
      have hmono : Nat.fib (r.trueHeight + 1) ≤ Nat.fib (l.trueHeight + 2) :=
        Nat.fib_mono (by omega)
      rw [hm, e, Nat.fib_add_two]
      have e2 : r.trueHeight + 1 + 1 = r.trueHeight + 2 := by omega
      rw [e2]
      omega
    · have hm : Max.max l.trueHeight r.trueHeight = l.trueHeight := Nat.max_eq_left hle
      have e : 1 + l.trueHeight + 2 = l.trueHeight + 1 + 2 := by omega
      have hmono : Nat.fib (l.trueHeight + 1) ≤ Nat.fib (r.trueHeight + 2) :=
        Nat.fib_mono (by omega)
      rw [hm, e, Nat.fib_add_two]
      have e2 : l.trueHeight + 1 + 1 = l.trueHeight + 2 := by omega
      rw [e2]
      omega

theorem trueSize_lt_two_pow : ∀ t : avlNode K V, t.trueSize + 1 ≤ 2 ^ t.trueHeight := by
  intro t
  induction t with
  | nil => simp [trueHeight, trueSize]
  | node k v l r s h ihl ihr =>
    simp only [trueHeight, trueSize]
    have h1 : 2 ^ l.trueHeight ≤ 2 ^ Max.max l.trueHeight r.trueHeight :=
      Nat.pow_le_pow_right (by omega) (Nat.le_max_left _ _)
    have h2 : 2 ^ r.trueHeight ≤ 2 ^ Max.max l.trueHeight r.trueHeight :=
      Nat.pow_le_pow_right (by omega) (Nat.le_max_right _ _)
    have e : 2 ^ (1 + Max.max l.trueHeight r.trueHeight)
        = 2 * 2 ^ Max.max l.trueHeight r.trueHeight := by
      rw [Nat.add_comm, Nat.pow_succ, Nat.mul_comm]
    rw [e]
    omega

theorem height_size_bounds {r : avlNode K V} {cmp : K → K → Int} (hca : r.CachesOK)
    (hbal : r.Balanced) :
    r.Height = (r.trueHeight : Int) ∧
      (Nat.fib (r.trueHeight + 2) : Int) - 1 ≤ (AVLTree.mk r cmp).Len ∧
      (AVLTree.mk r cmp).Len ≤ 2 ^ r.trueHeight - 1 := by
  have h1 := fib_le_trueSize r hbal
  have h2 := trueSize_lt_two_pow r
  have hs : (AVLTree.mk r cmp).Len = (r.trueSize : Int) := Size_eq_of_CachesOK hca
  refine ⟨Height_eq_of_CachesOK hca, ?_, ?_⟩
  · rw [hs]
    have : (Nat.fib (r.trueHeight + 2) : Int) ≤ (r.trueSize : Int) + 1 := by exact_mod_cast h1
    omega
  · rw [hs]
    have : (r.trueSize : Int) + 1 ≤ 2 ^ r.trueHeight := by exact_mod_cast h2
    omega

/-- C37. The height is logarithmic in the size. Every tree that is balanced at
every node and has correct caches, with `n = Len()` entries and root height `h`
(the cached height, which is the true one: leaf 1, empty 0), satisfies
`fib(h + 2) - 1 <= n <= 2^h - 1`; and so does every tree that a sequence of
`Insert`, `Remove` and `Clear` calls reaches from it, in particular from the
empty tree. -/
theorem C37_height_logarithmic (t : AVLTree K V) (hca : t.root.CachesOK)
    (hbal : t.root.Balanced) :
    (∃ h : Nat, t.root.Height = (h : Int) ∧ h = t.root.trueHeight ∧
      (Nat.fib (h + 2) : Int) - 1 ≤ t.Len ∧ t.Len ≤ 2 ^ h - 1) ∧
    (∀ ops : List (Op K V), ∃ t1 : AVLTree K V, runOps t ops = some t1 ∧
      ∃ h : Nat, t1.root.Height = (h : Int) ∧ h = t1.root.trueHeight ∧
        (Nat.fib (h + 2) : Int) - 1 ≤ t1.Len ∧ t1.Len ≤ 2 ^ h - 1) := by
  constructor
  · obtain ⟨h1, h2, h3⟩ := @height_size_bounds K V t.root t.cmp hca hbal
    exact ⟨t.root.trueHeight, h1, rfl, h2, h3⟩
  · intro ops
    obtain ⟨t1, e, _, hc1, hb1⟩ := runOps_inv ops t hca hbal
    obtain ⟨h1, h2, h3⟩ := @height_size_bounds K V t1.root t1.cmp hc1 hb1
    exact ⟨t1, e, t1.root.trueHeight, h1, rfl, h2, h3⟩

/-! ## No rotation or successor step meets a missing node -/

theorem Height_eq_of_HeightsOK {t : avlNode K V} (h : HeightsOK t) :
    t.Height = (t.trueHeight : Int) := by
  cases t with
  | nil => simp [Height, trueHeight]
  | node k v l r s ht =>
      obtain ⟨_, _, h1⟩ := h
      simp only [Height_node, trueHeight, h1]
      omega

theorem HeightsOK_of_CachesOK : ∀ {t : avlNode K V}, CachesOK t → HeightsOK t := by
  intro t
  induction t with
  | nil => intro _; trivial
  | node k v l r s h ihl ihr =>
    intro hc
    exact ⟨ihl hc.1, ihr hc.2.1, hc.2.2.1⟩

/-- After `Maintain`, a node over children with correct cached heights has
correct cached heights. -/
theorem HeightsOK_Maintain {k : K} {v : V} {l r : avlNode K V} {s h : Int}
    (hl : HeightsOK l) (hr : HeightsOK r) : HeightsOK (Maintain (node k v l r s h)) := by
  rw [Maintain_node]
  refine ⟨hl, hr, ?_⟩
  rw [Height_eq_of_HeightsOK hl, Height_eq_of_HeightsOK hr, max_eq]

theorem rotateLeft_eq_none_iff (k : K) (v : V) (l r : avlNode K V) (s h : Int) :
    rotateLeft (node k v l r s h) = none ↔ r = nil := by
  cases r with
  | nil => exact ⟨fun _ => rfl, fun _ => rfl⟩
  | node rk rv rl rr rs rh =>
    rw [rotateLeft_node]
    exact ⟨fun e => (by cases e), fun e => (by cases e)⟩

theorem rotateRight_eq_none_iff (k : K) (v : V) (l r : avlNode K V) (s h : Int) :
    rotateRight (node k v l r s h) = none ↔ l = nil := by
  cases l with
  | nil => exact ⟨fun _ => rfl, fun _ => rfl⟩
  | node lk lv ll lr ls lh =>
    rw [rotateRight_node]
    exact ⟨fun e => (by cases e), fun e => (by cases e)⟩

theorem successor_eq_none_iff (k : K) (v : V) (l r : avlNode K V) (s h : Int) :
    successor (node k v l r s h) = none ↔ r = nil := by
  cases r with
  | nil => exact ⟨fun _ => rfl, fun _ => rfl⟩
  | node rk rv rl rr rs rh =>
    obtain ⟨nk, nv, nr, ns, nh, e⟩ := successorLoop_some rk rv rl rr rs rh
    have e1 : successor (node k v l (node rk rv rl rr rs rh) s h)
        = successorLoop (node rk rv rl rr rs rh) := rfl
    rw [e1, e]
    exact ⟨fun e => (by cases e), fun e => (by cases e)⟩

/-- The children that the rotations of `fix` dereference are present when the
cached heights are correct. -/
theorem fix_children_present (l r : avlNode K V)
    (hl : l.HeightsOK) (hr : r.HeightsOK) :
    (l.Height - r.Height > 1 → l ≠ nil ∧
      (l.Bal < 0 → ∀ lk lv ll lr ls lh, l = node lk lv ll lr ls lh → lr ≠ nil)) ∧
    (¬ (-1 ≤ l.Height - r.Height) → r ≠ nil ∧
      (r.Bal > 0 → ∀ rk rv rl rr rs rh, r = node rk rv rl rr rs rh → rl ≠ nil)) := by
  have hHl := Height_eq_of_HeightsOK hl
  have hHr := Height_eq_of_HeightsOK hr
  constructor
  · intro hb
    constructor
    · rintro rfl
      simp only [Height_nil] at hb
      omega
    · intro hlb lk lv ll lr ls lh e
      subst e
      rintro rfl
      rw [Bal_node, Height_nil, Height_eq_of_HeightsOK hl.1] at hlb
      omega
  · intro hb
    constructor
    · rintro rfl
      simp only [Height_nil] at hb
      omega
    · intro hrb rk rv rl rr rs rh e
      subst e
      rintro rfl
      rw [Bal_node, Height_nil, Height_eq_of_HeightsOK hr.2.1] at hrb
      omega

/-- `fix` returns on every node with correct cached heights, balanced or not. -/
theorem fix_some_of_HeightsOK (n : avlNode K V) (hn : n.HeightsOK) :
    ∃ t, fix n = some t ∧ t.HeightsOK := by
  cases n with
  | nil => exact ⟨nil, rfl, trivial⟩
  | node k v l r s h =>
    obtain ⟨hl, hr, _⟩ := hn
    obtain ⟨hL, hR⟩ := fix_children_present l r hl hr
    rw [fix_node]
    by_cases hb : -1 ≤ l.Height - r.Height ∧ l.Height - r.Height ≤ 1
    · rw [if_pos hb]
      exact ⟨_, rfl, hl, hr, by assumption⟩
    · rw [if_neg hb]
      by_cases hgt : l.Height - r.Height > 1
      · rw [if_pos hgt]
        obtain ⟨hlne, hlr⟩ := hL hgt
        cases l with
        | nil => exact absurd rfl hlne
        | node lk lv ll lr ls lh =>
          by_cases hlb : (node lk lv ll lr ls lh).Bal < 0
          · rw [if_pos hlb]
            have hlrne := hlr hlb lk lv ll lr ls lh rfl
            cases lr with
            | nil => exact absurd rfl hlrne
            | node ak av al ar as ah =>
              rw [rotateLeft_node]
              simp only []
              rw [Maintain_node ak av, rotateRight_node]
              refine ⟨_, rfl, ?_⟩
              exact HeightsOK_Maintain (HeightsOK_Maintain hl.1 hl.2.1.1)
                (HeightsOK_Maintain hl.2.1.2.1 hr)
          · rw [if_neg hlb, rotateRight_node]
            exact ⟨_, rfl, HeightsOK_Maintain hl.1 (HeightsOK_Maintain hl.2.1 hr)⟩
      · rw [if_neg hgt]
        obtain ⟨hrne, hrl⟩ := hR (by omega)
        cases r with
        | nil => exact absurd rfl hrne
        | node rk rv rl rr rs rh =>
          by_cases hrb : (node rk rv rl rr rs rh).Bal > 0
          · rw [if_pos hrb]
            have hrlne := hrl hrb rk rv rl rr rs rh rfl
            cases rl with
            | nil => exact absurd rfl hrlne
            | node ak av al ar as ah =>
              rw [rotateRight_node]
              simp only []
              rw [Maintain_node ak av, rotateLeft_node]
              refine ⟨_, rfl, ?_⟩
              exact HeightsOK_Maintain (HeightsOK_Maintain hl hr.1.1)
                (HeightsOK_Maintain hr.1.2.1 hr.2.1)
          · rw [if_neg hrb, rotateLeft_node]
            exact ⟨_, rfl, HeightsOK_Maintain (HeightsOK_Maintain hl hr.1) hr.2.1⟩

/-- `insert` returns on every tree with correct cached heights, for any comparator. -/
theorem insert_some_of_HeightsOK (cmp : K → K → Int) (key : K) (value : V) :
    ∀ t : avlNode K V, t.HeightsOK →
      ∃ t1, insert cmp t key value = some t1 ∧ t1.HeightsOK := by
  intro t
  induction t with
  | nil =>
    intro _
    refine ⟨node key value nil nil 1 1, rfl, trivial, trivial, ?_⟩
    simp [trueHeight]
  | node k v l r s h ihl ihr =>
    intro hn
    obtain ⟨hl, hr, hh⟩ := hn
    rw [insert]
    by_cases h0 : cmp k key = 0
    · rw [if_pos h0]
      exact ⟨_, rfl, hl, hr, hh⟩
    · rw [if_neg h0]
      by_cases h1 : cmp k key > 0
      · rw [if_pos h1]
        obtain ⟨l1, e, hl1⟩ := ihl hl
        rw [e]
        exact fix_some_of_HeightsOK _ (HeightsOK_Maintain hl1 hr)
      · rw [if_neg h1]
        obtain ⟨r1, e, hr1⟩ := ihr hr
        rw [e]
        exact fix_some_of_HeightsOK _ (HeightsOK_Maintain hl hr1)

/-- `remove` returns on every tree with correct cached heights, for any comparator. -/
theorem remove_some_of_HeightsOK (cmp : K → K → Int) :
    ∀ (t : avlNode K V) (key : K), t.HeightsOK →
      ∃ t1, remove cmp t key = some t1 ∧ t1.HeightsOK := by
  intro t
  induction t with
  | nil => intro key _; exact ⟨nil, rfl, trivial⟩
  | node k v l r s h ihl ihr =>
    intro key hn
    obtain ⟨hl, hr, hh⟩ := hn
    rw [remove_node]
    by_cases h0 : cmp k key = 0
    · rw [if_pos h0]
      cases l with
      | nil =>
        cases r with
        | nil => exact ⟨nil, rfl, trivial⟩
        | node rk rv rl rr rs rh => exact ⟨_, rfl, hr⟩
      | node lk lv ll lr ls lh =>
        cases r with
        | nil => exact ⟨_, rfl, hl⟩
        | node rk rv rl rr rs rh =>
          obtain ⟨nk, nv, nr, ns, nh, e⟩ := successorLoop_some rk rv rl rr rs rh
          have e1 : successor (node k v (node lk lv ll lr ls lh) (node rk rv rl rr rs rh) s h)
              = some (node nk nv nil nr ns nh) := e
          simp only [e1]
          obtain ⟨r1, e2, hr1⟩ := ihr nk hr
          rw [e2]
          exact fix_some_of_HeightsOK _ (HeightsOK_Maintain hl hr1)
    · rw [if_neg h0]
      by_cases h1 : cmp k key > 0
      · rw [if_pos h1]
        obtain ⟨l1, e, hl1⟩ := ihl key hl
        rw [e]
        exact fix_some_of_HeightsOK _ (HeightsOK_Maintain hl1 hr)
      · rw [if_neg h1]
        obtain ⟨r1, e, hr1⟩ := ihr key hr
        rw [e]
        exact fix_some_of_HeightsOK _ (HeightsOK_Maintain hl hr1)

/-- C35. No rotation or successor step dereferences a missing node. The
rotations and `successor` fail exactly when the child they dereference is
missing. On every node `n` whose cached heights are correct (as they are in a
well-formed tree): when `fix` takes the left-heavy branch `n.Left` is present,
and `n.Left.Right` is present when the inner left rotation is made; when `fix`
takes the right-heavy branch `n.Right` is present, and `n.Right.Left` is present
when the inner right rotation is made; and `fix(n)`, `insert`, `remove`, `Insert`
and `Remove` return, with correct cached heights again, for any comparator. -/
theorem C35_no_missing_node (cmp : K → K → Int) (n : avlNode K V) (hn : n.HeightsOK)
    (key : K) (value : V) :
    (∀ (k : K) (v : V) (l r : avlNode K V) (s h : Int),
      (rotateRight (node k v l r s h) = none ↔ l = nil) ∧
      (rotateLeft (node k v l r s h) = none ↔ r = nil) ∧
      (successor (node k v l r s h) = none ↔ r = nil)) ∧
    (∀ (k : K) (v : V) (l r : avlNode K V) (s h : Int), n = node k v l r s h →
      (n.Bal > 1 → l ≠ nil ∧
        (l.Bal < 0 → ∀ lk lv ll lr ls lh, l = node lk lv ll lr ls lh → lr ≠ nil)) ∧
      (n.Bal < -1 → r ≠ nil ∧
        (r.Bal > 0 → ∀ rk rv rl rr rs rh, r = node rk rv rl rr rs rh → rl ≠ nil))) ∧
    (∃ t, fix n = some t ∧ t.HeightsOK) ∧
    (∃ t, insert cmp n key value = some t ∧ t.HeightsOK) ∧
    (∃ t, remove cmp n key = some t ∧ t.HeightsOK) ∧
    (∃ t1, (AVLTree.mk n cmp).Insert key value = some t1 ∧ t1.root.HeightsOK) ∧
    (∃ t1, (AVLTree.mk n cmp).Remove key = some t1 ∧ t1.root.HeightsOK) ∧
    (∀ c : K → K → Int, WellFormed c n → n.HeightsOK) := by
  refine ⟨fun k v l r s h => ⟨rotateRight_eq_none_iff k v l r s h,
    rotateLeft_eq_none_iff k v l r s h, successor_eq_none_iff k v l r s h⟩, ?_,
    fix_some_of_HeightsOK n hn, insert_some_of_HeightsOK cmp key value n hn,
    remove_some_of_HeightsOK cmp n key hn, ?_, ?_, fun _ _ => hn⟩
  · intro k v l r s h e
    subst e
    obtain ⟨hL, hR⟩ := fix_children_present l r hn.1 hn.2.1
    rw [Bal_node]
    exact ⟨hL, fun hb => hR (by omega)⟩
  · obtain ⟨t1, e, h1⟩ := insert_some_of_HeightsOK cmp key value n hn
    exact ⟨{ root := t1, cmp := cmp }, by simp only [AVLTree.Insert, e], h1⟩
  · obtain ⟨t1, e, h1⟩ := remove_some_of_HeightsOK cmp n key hn
    exact ⟨{ root := t1, cmp := cmp }, by simp only [AVLTree.Remove, e], h1⟩

/-! ## Termination: a bound above the height is never reached -/

theorem trueHeight_children (k : K) (v : V) (l r : avlNode K V) (s h : Int) {n : Nat}
    (hf : (node k v l r s h).trueHeight < n + 1) : l.trueHeight < n ∧ r.trueHeight < n := by
  simp only [trueHeight] at hf
  omega

theorem insertFuel_eq (cmp : K → K → Int) (key : K) (value : V) :
    ∀ (t : avlNode K V) (fuel : Nat), t.trueHeight < fuel →
      insertFuel cmp fuel t key value = some (insert cmp t key value) := by
  intro t
  induction t with
  | nil =>
    intro fuel hf
    cases fuel with
    | zero => exact absurd hf (Nat.not_lt_zero _)
    | succ n => rfl
  | node k v l r s h ihl ihr =>
    intro fuel hf
    cases fuel with
    | zero => exact absurd hf (Nat.not_lt_zero _)
    | succ n =>
      obtain ⟨h1, h2⟩ := trueHeight_children k v l r s h hf
      simp only [insertFuel, insert]
      split_ifs
      · rfl
      · rw [ihl n h1]
        cases insert cmp l key value <;> rfl
      · rw [ihr n h2]
        cases insert cmp r key value <;> rfl

theorem successorLoopFuel_eq :
    ∀ (t : avlNode K V) (fuel : Nat), t.trueHeight < fuel →
      successorLoopFuel fuel t = some (successorLoop t) := by
  intro t
  induction t with
  | nil =>
    intro fuel hf
    cases fuel with
    | zero => exact absurd hf (Nat.not_lt_zero _)
    | succ n => rfl
  | node k v l r s h ihl _ =>
    intro fuel hf
    cases fuel with
    | zero => exact absurd hf (Nat.not_lt_zero _)
    | succ n =>
      obtain ⟨h1, _⟩ := trueHeight_children k v l r s h hf
      cases l with
      | nil => rfl
      | node lk lv ll lr ls lh =>
        simp only [successorLoopFuel, successorLoop]
        exact ihl n h1

theorem successorFuel_eq (t : avlNode K V) (fuel : Nat) (hf : t.trueHeight < fuel + 1) :
    successorFuel fuel t = some (successor t) := by
  cases t with
  | nil => rfl
  | node k v l r s h =>
    obtain ⟨_, h2⟩ := trueHeight_children k v l r s h hf
    exact successorLoopFuel_eq r fuel h2

theorem removeFuel_eq (cmp : K → K → Int) :
    ∀ (t : avlNode K V) (key : K) (fuel : Nat), t.trueHeight < fuel →
      removeFuel cmp fuel t key = some (remove cmp t key) := by
  intro t
  induction t with
  | nil =>
    intro key fuel hf
    cases fuel with
    | zero => exact absurd hf (Nat.not_lt_zero _)
    | succ n => rfl
  | node k v l r s h ihl ihr =>
    intro key fuel hf
    cases fuel with
    | zero => exact absurd hf (Nat.not_lt_zero _)
    | succ n =>
      obtain ⟨h1, h2⟩ := trueHeight_children k v l r s h hf
      rw [remove_node]
      simp only [removeFuel]
      split_ifs
      · cases l with
        | nil =>
          cases r with
          | nil => rfl
          | node rk rv rl rr rs rh => rfl
        | node lk lv ll lr ls lh =>
          cases r with
          | nil => rfl
          | node rk rv rl rr rs rh =>
            simp only []
            rw [successorFuel_eq _ n hf]
            cases hs : successor (node k v (node lk lv ll lr ls lh) (node rk rv rl rr rs rh) s h) with
            | none => rfl
            | some m =>
              cases m with
              | nil => rfl
              | node nk nv nl nr ns nh =>
                simp only []
                rw [ihr nk n h2]
                cases remove cmp (node rk rv rl rr rs rh) nk <;> rfl
      · rw [ihl key n h1]
        cases remove cmp l key <;> rfl
      · rw [ihr key n h2]
        cases remove cmp r key <;> rfl

theorem getLoopFuel_eq [Inhabited V] (cmp : K → K → Int) (key : K) :
    ∀ (t : avlNode K V) (fuel : Nat), t.trueHeight < fuel →
      getLoopFuel cmp fuel t key = some (getLoop cmp t key) := by
  intro t
  induction t with
  | nil =>
    intro fuel hf
    cases fuel with
    | zero => exact absurd hf (Nat.not_lt_zero _)
    | succ n => rfl
  | node k v l r s h ihl ihr =>
    intro fuel hf
    cases fuel with
    | zero => exact absurd hf (Nat.not_lt_zero _)
    | succ n =>
      obtain ⟨h1, h2⟩ := trueHeight_children k v l r s h hf
      simp only [getLoopFuel, getLoop]
      split_ifs
      · rfl
      · exact ihl n h1
      · exact ihr n h2

theorem getFloorLoopFuel_eq (cmp : K → K → Int) (key : K) :
    ∀ (t : avlNode K V) (fuel : Nat) (acc : K × V × Bool), t.trueHeight < fuel →
      getFloorLoopFuel cmp fuel t key acc = some (getFloorLoop cmp t key acc) := by
  intro t
  induction t with
  | nil =>
    intro fuel acc hf
    cases fuel with
    | zero => exact absurd hf (Nat.not_lt_zero _)
    | succ n => rfl
  | node k v l r s h ihl ihr =>
    intro fuel acc hf
    cases fuel with
    | zero => exact absurd hf (Nat.not_lt_zero _)
    | succ n =>
      obtain ⟨h1, h2⟩ := trueHeight_children k v l r s h hf
      simp only [getFloorLoopFuel, getFloorLoop]
      split_ifs
      · rfl
      · exact ihl n acc h1
      · exact ihr n _ h2

theorem getCeilingLoopFuel_eq (cmp : K → K → Int) (key : K) :
    ∀ (t : avlNode K V) (fuel : Nat) (acc : K × V × Bool), t.trueHeight < fuel →
      getCeilingLoopFuel cmp fuel t key acc = some (getCeilingLoop cmp t key acc) := by
  intro t
  induction t with
  | nil =>
    intro fuel acc hf
    cases fuel with
    | zero => exact absurd hf (Nat.not_lt_zero _)
    | succ n => rfl
  | node k v l r s h ihl ihr =>
    intro fuel acc hf
    cases fuel with
    | zero => exact absurd hf (Nat.not_lt_zero _)
    | succ n =>
      obtain ⟨h1, h2⟩ := trueHeight_children k v l r s h hf
      simp only [getCeilingLoopFuel, getCeilingLoop]
      split_ifs
      · rfl
      · exact ihl n _ h1
      · exact ihr n acc h2

theorem getLowerLoopFuel_eq (cmp : K → K → Int) (key : K) :
    ∀ (t : avlNode K V) (fuel : Nat) (acc : K × V × Bool), t.trueHeight < fuel →
      getLowerLoopFuel cmp fuel t key acc = some (getLowerLoop cmp t key acc) := by
  intro t
  induction t with
  | nil =>
    intro fuel acc hf
    cases fuel with
    | zero => exact absurd hf (Nat.not_lt_zero _)
    | succ n => rfl
  | node k v l r s h ihl ihr =>
    intro fuel acc hf
    cases fuel with
    | zero => exact absurd hf (Nat.not_lt_zero _)
    | succ n =>
      obtain ⟨h1, h2⟩ := trueHeight_children k v l r s h hf
      simp only [getLowerLoopFuel, getLowerLoop]
      split_ifs
      · exact ihl n acc h1
      · exact ihr n _ h2

theorem getHigherLoopFuel_eq (cmp : K → K → Int) (key : K) :
    ∀ (t : avlNode K V) (fuel : Nat) (acc : K × V × Bool), t.trueHeight < fuel →
      getHigherLoopFuel cmp fuel t key acc = some (getHigherLoop cmp t key acc) := by
  intro t
  induction t with
  | nil =>
    intro fuel acc hf
    cases fuel with
    | zero => exact absurd hf (Nat.not_lt_zero _)
    | succ n => rfl
  | node k v l r s h ihl ihr =>
    intro fuel acc hf
    cases fuel with
    | zero => exact absurd hf (Nat.not_lt_zero _)
    | succ n =>
      obtain ⟨h1, h2⟩ := trueHeight_children k v l r s h hf
      simp only [getHigherLoopFuel, getHigherLoop]
      split_ifs
      · exact ihr n acc h2
      · exact ihl n _ h1

theorem getFirstLoopFuel_eq :
    ∀ (t : avlNode K V) (fuel : Nat), t.trueHeight < fuel →
      getFirstLoopFuel fuel t = some (getFirstLoop t) := by
  intro t
  induction t with
  | nil =>
    intro fuel hf
    cases fuel with
    | zero => exact absurd hf (Nat.not_lt_zero _)
    | succ n => rfl
  | node k v l r s h ihl _ =>
    intro fuel hf
    cases fuel with
    | zero => exact absurd hf (Nat.not_lt_zero _)
    | succ n =>
      obtain ⟨h1, _⟩ := trueHeight_children k v l r s h hf
      cases l with
      | nil => rfl
      | node lk lv ll lr ls lh =>
        simp only [getFirstLoopFuel, getFirstLoop]
        exact ihl n h1

theorem getLastLoopFuel_eq :
    ∀ (t : avlNode K V) (fuel : Nat), t.trueHeight < fuel →
      getLastLoopFuel fuel t = some (getLastLoop t) := by
  intro t
  induction t with
  | nil =>
    intro fuel hf
    cases fuel with
    | zero => exact absurd hf (Nat.not_lt_zero _)
    | succ n => rfl
  | node k v l r s h _ ihr =>
    intro fuel hf
    cases fuel with
    | zero => exact absurd hf (Nat.not_lt_zero _)
    | succ n =>
      obtain ⟨_, h2⟩ := trueHeight_children k v l r s h hf
      cases r with
      | nil => rfl
      | node rk rv rl rr rs rh =>
        simp only [getLastLoopFuel, getLastLoop]
        exact ihr n h2

/-- C34. Termination. On every tree, for every key and every comparator, lawful
or not, `insert`, `remove`, `successor` and the loops of `Get`, `GetFloor`,
`GetCeiling`, `GetLower`, `GetHigher`, `GetFirst` and `GetLast` return: run with
any bound above the true height of the tree on the depth of the recursion (the
number of loop steps), none of them reaches the bound, and the result is the one
of the unbounded definition. Each recursive call and loop step moves to a child
of the current node, also in the two-children case of `remove`. -/
theorem C34_termination [Inhabited V] (cmp : K → K → Int) (t : avlNode K V) (key : K) (value : V)
    (acc : K × V × Bool) (fuel : Nat) (hf : t.trueHeight < fuel) :
    insertFuel cmp fuel t key value = some (insert cmp t key value) ∧
    removeFuel cmp fuel t key = some (remove cmp t key) ∧
    successorLoopFuel fuel t = some (successorLoop t) ∧
    successorFuel fuel t = some (successor t) ∧
    getLoopFuel cmp fuel t key = some (getLoop cmp t key) ∧
    getFloorLoopFuel cmp fuel t key acc = some (getFloorLoop cmp t key acc) ∧
    getCeilingLoopFuel cmp fuel t key acc = some (getCeilingLoop cmp t key acc) ∧
    getLowerLoopFuel cmp fuel t key acc = some (getLowerLoop cmp t key acc) ∧
    getHigherLoopFuel cmp fuel t key acc = some (getHigherLoop cmp t key acc) ∧
    getFirstLoopFuel fuel t = some (getFirstLoop t) ∧
    getLastLoopFuel fuel t = some (getLastLoop t) :=
  ⟨insertFuel_eq cmp key value t fuel hf, removeFuel_eq cmp t key fuel hf,
    successorLoopFuel_eq t fuel hf, successorFuel_eq t fuel (Nat.lt_succ_of_lt hf),
    getLoopFuel_eq cmp key t fuel hf, getFloorLoopFuel_eq cmp key t fuel acc hf,
    getCeilingLoopFuel_eq cmp key t fuel acc hf, getLowerLoopFuel_eq cmp key t fuel acc hf,
    getHigherLoopFuel_eq cmp key t fuel acc hf, getFirstLoopFuel_eq t fuel hf,
    getLastLoopFuel_eq t fuel hf⟩

/-! ## The successor of a node with a right subtree -/

theorem Subtree_refl (t : avlNode K V) : Subtree t t := by
  cases t with
  | nil => rfl
  | node k v l r s h => exact Or.inl rfl

theorem Subtree_keys {n : avlNode K V} :
    ∀ {t : avlNode K V}, Subtree n t → ∀ x ∈ n.keys, x ∈ t.keys := by
  intro t
  induction t with
  | nil =>
    intro hs x hx
    rw [show n = nil from hs] at hx
    exact hx
  | node k v l r s h ihl ihr =>
    intro hs x hx
    rcases hs with e | hs | hs
    · rw [e] at hx; exact hx
    · exact mem_keys_node.2 (Or.inl (ihl hs x hx))
    · exact mem_keys_node.2 (Or.inr (Or.inr (ihr hs x hx)))

theorem Subtree_BST {cmp : K → K → Int} {n : avlNode K V} :
    ∀ {t : avlNode K V}, Subtree n t → t.BST cmp → n.BST cmp := by
  intro t
  induction t with
  | nil =>
    intro hs hb
    rw [show n = nil from hs]
    exact hb
  | node k v l r s h ihl ihr =>
    intro hs hb
    rcases hs with e | hs | hs
    · rw [e]; exact hb
    · exact ihl hs hb.1
    · exact ihr hs hb.2.1

/-- In an ordered tree every key outside an occurring node lies on one side of
all the keys of that node. -/
theorem Subtree_sides {cmp : K → K → Int} (hc : LawfulCmp cmp) {n : avlNode K V} :
    ∀ {t : avlNode K V}, Subtree n t → t.BST cmp → ∀ x ∈ t.keys,
      x ∈ n.keys ∨ (∀ y ∈ n.keys, cmp x y < 0) ∨ (∀ y ∈ n.keys, cmp x y > 0) := by
  intro t
  induction t with
  | nil =>
    intro _ _ x hx
    simp [keys_nil] at hx
  | node k v l r s h ihl ihr =>
    intro hs hb x hx
    obtain ⟨hbl, hbr, hlt, hgt⟩ := hb
    rcases hs with e | hs | hs
    · left; rw [e]; exact hx
    · have hsub := Subtree_keys hs
      rcases mem_keys_node.1 hx with h1 | h1 | h1
      · exact ihl hs hbl x h1
      · right; right
        intro y hy
        have := hlt y (hsub y hy)
        rw [h1]
        exact (hc.lt_iff_gt y k).1 this
      · right; right
        intro y hy
        have h2 := hlt y (hsub y hy)
        have h3 : cmp k x < 0 := (hc.lt_iff_gt k x).2 (hgt x h1)
        exact (hc.lt_iff_gt y x).1 (hc.lt_trans h2 h3)
    · have hsub := Subtree_keys hs
      rcases mem_keys_node.1 hx with h1 | h1 | h1
      · right; left
        intro y hy
        have h2 : cmp k y < 0 := (hc.lt_iff_gt k y).2 (hgt y (hsub y hy))
        exact hc.lt_trans (hlt x h1) h2
      · right; left
        intro y hy
        rw [h1]
        exact (hc.lt_iff_gt k y).2 (hgt y (hsub y hy))
      · exact ihr hs hbr x h1

/-- The loop of `successor` stops at a node of the subtree it starts from. -/
theorem successorLoop_Subtree :
    ∀ (r n : avlNode K V), successorLoop r = some n → Subtree n r := by
  intro r
  induction r with
  | nil => intro n h; simp [successorLoop] at h
  | node k v l r s ht ihl _ =>
    intro n h
    cases l with
    | nil =>
      simp only [successorLoop] at h
      cases h
      exact Or.inl rfl
    | node lk lv ll lr ls lh =>
      rw [successorLoop] at h
      exact Or.inr (Or.inl (ihl n h))

/-- The loop of `successor` and the loop of `GetFirst` stop at the same node. -/
theorem successorLoop_eq_getFirstLoop :
    ∀ (r n : avlNode K V), successorLoop r = some n → getFirstLoop r = n := by
  intro r
  induction r with
  | nil => intro n h; simp [successorLoop] at h
  | node k v l r s ht ihl _ =>
    intro n h
    cases l with
    | nil =>
      simp only [successorLoop] at h
      cases h
      rfl
    | node lk lv ll lr ls lh =>
      rw [successorLoop] at h
      rw [getFirstLoop]
      exact ihl n h

/-- The search of `remove` for the key at which the loop of `successor` stops
ends at a node without a left child. -/
theorem removeCase_successor {cmp : K → K → Int} (hc : LawfulCmp cmp) :
    ∀ (r : avlNode K V) (nk : K) (nv : V) (nr : avlNode K V) (ns nh : Int), r.BST cmp →
      successorLoop r = some (node nk nv nil nr ns nh) →
      removeCase cmp r nk = RemoveCase.noChild ∨ removeCase cmp r nk = RemoveCase.rightOnly := by
  intro r
  induction r with
  | nil => intro nk nv nr ns nh _ h; simp [successorLoop] at h
  | node k v l r s ht ihl _ =>
    intro nk nv nr ns nh hb h
    cases l with
    | nil =>
      simp only [successorLoop] at h
      cases h
      simp only [removeCase, hc.refl, if_true]
      cases r with
      | nil => exact Or.inl rfl
      | node rk rv rl rr rs rh => exact Or.inr rfl
    | node lk lv ll lr ls lh =>
      rw [successorLoop] at h
      obtain ⟨nk1, nv1, nr1, ns1, nh1, rest, e1, e2⟩ := successorLoop_toList _ _ h
      cases e1
      have hmem : nk ∈ (node lk lv ll lr ls lh).keys := by
        unfold keys
        rw [e2]
        exact List.mem_cons_self _ _
      have hlt : cmp nk k < 0 := hb.2.2.1 nk hmem
      have hgt : cmp k nk > 0 := (hc.lt_iff_gt nk k).1 hlt
      have hne : cmp k nk ≠ 0 := by omega
      simp only [removeCase, if_neg hne, if_pos hgt] 
      exact ihl nk nv nr ns nh hb.1 h

theorem removeTraced_node (cmp : K → K → Int) (k : K) (v : V) (l r : avlNode K V) (s h : Int)
    (key : K) :
    removeTraced cmp (node k v l r s h) key =
      if cmp k key = 0 then
        match l, r with
        | nil, nil => (some nil, RemoveCase.noChild)
        | nil, r0 => (some r0, RemoveCase.rightOnly)
        | l0, nil => (some l0, RemoveCase.leftOnly)
        | l0, r0 =>
            (match successor (node k v l0 r0 s h) with
              | some (node nk nv _ _ _ _) =>
                  match (removeTraced cmp r nk).1 with
                  | none => none
                  | some r1 => fix (Maintain (node nk nv l0 r1 s h))
              | _ => none,
             RemoveCase.twoChildren)
      else if cmp k key > 0 then
        (match (removeTraced cmp l key).1 with
          | none => none
          | some l1 => fix (Maintain (node k v l1 r s h)),
         (removeTraced cmp l key).2)
      else
        (match (removeTraced cmp r key).1 with
          | none => none
          | some r1 => fix (Maintain (node k v l r1 s h)),
         (removeTraced cmp r key).2) := by
  cases l <;> cases r <;> rfl

theorem removeCase_node (cmp : K → K → Int) (k : K) (v : V) (l r : avlNode K V) (s h : Int)
    (key : K) :
    removeCase cmp (node k v l r s h) key =
      if cmp k key = 0 then
        match l, r with
        | nil, nil => RemoveCase.noChild
        | nil, _ => RemoveCase.rightOnly
        | _, nil => RemoveCase.leftOnly
        | _, _ => RemoveCase.twoChildren
      else if cmp k key > 0 then removeCase cmp l key
      else removeCase cmp r key := by
  cases l <;> cases r <;> rfl

/-- The traced `remove` returns the result of `remove` and the case that
`removeCase` finds, for every tree, key and comparator. -/
theorem removeTraced_eq (cmp : K → K → Int) :
    ∀ (t : avlNode K V) (key : K),
      removeTraced cmp t key = (remove cmp t key, removeCase cmp t key) := by
  intro t
  induction t with
  | nil => intro key; rfl
  | node k v l r s h ihl ihr =>
    intro key
    rw [remove_node, removeTraced_node, removeCase_node]
    by_cases h0 : cmp k key = 0
    · rw [if_pos h0, if_pos h0, if_pos h0]
      cases l with
      | nil =>
        cases r with
        | nil => rfl
        | node rk rv rl rr rs rh => rfl
      | node lk lv ll lr ls lh =>
        cases r with
        | nil => rfl
        | node rk rv rl rr rs rh =>
          simp only []
          cases hs : successor (node k v (node lk lv ll lr ls lh) (node rk rv rl rr rs rh) s h) with
          | none => rfl
          | some m =>
            cases m with
            | nil => rfl
            | node nk nv nl nr ns nh =>
              simp only [ihr nk]
    · rw [if_neg h0, if_neg h0, if_neg h0]
      by_cases h1 : cmp k key > 0
      · rw [if_pos h1, if_pos h1, if_pos h1, ihl key]
      · rw [if_neg h1, if_neg h1, if_neg h1, ihr key]

/-- For the key at which the loop of `successor` stops, `remove` on an ordered
subtree is the removal of the leftmost node: its search ends at the node without
a left child, whose right subtree takes its place. -/
theorem remove_eq_removeLeftmost {cmp : K → K → Int} (hc : LawfulCmp cmp) :
    ∀ (r : avlNode K V) (nk : K) (nv : V) (nr : avlNode K V) (ns nh : Int), r.BST cmp →
      successorLoop r = some (node nk nv nil nr ns nh) →
      remove cmp r nk = removeLeftmost r := by
  intro r
  induction r with
  | nil => intro nk nv nr ns nh _ h; simp [successorLoop] at h
  | node k v l r s ht ihl _ =>
    intro nk nv nr ns nh hb h
    cases l with
    | nil =>
      simp only [successorLoop] at h
      cases h
      rw [remove_node, if_pos (hc.refl _)]
      cases r with
      | nil => rfl
      | node rk rv rl rr rs rh => rfl
    | node lk lv ll lr ls lh =>
      rw [successorLoop] at h
      obtain ⟨nk1, nv1, nr1, ns1, nh1, rest, e1, e2⟩ := successorLoop_toList _ _ h
      cases e1
      have hmem : nk ∈ (node lk lv ll lr ls lh).keys := by
        unfold keys
        rw [e2]
        exact List.mem_cons_self _ _
      have hlt : cmp nk k < 0 := hb.2.2.1 nk hmem
      have hgt : cmp k nk > 0 := (hc.lt_iff_gt nk k).1 hlt
      have hne : cmp k nk ≠ 0 := by omega
      rw [remove_node, if_neg hne, if_pos hgt, ihl nk nv nr ns nh hb.1 h]
      rfl

/-- The two-children case of `remove`: the entry of the successor is copied up
and the successor's key is removed from the right subtree. -/
theorem remove_two_children (cmp : K → K → Int) (k : K) (v : V) (l r : avlNode K V)
    (s h : Int) (key : K) (h0 : cmp k key = 0) (hl : l ≠ nil) (hr : r ≠ nil)
    (nk : K) (nv : V) (nl nr : avlNode K V) (ns nh : Int)
    (hs : successor (node k v l r s h) = some (node nk nv nl nr ns nh)) :
    remove cmp (node k v l r s h) key =
      (remove cmp r nk).bind (fun r1 => fix (Maintain (node nk nv l r1 s h))) := by
  rw [remove_node, if_pos h0]
  cases l with
  | nil => exact absurd rfl hl
  | node lk lv ll lr ls lh =>
    cases r with
    | nil => exact absurd rfl hr
    | node rk rv rl rr rs rh =>
      simp only [hs]
      cases remove cmp (node rk rv rl rr rs rh) nk <;> rfl

/-- C32. Successor used by two-child removal. For a node `n` with a present
right subtree, occurring in a tree `T` ordered by a lawful comparator:
`successor(n)` returns a node of the right subtree that has no left child and
holds the first in-order entry of the right subtree, the node where descending
left from `n.Right` stops; its key compares greater than the key of `n`, is a key
of `T`, and is at most every key of `T` that compares greater than the key of
`n`. Consequently the recursive call `remove(n.Right, successorKey)` of the
two-children case finds that key and ends in the no-child or one-child case: its
search ends at a node with no child or with a right child only (`removeCase`,
the case that the traced `remove` returns with the result of `remove`); it is the
removal of the leftmost node of `n.Right`, whose right subtree takes its place;
its result holds the entries of `n.Right` without the first; it returns whenever
the cached heights of `n.Right` are correct; and `remove` at `n` with a left
child copies the successor's entry up and puts that result in `n.Right`. -/
theorem C32_successor {cmp : K → K → Int} (hc : LawfulCmp cmp) (T : avlNode K V)
    (hT : T.BST cmp) (k : K) (v : V) (l r : avlNode K V) (s h : Int)
    (hsub : Subtree (node k v l r s h) T) (hr : r ≠ nil) :
    ∃ nk nv nr ns nh rest,
      successor (node k v l r s h) = some (node nk nv nil nr ns nh) ∧
      Subtree (node nk nv nil nr ns nh) r ∧
      getFirstLoop r = node nk nv nil nr ns nh ∧
      r.toList = (nk, nv) :: rest ∧
      cmp nk k > 0 ∧ nk ∈ T.keys ∧
      (∀ x ∈ T.keys, cmp x k > 0 → cmp nk x ≤ 0) ∧
      (removeCase cmp r nk = RemoveCase.noChild ∨
        removeCase cmp r nk = RemoveCase.rightOnly) ∧
      removeTraced cmp r nk = (remove cmp r nk, removeCase cmp r nk) ∧
      remove cmp r nk = removeLeftmost r ∧
      (∀ r1, remove cmp r nk = some r1 → r1.toList = rest) ∧
      (r.HeightsOK → ∃ r1, remove cmp r nk = some r1 ∧ r1.toList = rest) ∧
      (∀ key, cmp k key = 0 → l ≠ nil →
        remove cmp (node k v l r s h) key =
          (remove cmp r nk).bind (fun r1 => fix (Maintain (node nk nv l r1 s h)))) := by
  cases r with
  | nil => exact absurd rfl hr
  | node rk rv rl rr rs rh =>
    obtain ⟨nk, nv, nr, ns, nh, e⟩ := successorLoop_some rk rv rl rr rs rh
    obtain ⟨nk1, nv1, nr1, ns1, nh1, rest, e1, e2⟩ := successorLoop_toList _ _ e
    cases e1
    have hn := Subtree_BST hsub hT
    obtain ⟨hbl, hbr, hlt, hgt⟩ := hn
    have hnk_r : nk ∈ (node rk rv rl rr rs rh).keys := by
      unfold keys
      rw [e2]
      exact List.mem_cons_self _ _
    have hnk_n : nk ∈ (node k v l (node rk rv rl rr rs rh) s h).keys :=
      mem_keys_node.2 (Or.inr (Or.inr hnk_r))
    have hk_n : k ∈ (node k v l (node rk rv rl rr rs rh) s h).keys :=
      mem_keys_node.2 (Or.inr (Or.inl rfl))
    have hsorted := (BST_iff_sorted hc _).1 hbr
    unfold keys at hsorted
    rw [e2, List.map_cons, List.pairwise_cons] at hsorted
    have hmin_r : ∀ x ∈ (node rk rv rl rr rs rh).keys, cmp nk x ≤ 0 := by
      intro x hx
      unfold keys at hx
      rw [e2, List.map_cons, List.mem_cons] at hx
      rcases hx with hx | hx
      · rw [hx]; exact le_of_eq (hc.refl nk)
      · exact le_of_lt (hsorted.1 x hx)
    have htl : ∀ r1, remove cmp (node rk rv rl rr rs rh) nk = some r1 → r1.toList = rest := by
      intro r1 hr1
      rw [remove_toList hc _ _ nk hbr hr1, e2, delList_cons_eq cmp nk nk nv rest (hc.refl nk)]
      apply delList_eq_self
      intro x hx
      have h1 : cmp nk x.1 < 0 := hsorted.1 x.1 (List.mem_map.2 ⟨x, hx, rfl⟩)
      have h2 := (hc.lt_iff_gt nk x.1).1 h1
      omega
    refine ⟨nk, nv, nr, ns, nh, rest, e, successorLoop_Subtree _ _ e,
      successorLoop_eq_getFirstLoop _ _ e, e2, hgt nk hnk_r, Subtree_keys hsub nk hnk_n, ?_,
      removeCase_successor hc _ nk nv nr ns nh hbr e, removeTraced_eq cmp _ nk,
      remove_eq_removeLeftmost hc _ nk nv nr ns nh hbr e, htl, ?_, ?_⟩
    · intro x hx hxk
      rcases Subtree_sides hc hsub hT x hx with h1 | h1 | h1
      · rcases mem_keys_node.1 h1 with h2 | h2 | h2
        · have := hlt x h2
          omega
        · rw [h2, hc.refl] at hxk
          omega
        · exact hmin_r x h2
      · have := h1 k hk_n
        omega
      · have := h1 nk hnk_n
        exact le_of_lt ((hc.lt_iff_gt nk x).2 this)
    · intro hh
      obtain ⟨r1, e3, _⟩ := remove_some_of_HeightsOK cmp _ nk hh
      exact ⟨r1, e3, htl r1 e3⟩
    · intro key h0 hl
      exact remove_two_children cmp k v l _ s h key h0 hl hr nk nv nil nr ns nh e

/-! ## The test oracle `checkBalBST` -/

theorem check_node (key val : Int) (l r : avlNode Int Int) (s h : Int)
    (lmin lmax lh : Int) (lok : Bool) (rmin rmax rh : Int) (rok : Bool)
    (hl : check l = some (lmin, lmax, lh, lok)) (hr : check r = some (rmin, rmax, rh, rok)) :
    check (node key val l r s h) =
      if (lok && rok && decide (lmax ≤ key) && decide (key ≤ rmin) &&
          decide (container.abs (lh - rh) ≤ 1)) = false then none
      else some (container.min lmin rmin, container.max lmax rmax, 1 + container.max lh rh,
        lok && rok && decide (lmax ≤ key) && decide (key ≤ rmin) &&
          decide (container.abs (lh - rh) ≤ 1)) := by
  simp only [check, hl, hr]

theorem check_none_left (key val : Int) (l r : avlNode Int Int) (s h : Int)
    (hl : check l = none) : check (node key val l r s h) = none := by
  simp only [check, hl]

theorem check_none_right (key val : Int) (l r : avlNode Int Int) (s h : Int)
    (x : Int × Int × Int × Bool) (hl : check l = some x)
    (hr : check r = none) : check (node key val l r s h) = none := by
  obtain ⟨a, b, c, d⟩ := x
  simp only [check, hl, hr]

/-- The closure `check` returns exactly on the trees that are balanced at every
node, and then always with the bounds `(MaxInt64, MinInt64)`: the keys never
enter the bounds it returns, so its order tests compare every key with
`MinInt64` and `MaxInt64` only. -/
theorem check_eq : ∀ t : avlNode Int Int, (∀ x ∈ t.keys, MinInt64 ≤ x ∧ x ≤ MaxInt64) →
    (t.Balanced → check t = some (MaxInt64, MinInt64, (t.trueHeight : Int), true)) ∧
    (¬ t.Balanced → check t = none) := by
  intro t
  induction t with
  | nil =>
    intro _
    exact ⟨fun _ => rfl, fun h => absurd trivial h⟩
  | node k v l r s h ihl ihr =>
    intro hk
    have hkl : ∀ x ∈ l.keys, MinInt64 ≤ x ∧ x ≤ MaxInt64 :=
      fun x hx => hk x (mem_keys_node.2 (Or.inl hx))
    have hkr : ∀ x ∈ r.keys, MinInt64 ≤ x ∧ x ≤ MaxInt64 :=
      fun x hx => hk x (mem_keys_node.2 (Or.inr (Or.inr hx)))
    obtain ⟨hk1, hk2⟩ := hk k (mem_keys_node.2 (Or.inr (Or.inl rfl)))
    obtain ⟨il1, il2⟩ := ihl hkl
    obtain ⟨ir1, ir2⟩ := ihr hkr
    by_cases hbl : l.Balanced
    · by_cases hbr : r.Balanced
      · have e := check_node k v l r s h _ _ _ _ _ _ _ _ (il1 hbl) (ir1 hbr)
        by_cases hd : container.abs ((l.trueHeight : Int) - r.trueHeight) ≤ 1
        · have hbal : (node k v l r s h).Balanced := by
            refine ⟨hbl, hbr, ?_⟩
            unfold container.abs at hd
            split_ifs at hd <;> omega
          refine ⟨fun _ => ?_, fun hn => absurd hbal hn⟩
          rw [e]
          simp only [hk1, hk2, hd, decide_True, Bool.and_self, Bool.true_eq_false, if_false]
          have e1 : container.min MaxInt64 MaxInt64 = MaxInt64 := by decide
          have e2 : container.max MinInt64 MinInt64 = MinInt64 := by decide
          rw [e1, e2, max_eq]
          simp only [trueHeight]
          push_cast
          rfl
        · have hbal : ¬ (node k v l r s h).Balanced := by
            rintro ⟨_, _, h3⟩
            apply hd
            unfold container.abs
            split_ifs <;> omega
          refine ⟨fun hb => absurd hb hbal, fun _ => ?_⟩
          rw [e]
          simp [hd]
      · have hbal : ¬ (node k v l r s h).Balanced := fun hb => hbr hb.2.1
        exact ⟨fun hb => absurd hb hbal,
          fun _ => check_none_right k v l r s h _ (il1 hbl) (ir2 hbr)⟩
    · have hbal : ¬ (node k v l r s h).Balanced := fun hb => hbl hb.1
      exact ⟨fun hb => absurd hb hbal, fun _ => check_none_left k v l r s h (il2 hbl)⟩

/-- On trees with keys in the range of `int`, `checkBalBST` returns exactly when
the tree is balanced at every node, whatever the order of the keys. -/
theorem checkBalBST_iff_Balanced (t : AVLTree Int Int)
    (hk : ∀ x ∈ t.root.keys, MinInt64 ≤ x ∧ x ≤ MaxInt64) :
    checkBalBST t = some () ↔ t.root.Balanced := by
  obtain ⟨h1, h2⟩ := check_eq t.root hk
  unfold checkBalBST
  by_cases hb : t.root.Balanced
  · rw [h1 hb]
    exact ⟨fun _ => hb, fun _ => rfl⟩
  · rw [h2 hb]
    exact ⟨fun e => (by cases e), fun h => absurd h hb⟩

/-- C38. The test oracle `checkBalBST` does not reject trees that violate the
order. On the tree whose root has key 1 and whose left child has key 2, where a
key of the left subtree is greater than the key of the node, `checkBalBST`
returns without panicking: `check` returns `min(lmin, rmin)` and
`max(lmax, rmax)` without the key of the node, so the bounds it compares the keys
with are always `MinInt64` and `MaxInt64`. -/
theorem C38_checkBalBST_accepts_unordered :
    checkBalBST (AVLTree.mk treeLeft2 CmpLess) = some () ∧
    check treeLeft2 = some (MaxInt64, MinInt64, 2, true) ∧
    ¬ treeLeft2.WeakOrdered ∧ ¬ treeLeft2.BST CmpLess := by
  refine ⟨by decide, by decide, by decide, by decide⟩

/-! ## Instances of the theorems on concrete trees, continued -/

theorem C31_fix_identity_witness :
    (-1 ≤ (node (2 : Int) (0 : Int) (node 1 0 nil nil 1 1) nil 2 2).Height -
        (node (4 : Int) (0 : Int) nil (node 5 0 nil nil 1 1) 2 2).Height ∧
      (node (2 : Int) (0 : Int) (node 1 0 nil nil 1 1) nil 2 2).Height -
        (node (4 : Int) (0 : Int) nil (node 5 0 nil nil 1 1) 2 2).Height ≤ 1) ∧
    fix tree12345 = some tree12345 :=
  ⟨by decide,
    (C31_fix_identity (3 : Int) (0 : Int) (node 2 0 (node 1 0 nil nil 1 1) nil 2 2)
      (node 4 0 nil (node 5 0 nil nil 1 1) 2 2) 5 3 (by decide)).2⟩

theorem C32_successor_witness :
    LawfulCmp (CmpLess : Int → Int → Int) ∧
    (node (2 : Int) (0 : Int) (node 1 0 nil nil 1 1)
      (node 4 0 (node 3 0 nil nil 1 1) nil 2 2) 4 3).BST CmpLess ∧
    ∃ nk nv nr ns nh,
      successor (node (2 : Int) (0 : Int) (node 1 0 nil nil 1 1)
        (node 4 0 (node 3 0 nil nil 1 1) nil 2 2) 4 3) = some (node nk nv nil nr ns nh) ∧
      CmpLess nk 2 > 0 ∧
      (removeCase CmpLess (node (4 : Int) (0 : Int) (node 3 0 nil nil 1 1) nil 2 2) nk
          = RemoveCase.noChild ∨
        removeCase CmpLess (node (4 : Int) (0 : Int) (node 3 0 nil nil 1 1) nil 2 2) nk
          = RemoveCase.rightOnly) ∧
      remove CmpLess (node (4 : Int) (0 : Int) (node 3 0 nil nil 1 1) nil 2 2) nk
        = removeLeftmost (node (4 : Int) (0 : Int) (node 3 0 nil nil 1 1) nil 2 2) :=
  ⟨CmpLess_lawful, by decide,
    match C32_successor CmpLess_lawful
      (node (2 : Int) (0 : Int) (node 1 0 nil nil 1 1)
        (node 4 0 (node 3 0 nil nil 1 1) nil 2 2) 4 3) (by decide)
      2 0 (node 1 0 nil nil 1 1) (node 4 0 (node 3 0 nil nil 1 1) nil 2 2) 4 3
      (Or.inl rfl) (by simp) with
    | ⟨nk, nv, nr, ns, nh, _, e, _, _, _, hgt, _, _, hcase, _, hrm, _⟩ =>
      ⟨nk, nv, nr, ns, nh, e, hgt, hcase, hrm⟩⟩

theorem C33_remove_one_child_witness :
    CmpLess (4 : Int) 4 = 0 ∧
    remove CmpLess (node (4 : Int) (0 : Int) nil (node 5 0 nil nil 1 1) 2 2) 4
      = some (node 5 0 nil nil 1 1) :=
  ⟨by decide,
    (C33_remove_one_child CmpLess (4 : Int) (0 : Int) nil (node 5 0 nil nil 1 1) 2 2 4
      (by decide)).2.1⟩

theorem C34_termination_witness :
    tree12345.trueHeight < 4 ∧
    insertFuel CmpLess 4 tree12345 6 0 = some (insert CmpLess tree12345 6 0) ∧
    removeFuel CmpLess 4 tree12345 3 = some (remove CmpLess tree12345 3) :=
  ⟨by decide,
    (C34_termination CmpLess tree12345 6 0 (0, 0, false) 4 (by decide)).1,
    (C34_termination CmpLess tree12345 3 0 (0, 0, false) 4 (by decide)).2.1⟩

theorem C35_no_missing_node_witness :
    tree12345.HeightsOK ∧
    (∃ t1, (AVLTree.mk tree12345 CmpLess).Insert 6 0 = some t1 ∧ t1.root.HeightsOK) ∧
    (∃ t1, (AVLTree.mk tree12345 CmpLess).Remove 3 = some t1 ∧ t1.root.HeightsOK) :=
  ⟨by decide, (C35_no_missing_node CmpLess tree12345 (by decide) 6 0).2.2.2.2.2.1,
    (C35_no_missing_node CmpLess tree12345 (by decide) 3 0).2.2.2.2.2.2.1⟩

theorem C36_height_step_witness :
    tree12345.CachesOK ∧ tree12345.Balanced ∧
    ∃ t1, (AVLTree.mk tree12345 CmpLess).Remove 3 = some t1 ∧
      (t1.root.Height = tree12345.Height ∨ t1.root.Height = tree12345.Height - 1) :=
  ⟨by decide, by decide,
    match (C36_height_step (AVLTree.mk tree12345 CmpLess) (by decide) (by decide) 3 0).2 with
    | ⟨t1, e, _, hh, _⟩ => ⟨t1, e, hh⟩⟩

theorem C37_height_logarithmic_witness :
    tree12345.CachesOK ∧ tree12345.Balanced ∧
    ∃ h : Nat, tree12345.Height = (h : Int) ∧ h = tree12345.trueHeight ∧
      (Nat.fib (h + 2) : Int) - 1 ≤ (AVLTree.mk tree12345 CmpLess).Len ∧
      (AVLTree.mk tree12345 CmpLess).Len ≤ 2 ^ h - 1 :=
  ⟨by decide, by decide,
    (C37_height_logarithmic (AVLTree.mk tree12345 CmpLess) (by decide) (by decide)).1⟩

end container
